import Mathlib

/-!
# Discovery-and-reconciliation orchestrator

A shallow embedding of `src/src/parsing-server.js` (class `ParsingServer`):
the locator `findDockerFiles`, the reducer `parseServices`, the merge loop and
the single-flight guard of `scanEnvironment`, the fan-out of
`screenshotServices`, the capture task `takeScreenshot` and the reachability
check `isServiceHealthy`; and of `src/src/dockerfile-parser.js` (class
`DockerfileParser`): `parseDockerfile` and `parseCommand`.

* JavaScript values that the manifest parser can return are the type `JSVal`.
* A plain object used as a dictionary (`const services = {}`, the `env`
  accumulator) has the semantics of ordinary property reads and writes on an
  object whose prototype is `Object.prototype`: a read falls back to inherited
  members, and a write to the key `__proto__` runs the inherited setter instead
  of creating an own property. The registry `this.services` is a `Map` and has
  no such fallback.
* Absolute, normalised POSIX paths (the only paths `findDockerFiles` builds, by
  `path.join` below the resolved root) are lists of components.
* The external collaborators (`fs.readdir`, `fs.readFile`, the build-file
  parser, the YAML parser) are inputs; an exception of a collaborator is `none`.
* `scanEnvironment` is an `async` function: a call runs up to its first
  `await`, and each later `await` is a point at which other events interleave.
* A capture task and a reachability check are given by the trace of the calls
  they await (rendering collaborator, file system, timer) and by how they
  settle, for an arbitrary outcome of every awaited call.
* Strings of the build-file parser are lists of characters; `trim`, `split`,
  `substring`, `indexOf` and the global `isNaN` follow ECMAScript.
-/

namespace JS

/-- The values a JSON-like tree is made of. Numbers are represented by
integers: every operation the reducer applies to a number (truthiness, reading
a property, calling a missing method) treats `NaN` like `0` and every other
number like a non-zero integer. -/
inductive JSVal where
  | undefined
  | null
  | bool (b : Bool)
  | num (n : Int)
  | str (s : String)
  | arr (xs : List JSVal)
  | obj (ps : List (String × JSVal))

/-- The exceptions the modelled code can raise. -/
inductive JSError where
  | typeError
  deriving DecidableEq

/-- ECMAScript `ToBoolean`. -/
def truthy : JSVal → Bool
  | .undefined => false
  | .null => false
  | .bool b => b
  | .num n => n != 0
  | .str s => s != ""
  | .arr _ => true
  | .obj _ => true

/-- Property read `v.k` for a key `k` that no built-in prototype defines
(`services`, `ports`, `environment`, `image`, `build`): reading from
`undefined` or `null` raises a `TypeError`, an object yields its own property
or `undefined`, every other value yields `undefined`. -/
def getField (v : JSVal) (k : String) : Except JSError JSVal :=
  match v with
  | .undefined => .error .typeError
  | .null => .error .typeError
  | .obj ps => .ok ((ps.lookup k).getD .undefined)
  | _ => .ok .undefined

/-- Numeric value of a string of decimal digits. -/
def digitsValue (cs : List Char) : Nat :=
  cs.foldl (fun n c => 10 * n + (c.toNat - 48)) 0

/-- Whether a property key is an array index: a canonical decimal numeral
below `2^32 - 1`. -/
def isArrayIndex (k : String) : Bool :=
  let cs := k.toList
  !cs.isEmpty && cs.all Char.isDigit && (cs.head? != some '0' || cs.length == 1)
    && decide (digitsValue cs < 4294967295)

/-- Order of two array-index keys. -/
def indexLE {α : Type} (a b : String × α) : Prop :=
  digitsValue a.1.toList ≤ digitsValue b.1.toList

instance indexLE_decidable {α : Type} : DecidableRel (@indexLE α) :=
  fun a b => Nat.decLe (digitsValue a.1.toList) (digitsValue b.1.toList)

/-- `OrdinaryOwnPropertyKeys`: array-index keys in ascending numeric order,
then the other string keys in order of creation. The argument lists the own
properties in order of creation. -/
def ownEntries {α : Type} (ps : List (String × α)) : List (String × α) :=
  (ps.filter (fun p => isArrayIndex p.1)).insertionSort indexLE
    ++ ps.filter (fun p => !isArrayIndex p.1)

/-- Pairs `(String(i), x_i)` for the elements of an array-like. -/
def indexedFrom {α : Type} : Nat → List α → List (String × α)
  | _, [] => []
  | i, x :: xs => (toString i, x) :: indexedFrom (i + 1) xs

/-- `Object.entries(v)`: own enumerable string-keyed properties. A string is
read character by character (exact for characters of the Basic Multilingual
Plane); numbers and booleans have none; `undefined` and `null` raise. -/
def objectEntries : JSVal → Except JSError (List (String × JSVal))
  | .undefined => .error .typeError
  | .null => .error .typeError
  | .obj ps => .ok (ownEntries ps)
  | .arr xs => .ok (indexedFrom 0 xs)
  | .str s => .ok (indexedFrom 0 (s.toList.map (fun c => JSVal.str (String.singleton c))))
  | _ => .ok []

/-- `s.startsWith(p)`. -/
def startsWith (s p : String) : Bool := p.toList.isPrefixOf s.toList

/-- `s.endsWith(p)`. -/
def endsWith (s p : String) : Bool := p.toList.isSuffixOf s.toList

/-- `p.split(':')[0]`: the characters before the first colon. -/
def firstColonToken (p : String) : String :=
  String.mk (p.toList.takeWhile (fun c => c != ':'))

/-- The members every plain object inherits from `Object.prototype` as
data properties (all of them functions, hence truthy). The accessor
`__proto__` is treated separately. -/
def objectPrototypeKeys : List String :=
  ["constructor", "__defineGetter__", "__defineSetter__", "hasOwnProperty",
   "__lookupGetter__", "__lookupSetter__", "isPrototypeOf", "propertyIsEnumerable",
   "toString", "valueOf", "toLocaleString"]

/-- Assignment `o[k] = v` on a list of own properties when the key is not
`__proto__`: an existing own property keeps its position and takes the new
value, a new key is appended. -/
def setOwn {α : Type} (k : String) (v : α) : List (String × α) → List (String × α)
  | [] => [(k, v)]
  | (k', v') :: ps => if k' = k then (k, v) :: ps else (k', v') :: setOwn k v ps

end JS

open JS

/-- An absolute normalised path, as the list of its components below `/`. -/
abbrev AbsPath := List String

/-- `path.dirname` on an absolute normalised path. -/
def AbsPath.dirname (p : AbsPath) : AbsPath := p.dropLast

/-- `path.basename` on an absolute normalised path (`basename('/')` is `''`). -/
def AbsPath.basename (p : AbsPath) : String := p.getLast?.getD ""

/-- One instruction of a parsed build file, in the shape the parser's
interface gives it: `{name, args[]}` with string arguments. -/
structure Instruction where
  name : String
  args : List String

/-- The object literal stored per service. `exposedPorts = none` is the value
`undefined`; `image` and `build` are `none` when the literal has no such
property (build-file entries) and `some v` when it has one with value `v`. -/
structure ServiceDef where
  type : String
  file : AbsPath
  exposedPorts : Option (List String)
  env : JSVal
  image : Option JSVal
  build : Option JSVal

/-- Whether reading property `k` from a stored entry gives a truthy value. The
`file` string of an absolute path is never empty. -/
def ServiceDef.propTruthy (d : ServiceDef) (k : String) : Bool :=
  if k = "type" then d.type != ""
  else if k = "file" then true
  else if k = "exposedPorts" then d.exposedPorts.isSome
  else if k = "env" then truthy d.env
  else if k = "image" then (d.image.map truthy).getD false
  else if k = "build" then (d.build.map truthy).getD false
  else false

/-- The local `services` object of `parseServices`: its own properties in order
of creation, and the entry installed as its prototype by an assignment to
`__proto__`, if any. -/
structure ServicesObj where
  own : List (String × ServiceDef)
  proto : Option ServiceDef

namespace ServicesObj

/-- The object literal `{}`. -/
def empty : ServicesObj := ⟨[], none⟩

/-- Truthiness of the read `services[name]`: an own property (always an
object), else the `__proto__` accessor (always an object), else a property of
the installed prototype, else a member of `Object.prototype`. -/
def truthyAt (o : ServicesObj) (name : String) : Bool :=
  o.own.any (fun p => p.1 == name)
    || name == "__proto__"
    || (o.proto.map (fun d => d.propTruthy name)).getD false
    || objectPrototypeKeys.contains name

/-- The write `services[name] = d`. -/
def assign (o : ServicesObj) (name : String) (d : ServiceDef) : ServicesObj :=
  if o.own.any (fun p => p.1 == name) then { o with own := setOwn name d o.own }
  else if name = "__proto__" then { o with proto := some d }
  else { o with own := setOwn name d o.own }

/-- `Object.entries(services)`. -/
def entries (o : ServicesObj) : List (String × ServiceDef) := ownEntries o.own

end ServicesObj

/-- What the server writes to the console. -/
inductive LogMsg where
  | scanning
  | scanComplete
  | scanError (e : JSError)
  | readDirFailed (dir : AbsPath)
  | readDockerfileFailed (file : AbsPath)
  | parseDockerfileFailed (file : AbsPath)
  | readComposeFailed (file : AbsPath)
  | parseComposeFailed (file : AbsPath)
  | duplicateName (name : String)
  deriving DecidableEq

/-- The external collaborators of the reducer; `none` is a raised exception. -/
structure Collaborators where
  readFile : AbsPath → Option String
  parseDockerfile : String → Option (List Instruction)
  parseYaml : String → Option JSVal

/-- The two path lists returned by the locator. -/
structure Files where
  dockerfiles : List AbsPath
  composeFiles : List AbsPath
  deriving DecidableEq

/-- The reducer's local state: the `services` object and the console output. -/
structure ReduceState where
  services : ServicesObj
  log : List LogMsg

namespace ParsingServer

/-- The `reduce` callback of the build-file branch, `env[cmd.args[0]] = cmd.args[1]`
on a plain object: a missing first argument is the key `"undefined"`, a missing
second argument the value `undefined`, and a write to `__proto__` of a value
that is not an object changes nothing. -/
def envStep (env : List (String × JSVal)) (cmd : Instruction) : List (String × JSVal) :=
  let key := cmd.args.head?.getD "undefined"
  let value := ((cmd.args.drop 1).head?.map JSVal.str).getD JSVal.undefined
  if key = "__proto__" then env else setOwn key value env

/-- The `exposedPorts` expression of the build-file branch. -/
def dockerfilePorts (parsedDocker : List Instruction) : List String :=
  (parsedDocker.filter (fun cmd => cmd.name == "EXPOSE")).flatMap (fun cmd => cmd.args)

/-- The `env` expression of the build-file branch. -/
def dockerfileEnv (parsedDocker : List Instruction) : List (String × JSVal) :=
  (parsedDocker.filter (fun cmd => cmd.name == "ENV")).foldl envStep []

/-- The object literal of the build-file branch. -/
def dockerfileEntry (file : AbsPath) (parsedDocker : List Instruction) : ServiceDef :=
  { type := "dockerfile"
    file := file
    exposedPorts := some (dockerfilePorts parsedDocker)
    env := JSVal.obj (dockerfileEnv parsedDocker)
    image := none
    build := none }

/-- The duplicate check followed by the write, shared by both branches. -/
def store (st : ReduceState) (name : String) (d : ServiceDef) : ReduceState :=
  { services := st.services.assign name d
    log := if st.services.truthyAt name then st.log ++ [LogMsg.duplicateName name] else st.log }

/-- Body of the loop over `files.dockerfiles`. -/
def dockerfileStep (c : Collaborators) (st : ReduceState) (file : AbsPath) : ReduceState :=
  match c.readFile file with
  | none => { st with log := st.log ++ [LogMsg.readDockerfileFailed file] }
  | some content =>
    match c.parseDockerfile content with
    | none => { st with log := st.log ++ [LogMsg.parseDockerfileFailed file] }
    | some parsedDocker =>
      store st (AbsPath.basename (AbsPath.dirname file)) (dockerfileEntry file parsedDocker)

/-- The callback of `service.ports?.map(p => p.split(':')[0])` over the
elements of an array: a string yields its first colon-separated token, any
other element has no `split` method. -/
def hostTokens : List JSVal → Except JSError (List String)
  | [] => .ok []
  | .str s :: ps =>
    match hostTokens ps with
    | .ok ts => .ok (firstColonToken s :: ts)
    | .error e => .error e
  | _ :: _ => .error .typeError

/-- The expression `service.ports?.map(p => p.split(':')[0])` applied to the
value of `service.ports`: `undefined` and `null` short-circuit to `undefined`,
an array is mapped, any other value has no callable `map`. -/
def composePorts : JSVal → Except JSError (Option (List String))
  | .undefined => .ok none
  | .null => .ok none
  | .arr ps =>
    match hostTokens ps with
    | .ok ts => .ok (some ts)
    | .error e => .error e
  | _ => .error .typeError

/-- The expression `service.environment || {}`. -/
def composeEnv (environment : JSVal) : JSVal :=
  if truthy environment then environment else JSVal.obj []

/-- The object literal of the manifest branch. -/
def composeEntry (file : AbsPath) (service : JSVal) : Except JSError ServiceDef := do
  let ports ← getField service "ports"
  let exposedPorts ← composePorts ports
  let environment ← getField service "environment"
  let image ← getField service "image"
  let build ← getField service "build"
  pure { type := "compose"
         file := file
         exposedPorts := exposedPorts
         env := composeEnv environment
         image := some image
         build := some build }

/-- Body of the loop over `Object.entries(compose.services)`. The duplicate
warning is written before the object literal is evaluated; what an aborted
call had logged is not kept. -/
def composeServiceStep (file : AbsPath) (st : ReduceState) (entry : String × JSVal) :
    Except JSError ReduceState :=
  match composeEntry file entry.2 with
  | .ok d => .ok (store st entry.1 d)
  | .error e => .error e

/-- A `for … of` loop whose body may raise. -/
def forEachM {σ α : Type} (f : σ → α → Except JSError σ) : σ → List α → Except JSError σ
  | s, [] => .ok s
  | s, x :: xs =>
    match f s x with
    | .ok s' => forEachM f s' xs
    | .error e => .error e

/-- Body of the loop over `files.composeFiles`. -/
def composeStep (c : Collaborators) (st : ReduceState) (file : AbsPath) :
    Except JSError ReduceState :=
  match c.readFile file with
  | none => .ok { st with log := st.log ++ [LogMsg.readComposeFailed file] }
  | some content =>
    match c.parseYaml content with
    | none => .ok { st with log := st.log ++ [LogMsg.parseComposeFailed file] }
    | some compose =>
      match getField compose "services" with
      | .error e => .error e
      | .ok services =>
        if truthy services then
          match objectEntries services with
          | .error e => .error e
          | .ok es => forEachM (composeServiceStep file) st es
        else .ok st

/-- `parseServices(files)`: every build file, then every manifest. The
result is the `services` object together with the console output, or the
exception that aborted the call. -/
def parseServices (c : Collaborators) (files : Files) : Except JSError ReduceState :=
  forEachM (composeStep c)
    (files.dockerfiles.foldl (dockerfileStep c) ⟨ServicesObj.empty, []⟩)
    files.composeFiles

/-- One `Dirent` of a directory listing together with what lies below it.
`directory name none` is a directory on which `fs.readdir` fails; `other` is
an entry for which both `isDirectory()` and `isFile()` are false. -/
inductive DirEntry where
  | file (name : String)
  | directory (name : String) (listing : Option (List DirEntry))
  | other (name : String)

/-- The `name` of a `Dirent`. -/
def DirEntry.name : DirEntry → String
  | .file n => n
  | .directory n _ => n
  | .other n => n

/-- The accumulator `files` of `findDockerFiles` and the console output. -/
structure ScanState where
  files : Files
  log : List LogMsg

/-- The test `entry.name === 'Dockerfile' || entry.name.endsWith('.dockerfile')`. -/
def isDockerfileName (name : String) : Bool :=
  name == "Dockerfile" || endsWith name ".dockerfile"

/-- The test `entry.name === 'docker-compose.yml' || entry.name === 'docker-compose.yaml'`. -/
def isComposeName (name : String) : Bool :=
  name == "docker-compose.yml" || name == "docker-compose.yaml"

/-- The test that guards the recursive call of `scan`. -/
def isTraversed (name : String) : Bool :=
  !startsWith name "." && name != "node_modules"

mutual
/-- The inner function `scan(dir)`; the second argument is the outcome of
`fs.readdir(dir)`. -/
def scan (dir : AbsPath) : Option (List DirEntry) → ScanState → ScanState
  | none, st => { st with log := st.log ++ [LogMsg.readDirFailed dir] }
  | some entries, st => scanEntries dir entries st
termination_by structural listing => listing
/-- The loop `for (const entry of entries)`. -/
def scanEntries (dir : AbsPath) : List DirEntry → ScanState → ScanState
  | [], st => st
  | entry :: rest, st => scanEntries dir rest (scanEntry dir entry st)
termination_by structural entries => entries
/-- The body of that loop, with `fullPath = path.join(dir, entry.name)`. -/
def scanEntry (dir : AbsPath) : DirEntry → ScanState → ScanState
  | .directory name listing, st =>
    if isTraversed name then scan (dir ++ [name]) listing st else st
  | .file name, st =>
    if isDockerfileName name then
      { st with files := { st.files with dockerfiles := st.files.dockerfiles ++ [dir ++ [name]] } }
    else if isComposeName name then
      { st with files := { st.files with composeFiles := st.files.composeFiles ++ [dir ++ [name]] } }
    else st
  | .other _, st => st
termination_by structural entry => entry
end

/-- `findDockerFiles()`, given the resolved root directory and what lies
below it. -/
def findDockerFiles (rootDir : AbsPath) (listing : Option (List DirEntry)) : ScanState :=
  scan rootDir listing ⟨⟨[], []⟩, []⟩

/-- The registry `this.services`, a `Map`: its entries in insertion order. -/
abbrev Registry := List (String × ServiceDef)

/-- The loop `for (const [name, service] of Object.entries(services))
this.services.set(name, service)`. `Map.prototype.set` keeps the position of
an existing key and appends a new one. -/
def mergeServices (registry : Registry) (services : ServicesObj) : Registry :=
  services.entries.foldl (fun r e => setOwn e.1 e.2 r) registry

/-- A capture task `(serviceName, url)`. -/
abbrev CaptureTask := String × String

/-- `screenshotServices()`: the calls `takeScreenshot(name, url)` in the order
in which they are pushed to `screenshotPromises`. -/
def screenshotServices (registry : Registry) : List CaptureTask :=
  registry.foldl (fun promises entry =>
    (entry.2.exposedPorts.getD []).foldl (fun promises port =>
      ["http://localhost:" ++ port, "http://" ++ entry.1 ++ ":" ++ port].foldl
        (fun promises url => promises ++ [(entry.1, url)]) promises) promises) []

/-- Where a call of `scanEnvironment` is suspended. -/
inductive Phase where
  | locating
  | reducing (files : Files)
  | capturing
  deriving DecidableEq

/-- What a scan cycle observes when it resumes: the directory tree below the
root and the reducer's collaborators. -/
structure World where
  rootDir : AbsPath
  listing : Option (List DirEntry)
  collab : Collaborators

/-- The server: the registry, the single-flight flag, the suspended calls of
`scanEnvironment` (newest first), and what has been observed so far: how often
the locator was invoked, the capture rounds launched, how each finished call
of `scanEnvironment` settled, and the console output of `scanEnvironment`. -/
structure Server where
  services : Registry
  isScanning : Bool
  inFlight : List Phase
  locatorCalls : Nat
  captureRounds : List (List CaptureTask)
  settled : List (Except JSError Unit)
  log : List LogMsg

/-- The server after the constructor. -/
def Server.initial : Server :=
  { services := [], isScanning := false, inFlight := [], locatorCalls := 0,
    captureRounds := [], settled := [], log := [] }

/-- A call `scanEnvironment()` up to its first `await`: the guard, the flag,
and the invocation of the locator. -/
def scanEnvironmentCall (s : Server) : Server :=
  if s.isScanning then s
  else
    { s with
      isScanning := true
      log := s.log ++ [LogMsg.scanning]
      locatorCalls := s.locatorCalls + 1
      inFlight := Phase.locating :: s.inFlight }

/-- The `try` block of `scanEnvironment` from the suspension point `phase` to
the next one, when the awaited promise settles. `fault = some e` is a rejection
of the awaited step for a reason outside this model. The result is the updated
server and the next suspension point, `none` when the block has run to its end,
or the exception that leaves the block. -/
def tryBlock (w : World) (fault : Option JSError) (s : Server) :
    Phase → Except JSError (Server × Option Phase)
  | .locating =>
    match fault with
    | some e => .error e
    | none =>
      let found := findDockerFiles w.rootDir w.listing
      .ok ({ s with log := s.log ++ found.log }, some (Phase.reducing found.files))
  | .reducing files =>
    match fault with
    | some e => .error e
    | none =>
      match parseServices w.collab files with
      | .error e => .error e
      | .ok st =>
        let merged := mergeServices s.services st.services
        .ok ({ s with services := merged
                      captureRounds := s.captureRounds ++ [screenshotServices merged]
                      log := s.log ++ st.log },
             some Phase.capturing)
  | .capturing =>
    match fault with
    | some e => .error e
    | none => .ok ({ s with log := s.log ++ [LogMsg.scanComplete] }, none)

/-- The `finally` block, after which the call settles with `outcome`. -/
def finallyBlock (i : Nat) (outcome : Except JSError Unit) (s : Server) : Server :=
  { s with isScanning := false
           inFlight := s.inFlight.eraseIdx i
           settled := s.settled ++ [outcome] }

/-- The `i`-th suspended call of `scanEnvironment` resumes. An exception that
leaves the `try` block is handled by the `catch` block, which only writes to
the console, so the call settles normally after the `finally` block. -/
def scanEnvironmentResume (w : World) (fault : Option JSError) (i : Nat) (s : Server) : Server :=
  match s.inFlight[i]? with
  | none => s
  | some phase =>
    match tryBlock w fault s phase with
    | .ok (s', some next) => { s' with inFlight := s'.inFlight.set i next }
    | .ok (s', none) => finallyBlock i (.ok ()) s'
    | .error e => finallyBlock i (.ok ()) { s with log := s.log ++ [LogMsg.scanError e] }

/-- What can happen to the server: `scanEnvironment()` is called (at start-up
or by the interval timer), or a suspended call resumes. -/
inductive Event where
  | request
  | resume (w : World) (fault : Option JSError) (i : Nat)

/-- One step of the scheduler. -/
def step (s : Server) : Event → Server
  | .request => scanEnvironmentCall s
  | .resume w fault i => scanEnvironmentResume w fault i s

/-- The server after a sequence of events. -/
def run (s : Server) (events : List Event) : Server := events.foldl step s

/-- One whole scan cycle without interleaving: the call and its three
resumptions, with the faults injected at the three `await`s. -/
def scanEnvironment (w : World) (f₁ f₂ f₃ : Option JSError) (s : Server) : Server :=
  run s [Event.request, Event.resume w f₁ 0, Event.resume w f₂ 0, Event.resume w f₃ 0]

/-- The files the locator has to report, in the words of its contract: a
regular file whose name is recognised, reached from a listing through
directories that can be read, whose names do not begin with `.` and are not
`node_modules`. The path is relative to the directory of the listing. -/
inductive Reaches (recognised : String → Bool) : List DirEntry → List String → Prop where
  | found {entries : List DirEntry} {name : String} :
      DirEntry.file name ∈ entries → recognised name = true →
      Reaches recognised entries [name]
  | descend {entries sub : List DirEntry} {name : String} {rel : List String} :
      DirEntry.directory name (some sub) ∈ entries →
      startsWith name "." = false → name ≠ "node_modules" →
      Reaches recognised sub rel →
      Reaches recognised entries (name :: rel)

mutual
/-- A directory tree as a file system presents it: the names within every
listing are pairwise distinct. -/
def distinctNames : List DirEntry → Bool
  | [] => true
  | entry :: rest =>
    !(rest.map DirEntry.name).contains entry.name && distinctBelow entry && distinctNames rest
/-- The same condition for what lies below one entry. -/
def distinctBelow : DirEntry → Bool
  | .directory _ (some sub) => distinctNames sub
  | _ => true
end

mutual
/-- Relative paths of the recognised files below a listing, in the order in
which `scan` meets them. -/
def locatedIn (recognised : String → Bool) : List DirEntry → List (List String)
  | [] => []
  | entry :: rest => locatedAt recognised entry ++ locatedIn recognised rest
/-- The same for one entry. -/
def locatedAt (recognised : String → Bool) : DirEntry → List (List String)
  | .file name => if recognised name then [[name]] else []
  | .directory name (some sub) =>
    if isTraversed name then (locatedIn recognised sub).map (fun rel => name :: rel) else []
  | .directory _ none => []
  | .other _ => []
end

/-- The key that an `ENV` instruction declares, `cmd.args[0]` as a property key. -/
def declaredKey (cmd : Instruction) : String := cmd.args.head?.getD "undefined"

/-- The value that an `ENV` instruction declares, `cmd.args[1]`. -/
def declaredValue (cmd : Instruction) : JSVal :=
  ((cmd.args.drop 1).head?.map JSVal.str).getD JSVal.undefined

/-- The environment in the words of the reducer's contract: the value bound to
`key` is that of the last `ENV` instruction that declares `key`. -/
def lastDeclared (key : String) (parsed : List Instruction) : Option JSVal :=
  ((parsed.filter (fun cmd => cmd.name == "ENV")).reverse.find?
    (fun cmd => declaredKey cmd == key)).map declaredValue

/-- The exposed ports in the words of the reducer's contract: the arguments
of the `EXPOSE` instructions, in the order of declaration. -/
def declaredPorts : List Instruction → List String
  | [] => []
  | cmd :: rest => if cmd.name = "EXPOSE" then cmd.args ++ declaredPorts rest else declaredPorts rest

/-- A name that is neither `__proto__` nor a member of `Object.prototype`. -/
def ordinaryName (name : String) : Bool :=
  name != "__proto__" && !objectPrototypeKeys.contains name

/-- Whether a console message is the duplicate-name warning. -/
def isDuplicateWarning : LogMsg → Bool
  | .duplicateName _ => true
  | _ => false

/-- The name and the object literal of every build file that can be read and
parsed, in the order of the loop over `files.dockerfiles`. -/
def dockerfileDefinitions (c : Collaborators) (files : List AbsPath) :
    List (String × ServiceDef) :=
  files.filterMap (fun file =>
    (c.readFile file).bind (fun content =>
      (c.parseDockerfile content).map (fun parsedDocker =>
        (AbsPath.basename (AbsPath.dirname file), dockerfileEntry file parsedDocker))))

/-- The name and the object literal of every entry of a manifest's services
mapping, in the order of `Object.entries`, or the exception raised while
building one of the literals. -/
def entryDefinitions (file : AbsPath) :
    List (String × JSVal) → Except JSError (List (String × ServiceDef))
  | [] => .ok []
  | entry :: rest =>
    match composeEntry file entry.2 with
    | .error e => .error e
    | .ok d =>
      match entryDefinitions file rest with
      | .error e => .error e
      | .ok ds => .ok ((entry.1, d) :: ds)

/-- The definitions of one manifest; a manifest that cannot be read or parsed
has none. -/
def composeDefinitions (c : Collaborators) (file : AbsPath) :
    Except JSError (List (String × ServiceDef)) :=
  match c.readFile file with
  | none => .ok []
  | some content =>
    match c.parseYaml content with
    | none => .ok []
    | some compose =>
      match getField compose "services" with
      | .error e => .error e
      | .ok services =>
        if truthy services then
          match objectEntries services with
          | .error e => .error e
          | .ok es => entryDefinitions file es
        else .ok []

/-- The definitions of a list of manifests, in processing order. -/
def manifestDefinitions (c : Collaborators) :
    List AbsPath → Except JSError (List (String × ServiceDef))
  | [] => .ok []
  | file :: rest =>
    match composeDefinitions c file with
    | .error e => .error e
    | .ok ds =>
      match manifestDefinitions c rest with
      | .error e => .error e
      | .ok ds' => .ok (ds ++ ds')

/-- All definitions that one call of `parseServices` processes, in processing
order: those of the build files, then those of the manifests. -/
def definitions (c : Collaborators) (files : Files) :
    Except JSError (List (String × ServiceDef)) :=
  match manifestDefinitions c files.composeFiles with
  | .error e => .error e
  | .ok ds => .ok (dockerfileDefinitions c files.dockerfiles ++ ds)

/-- The duplicate check and the write, for a list of definitions in turn. -/
def storeAll (st : ReduceState) (defs : List (String × ServiceDef)) : ReduceState :=
  defs.foldl (fun st p => store st p.1 p.2) st

/-- The names, in order, that repeat a name of `seen` or an earlier name of the list. -/
def collisionsFrom (seen : List String) : List String → List String
  | [] => []
  | name :: rest =>
    if name ∈ seen then name :: collisionsFrom seen rest
    else collisionsFrom (seen ++ [name]) rest

end ParsingServer

namespace Fixture

open ParsingServer

/-- The instruction list of a build file with the lines `EXPOSE 8080` and
`ENV FOO=bar`, in the shape `{name, args[]}` of the parser's interface. -/
def buildFile : List Instruction :=
  [⟨"EXPOSE", ["8080"]⟩, ⟨"ENV", ["FOO", "bar"]⟩]

/-- Collaborators for a tree in which every file can be read, every build file
parses to `buildFile` and every manifest parses to `manifest`. -/
def collab (manifest : JSVal) : Collaborators :=
  { readFile := fun _ => some ""
    parseDockerfile := fun _ => some buildFile
    parseYaml := fun _ => some manifest }

/-- The manifest `services: web: {ports: ["8080:80"], environment: {X: "1"}}`. -/
def webManifest : JSVal :=
  .obj [("services", .obj [("web",
    .obj [("ports", .arr [.str "8080:80"]), ("environment", .obj [("X", .str "1")])])])]

/-- The manifest `services: web: {ports: [3000]}`, whose port is a YAML
integer. -/
def numericPortManifest : JSVal :=
  .obj [("services", .obj [("web", .obj [("ports", .arr [.num 3000])])])]

/-- A tree with `app/Dockerfile` and a manifest next to it. -/
def treeWithManifest : List DirEntry :=
  [.directory "app" (some [.file "Dockerfile"]), .file "docker-compose.yaml"]

/-- The same tree without the manifest. -/
def treeWithoutManifest : List DirEntry :=
  [.directory "app" (some [.file "Dockerfile"])]

/-- A tree with an unreadable directory between two readable ones, a hidden
directory and a dependency cache. -/
def mixedTree : List DirEntry :=
  [.directory "api" (some [.file "Dockerfile", .file "README.md"]),
   .directory "locked" none,
   .directory ".git" (some [.file "Dockerfile"]),
   .directory "node_modules" (some [.file "docker-compose.yml"]),
   .directory "web" (some [.file "prod.dockerfile", .file "docker-compose.yml"]),
   .other "link"]

/-- The entry that `parseServices` derives from `app/Dockerfile` below `/repo`. -/
def appEntry : ServiceDef :=
  { type := "dockerfile", file := ["repo", "app", "Dockerfile"],
    exposedPorts := some ["8080"], env := .obj [("FOO", .str "bar")],
    image := none, build := none }

/-- The entry that `parseServices` derives from `webManifest`. -/
def webEntry : ServiceDef :=
  { type := "compose", file := ["repo", "docker-compose.yaml"],
    exposedPorts := some ["8080"], env := .obj [("X", .str "1")],
    image := some .undefined, build := some .undefined }

end Fixture

namespace ParsingServer

/-- A call to the rendering collaborator, to the file system or to the timer,
as recorded in the trace of a task. Browsing contexts are told apart by a
number. -/
inductive Call where
  | newContext (ctx : Nat)
  | newPage (ctx : Nat)
  | goto (ctx : Nat) (url : String)
  | screenshot (ctx : Nat) (file : String)
  | writeFile (file : String)
  | close (ctx : Nat)
  | wait
  deriving DecidableEq

/-- How the awaited calls of one task or one attempt settle: `none` when the
call succeeds, `some e` when it rejects with `e`. -/
structure StepOutcomes where
  newContext : Option JSError
  newPage : Option JSError
  goto : Option JSError
  screenshot : Option JSError
  writeFile : Option JSError
  close : Option JSError

/-- The outcome of running a piece of code: how it completes, and the calls it
made, in order. -/
abbrev Run (α : Type) := Except JSError α × List Call

/-- A sequence of `await`ed calls: each call is made when the ones before it
have succeeded, and the first rejection leaves the sequence. -/
def awaitAll : List (Call × Option JSError) → Run Unit
  | [] => (.ok (), [])
  | (call, some e) :: _ => (.error e, [call])
  | (call, none) :: rest => ((awaitAll rest).1, call :: (awaitAll rest).2)

/-- The statement `try { body } catch (error) { handler }`. -/
def withCatch {α : Type} (body : Run α) (handler : JSError → Run α) : Run α :=
  match body.1 with
  | .ok _ => body
  | .error e => ((handler e).1, body.2 ++ (handler e).2)

/-- The statement `try { body } finally { final }`: the `finally` block runs
however the body completes; when it raises, its exception replaces the
completion of the body. -/
def withFinally {α : Type} (body : Run α) (final : Run Unit) : Run α :=
  (match final.1 with
   | .ok _ => body.1
   | .error e => .error e,
   body.2 ++ final.2)

/-- The constant `timestamp` of `takeScreenshot`: the ISO string with every
`:` and `.` replaced by `-`, `iso.replace(/[:.]/g, '-')`. -/
def timestamp (iso : String) : String :=
  String.mk (iso.toList.map (fun c => if c = ':' ∨ c = '.' then '-' else c))

/-- The constant `filename` of `takeScreenshot`. -/
def filename (serviceName iso : String) : String :=
  serviceName ++ "-" ++ timestamp iso ++ ".png"

/-- The name of the metadata file, joined to the same directory. -/
def metadataFilename (serviceName : String) : String :=
  serviceName ++ "-metadata.json"

/-- `takeScreenshot(serviceName, url)`, for the context `ctx` that the browser
hands out, the value `iso` of `new Date().toISOString()` and the outcomes of
the awaited calls. File names are relative to `options.screenshotDir`. -/
def takeScreenshot (ctx : Nat) (serviceName url iso : String) (o : StepOutcomes) : Run Unit :=
  match o.newContext with
  | some e => (.error e, [Call.newContext ctx])
  | none =>
    let body := awaitAll
      [(Call.newPage ctx, o.newPage),
       (Call.goto ctx url, o.goto),
       (Call.screenshot ctx (filename serviceName iso), o.screenshot),
       (Call.writeFile (metadataFilename serviceName), o.writeFile)]
    let guarded := withFinally (withCatch body (fun error => (.error error, [])))
      (awaitAll [(Call.close ctx, o.close)])
    (guarded.1, Call.newContext ctx :: guarded.2)

/-- A promise with `.catch(error => { console.log(…) })` attached: the handler
returns normally, so the new promise is fulfilled either way. -/
def caught (r : Except JSError Unit) : Except JSError Unit :=
  match r with
  | .ok u => .ok u
  | .error _ => .ok ()

/-- `Promise.all`: fulfilled when every promise is, rejected when one is. -/
def promiseAll : List (Except JSError Unit) → Except JSError Unit
  | [] => .ok ()
  | .ok _ :: rest => promiseAll rest
  | .error e :: _ => .error e

/-- The calls `this.takeScreenshot(name, url)` of one round, numbered from `i`:
task `k` gets the context `k`, the time `now k` and the outcomes `outcomes k`. -/
def launch (now : Nat → String) (outcomes : Nat → StepOutcomes) :
    Nat → List CaptureTask → List (Run Unit)
  | _, [] => []
  | i, task :: rest =>
    takeScreenshot i task.1 task.2 (now i) (outcomes i) :: launch now outcomes (i + 1) rest

/-- One capture round: the tasks launched, how each of them settled, and how
the call of `screenshotServices` settled. -/
structure Round where
  launched : List CaptureTask
  results : List (Except JSError Unit)
  settled : Except JSError Unit

/-- `screenshotServices()` with the outcomes of its tasks:
`await Promise.all(screenshotPromises)` over the promises with `.catch`
attached. -/
def screenshotRound (registry : Registry) (now : Nat → String)
    (outcomes : Nat → StepOutcomes) : Round :=
  let runs := launch now outcomes 0 (screenshotServices registry)
  { launched := screenshotServices registry
    results := runs.map (fun r => r.1)
    settled := promiseAll (runs.map (fun r => caught r.1)) }

/-- Whether every awaited call of a capture task succeeds. -/
def StepOutcomes.captureSucceeds (o : StepOutcomes) : Bool :=
  o.newContext.isNone && o.newPage.isNone && o.goto.isNone && o.screenshot.isNone
    && o.writeFile.isNone && o.close.isNone

/-- One pass through the `try` block of `isServiceHealthy`, for attempt number
`i`, whose context is numbered `i`. -/
def healthAttempt (i : Nat) (url : String) (o : StepOutcomes) : Run Unit :=
  awaitAll
    [(Call.newContext i, o.newContext),
     (Call.newPage i, o.newPage),
     (Call.goto i url, o.goto),
     (Call.close i, o.close)]

/-- The loop of `isServiceHealthy` from attempt `i` on, with `remaining`
iterations left: a pass that completes returns `true`; a pass that raises is
caught, the delay is awaited and the loop goes on. -/
def isServiceHealthyFrom (url : String) (outcomes : Nat → StepOutcomes) :
    Nat → Nat → Run Bool
  | 0, _ => (.ok false, [])
  | remaining + 1, i =>
    match (healthAttempt i url (outcomes i)).1 with
    | .ok _ => (.ok true, (healthAttempt i url (outcomes i)).2)
    | .error _ =>
      ((isServiceHealthyFrom url outcomes remaining (i + 1)).1,
       (healthAttempt i url (outcomes i)).2 ++ Call.wait
         :: (isServiceHealthyFrom url outcomes remaining (i + 1)).2)

/-- `isServiceHealthy(url)` with `options.maxRetries = maxRetries`. -/
def isServiceHealthy (maxRetries : Nat) (url : String) (outcomes : Nat → StepOutcomes) :
    Run Bool :=
  isServiceHealthyFrom url outcomes maxRetries 0

/-- Whether every awaited call of a reachability attempt succeeds. -/
def StepOutcomes.attemptSucceeds (o : StepOutcomes) : Bool :=
  o.newContext.isNone && o.newPage.isNone && o.goto.isNone && o.close.isNone

/-- The attempts that a trace shows, by their numbers: every attempt starts
with the call `newContext`. -/
def attemptsMade (trace : List Call) : List Nat :=
  trace.filterMap (fun call => match call with
    | Call.newContext i => some i
    | _ => none)

/-- The time part `THH:mm:ss.sssZ` of an ISO string. -/
def isTimePart : List Char → Bool
  | ['T', h₁, h₂, ':', m₁, m₂, ':', s₁, s₂, '.', f₁, f₂, f₃, 'Z'] =>
    h₁.isDigit && h₂.isDigit && m₁.isDigit && m₂.isDigit && s₁.isDigit && s₂.isDigit
      && f₁.isDigit && f₂.isDigit && f₃.isDigit
  | _ => false

/-- The shape of `Date.prototype.toISOString()`: a date part made of digits
and signs (`YYYY-MM-DD` or `±YYYYYY-MM-DD`), then the time part
`THH:mm:ss.sssZ`. -/
def isISOChars : List Char → Bool
  | [] => false
  | c :: cs =>
    if c = 'T' then isTimePart (c :: cs)
    else (c.isDigit || c = '-' || c = '+') && isISOChars cs

/-- Whether a string has the shape of `Date.prototype.toISOString()`. -/
def isISOString (iso : String) : Bool := isISOChars iso.toList

end ParsingServer

namespace Fixture

open ParsingServer

/-- Outcomes of a task or an attempt in which every call succeeds. -/
def allSucceed : StepOutcomes :=
  { newContext := none, newPage := none, goto := none, screenshot := none,
    writeFile := none, close := none }

/-- Outcomes in which only the navigation fails. -/
def gotoFails : StepOutcomes := { allSucceed with goto := some .typeError }

/-- Outcomes in which only the metadata write fails. -/
def writeFails : StepOutcomes := { allSucceed with writeFile := some .typeError }

/-- Outcomes in which only the release of the context fails. -/
def closeFails : StepOutcomes := { allSucceed with close := some .typeError }

/-- The outcomes of a round in which task `0` has the outcomes `first` and
every other task succeeds in all its calls. -/
def firstTask (first : StepOutcomes) (k : Nat) : StepOutcomes :=
  if k = 0 then first else allSucceed

/-- A clock that always shows the same millisecond. -/
def noon (_ : Nat) : String := "2024-05-01T12:00:00.000Z"

/-- A world with `app/Dockerfile` and the manifest of `web`. -/
def world : World :=
  ⟨["repo"], some treeWithManifest, collab webManifest⟩

end Fixture

namespace Fixture

/-- The manifest `services: constructor: {ports: ["8080:80"]}`. -/
def constructorManifest : JSVal :=
  .obj [("services", .obj [("constructor", .obj [("ports", .arr [.str "8080:80"])])])]

end Fixture

namespace JS

/-- The characters that `trim` removes and that number conversion skips:
ECMAScript `WhiteSpace` and `LineTerminator`. -/
def isWhiteSpace (c : Char) : Bool :=
  [9, 10, 11, 12, 13, 32, 160, 5760, 8232, 8233, 8239, 8287, 12288, 65279].contains c.toNat
    || (8192 ≤ c.toNat && c.toNat ≤ 8202)

/-- The characters of `s.trim()`. -/
def trimChars (cs : List Char) : List Char :=
  ((cs.dropWhile isWhiteSpace).reverse.dropWhile isWhiteSpace).reverse

/-- `s.trim()`. -/
def trim (s : String) : String := String.mk (trimChars s.toList)

/-- `s.split(sep)` for a separator of one character. -/
def split (s : String) (sep : Char) : List String := (s.toList.splitOn sep).map String.mk

/-- `parts.join(' ')`. -/
def joinSpace (parts : List String) : String :=
  String.mk ([' '].intercalate (parts.map String.toList))

/-- Whether a character is one of the two quotes `"` and `'`. -/
def isQuote (c : Char) : Bool := c = Char.ofNat 34 || c = Char.ofNat 39

/-- `s.replace(/["']/g, '')`. -/
def removeQuotes (s : String) : String := String.mk (s.toList.filter (fun c => !isQuote c))

/-- `s.includes(c)` for a string of one character. -/
def includes (s : String) (c : Char) : Bool := s.toList.contains c

/-- `s.indexOf(c)`: the position of the first occurrence, or `-1`. -/
def indexOf (s : String) (c : Char) : Int :=
  if s.toList.contains c then (s.toList.indexOf c : Nat) else -1

/-- `s.lastIndexOf(c)`: the position of the last occurrence, or `-1`. -/
def lastIndexOf (s : String) (c : Char) : Int :=
  if s.toList.contains c then ((s.toList.length - 1 - s.toList.reverse.indexOf c : Nat) : Int)
  else -1

/-- `s.substring(start, end)`: both arguments are clamped to `0 … s.length`,
and swapped if the first is the larger one. -/
def substring (s : String) (start stop : Int) : String :=
  let a := min start.toNat s.toList.length
  let b := min stop.toNat s.toList.length
  String.mk ((s.toList.drop (min a b)).take (max a b - min a b))

/-- `DecimalDigits`: one or more of `0 … 9`. -/
def isDecimalDigits (cs : List Char) : Bool := !cs.isEmpty && cs.all Char.isDigit

/-- An optional `ExponentPart`: nothing, or `e` or `E`, an optional sign, and
decimal digits. -/
def isExponentPartOpt : List Char → Bool
  | [] => true
  | c :: rest =>
    (c = 'e' || c = 'E') &&
      match rest with
      | '+' :: digits => isDecimalDigits digits
      | '-' :: digits => isDecimalDigits digits
      | digits => isDecimalDigits digits

/-- `StrUnsignedDecimalLiteral`: `Infinity`, or digits with an optional
fraction, or a fraction alone, each with an optional exponent. -/
def isUnsignedDecimal (cs : List Char) : Bool :=
  cs = ['I', 'n', 'f', 'i', 'n', 'i', 't', 'y'] ||
    match cs.dropWhile Char.isDigit with
    | '.' :: rest =>
      (!(cs.takeWhile Char.isDigit).isEmpty || !(rest.takeWhile Char.isDigit).isEmpty)
        && isExponentPartOpt (rest.dropWhile Char.isDigit)
    | rest => !(cs.takeWhile Char.isDigit).isEmpty && isExponentPartOpt rest

/-- Whether a character is a hexadecimal digit. -/
def isHexDigit (c : Char) : Bool :=
  c.isDigit || ('a' ≤ c && c ≤ 'f') || ('A' ≤ c && c ≤ 'F')

/-- `StrNumericLiteral`: a hexadecimal, octal or binary integer without sign,
or a decimal literal with an optional sign. -/
def isNumericLiteral : List Char → Bool
  | '0' :: 'x' :: digits => !digits.isEmpty && digits.all isHexDigit
  | '0' :: 'X' :: digits => !digits.isEmpty && digits.all isHexDigit
  | '0' :: 'o' :: digits => !digits.isEmpty && digits.all (fun c => '0' ≤ c && c ≤ '7')
  | '0' :: 'O' :: digits => !digits.isEmpty && digits.all (fun c => '0' ≤ c && c ≤ '7')
  | '0' :: 'b' :: digits => !digits.isEmpty && digits.all (fun c => c = '0' || c = '1')
  | '0' :: 'B' :: digits => !digits.isEmpty && digits.all (fun c => c = '0' || c = '1')
  | '+' :: rest => isUnsignedDecimal rest
  | '-' :: rest => isUnsignedDecimal rest
  | cs => isUnsignedDecimal cs

/-- The global `isNaN(s)` for a string: `ToNumber(s)` is `NaN` unless `s`,
without the white space around it, is empty (the number `0`) or a
`StrNumericLiteral`. -/
def isNaN (s : String) : Bool :=
  !((trimChars s.toList).isEmpty || isNumericLiteral (trimChars s.toList))

end JS

/-- The object that `DockerfileParser.parseDockerfile` builds and returns:
`ports` is the `Set` in order of insertion (the array returned), `env` the own
properties of the plain object in order of creation, and `null` is `none`. -/
structure Config where
  ports : List String
  env : List (String × String)
  workdir : Option String
  entrypoint : Option (List String)
  cmd : Option (List String)
  deriving DecidableEq

namespace DockerfileParser

open ParsingServer

/-- `DockerfileParser.parseCommand(line)`. -/
def parseCommand (line : String) : List String :=
  if includes line '[' then
    (split (substring line (indexOf line '[' + 1) (lastIndexOf line ']')) ',').map
      (fun item => removeQuotes (trim item))
  else
    ((split line ' ').drop 1).map (fun item => removeQuotes (trim item))

/-- `Set.prototype.add` on the list of the members in order of insertion. -/
def setAdd (members : List String) (port : String) : List String :=
  if port ∈ members then members else members ++ [port]

/-- The array `ports` that the `EXPOSE` branch computes from a line:
`line.split(' ').slice(1).map(port => port.split('/')[0]).filter(port => !isNaN(port))`.
The array `port.split('/')` is never empty. -/
def exposedPorts (line : String) : List String :=
  (((split line ' ').drop 1).map (fun port => (split port '/').headD "")).filter
    (fun port => !isNaN port)

/-- The assignment `config.env[key] = value` of a string on a plain object:
the setter `__proto__` ignores a value that is not an object, every other key
becomes or stays an own property. -/
def envAssign (env : List (String × String)) (key value : String) : List (String × String) :=
  if key = "__proto__" then env else setOwn key value env

/-- The `EXPOSE` branch of the loop body. -/
def exposeBranch (config : Config) (line : String) : Config :=
  if startsWith line "EXPOSE" then
    { config with ports := (exposedPorts line).foldl setAdd config.ports }
  else config

/-- The `ENV` branch of the loop body. -/
def envBranch (config : Config) (line : String) : Config :=
  if startsWith line "ENV" then
    let envParts := (split line ' ').drop 1
    if envParts.length ≥ 2 then
      { config with
        env := envAssign config.env (envParts.headD "")
          (removeQuotes (joinSpace (envParts.drop 1))) }
    else config
  else config

/-- The `WORKDIR` branch of the loop body: the method call on
`line.split(' ')[1]` raises when the line has no second part. -/
def workdirBranch (config : Config) (line : String) : Except JSError Config :=
  if startsWith line "WORKDIR" then
    match (split line ' ')[1]? with
    | none => .error .typeError
    | some part => .ok { config with workdir := some (removeQuotes part) }
  else .ok config

/-- The `ENTRYPOINT` branch of the loop body. -/
def entrypointBranch (config : Config) (line : String) : Config :=
  if startsWith line "ENTRYPOINT" then { config with entrypoint := some (parseCommand line) }
  else config

/-- The `CMD` branch of the loop body. -/
def cmdBranch (config : Config) (line : String) : Config :=
  if startsWith line "CMD" then { config with cmd := some (parseCommand line) }
  else config

/-- The body of the loop over the lines: the line is trimmed, a comment or an
empty line is skipped, and the five branches run in turn. -/
def lineStep (config : Config) (raw : String) : Except JSError Config :=
  let line := trim raw
  if startsWith line "#" || line = "" then .ok config
  else
    match workdirBranch (envBranch (exposeBranch config line) line) line with
    | .error e => .error e
    | .ok config => .ok (cmdBranch (entrypointBranch config line) line)

/-- `DockerfileParser.parseDockerfile`, as a function of the content of the
file that was read. -/
def parseDockerfile (content : String) : Except JSError Config :=
  forEachM lineStep
    { ports := [], env := [], workdir := none, entrypoint := none, cmd := none }
    (split content '\n')

/-- The lines that the loop does not skip: trimmed, not empty, no comment. -/
def effectiveLines (content : String) : List String :=
  ((split content '\n').map trim).filter (fun line => !(startsWith line "#" || line = ""))

/-- The argument of `EXPOSE` with its protocol suffix stripped: what stands
before the first `/`. -/
def stripProtocol (arg : String) : String := (split arg '/').headD ""

/-- The declaration that a line makes: a line that starts with `ENV` and has
at least two parts after the keyword declares its first part as the key and
the other parts, joined by spaces and without quotes, as the value. -/
def declaredBy (line : String) : Option (String × String) :=
  if startsWith line "ENV" = true ∧ ((split line ' ').drop 1).length ≥ 2 then
    some (((split line ' ').drop 1).headD "",
      removeQuotes (joinSpace (((split line ' ').drop 1).drop 1)))
  else none

/-- The declarations that the lines of a file make, in the order of the lines. -/
def envDeclarations (content : String) : List (String × String) :=
  (effectiveLines content).filterMap declaredBy

/-- The arguments of the `EXPOSE` lines of a file, in order. -/
def exposeArguments (content : String) : List String :=
  ((effectiveLines content).filter (fun line => startsWith line "EXPOSE")).flatMap
    (fun line => (split line ' ').drop 1)

end DockerfileParser

namespace DockerfileParser

/-- The shell form `KEYWORD w1 w2 …` of an instruction: the keyword and the
words, separated by single spaces. -/
def shellForm (keyword : String) (words : List String) : String :=
  joinSpace (keyword :: words)

/-- The array form `KEYWORD ["w1", "w2", …]` of an instruction: every word in
double quotes, the items separated by a comma and a space. -/
def arrayForm (keyword : String) (words : List String) : String :=
  String.mk (keyword.toList ++ [' ', '[']
    ++ [',', ' '].intercalate
        (words.map (fun word => Char.ofNat 34 :: word.toList ++ [Char.ofNat 34]))
    ++ [']'])

/-- A word that has no white space, no comma, no quote and no square bracket. -/
def plainWord (word : String) : Bool :=
  word.toList.all (fun c => !isWhiteSpace c && !isQuote c && c != ',' && c != '[' && c != ']')

end DockerfileParser

/-! ## Lemmas and theorems -/

open JS ParsingServer

theorem lookup_setOwn_self {α : Type} (k : String) (v : α) (l : List (String × α)) :
    (setOwn k v l).lookup k = some v := by
  induction l with
  | nil => simp [setOwn, List.lookup]
  | cons p ps ih =>
    obtain ⟨k', v'⟩ := p
    by_cases h : k' = k
    · simp [setOwn, h, List.lookup]
    · have h' : (k == k') = false := by simpa using fun e => h e.symm
      simp [setOwn, h, List.lookup, h', ih]

theorem lookup_setOwn_ne {α : Type} {k k' : String} (v : α) (l : List (String × α))
    (hne : k' ≠ k) : (setOwn k v l).lookup k' = l.lookup k' := by
  induction l with
  | nil =>
    have h' : (k' == k) = false := by simpa using hne
    simp [setOwn, List.lookup, h']
  | cons p ps ih =>
    obtain ⟨k₀, v₀⟩ := p
    by_cases h : k₀ = k
    · subst h
      have h' : (k' == k₀) = false := by simpa using hne
      simp [setOwn, List.lookup, h']
    · simp only [setOwn, h, if_false, List.lookup, ih]

theorem setOwn_eq_self {α : Type} {k : String} {v : α} {l : List (String × α)}
    (h : l.lookup k = some v) : setOwn k v l = l := by
  induction l with
  | nil => simp [List.lookup] at h
  | cons p ps ih =>
    obtain ⟨k₀, v₀⟩ := p
    by_cases hk : k₀ = k
    · subst hk
      simp [List.lookup] at h
      simp [setOwn, h]
    · have h' : (k == k₀) = false := by simpa using fun e => hk e.symm
      simp only [List.lookup, h'] at h
      simp [setOwn, hk, ih h]

theorem keys_setOwn {α : Type} (k : String) (v : α) (l : List (String × α)) :
    (setOwn k v l).map Prod.fst
      = if k ∈ l.map Prod.fst then l.map Prod.fst else l.map Prod.fst ++ [k] := by
  induction l with
  | nil => simp [setOwn]
  | cons p ps ih =>
    obtain ⟨k₀, v₀⟩ := p
    by_cases hk : k₀ = k
    · subst hk
      simp [setOwn]
    · have hk' : ¬ k = k₀ := fun e => hk e.symm
      simp only [setOwn, hk, if_false, List.map_cons, ih, List.mem_cons, hk', false_or]
      split <;> simp

theorem mem_of_lookup_eq_some {α : Type} {k : String} {v : α} {l : List (String × α)}
    (h : l.lookup k = some v) : (k, v) ∈ l := by
  induction l with
  | nil => simp [List.lookup] at h
  | cons p ps ih =>
    obtain ⟨k₀, v₀⟩ := p
    by_cases hk : k = k₀
    · subst hk
      simp [List.lookup] at h
      simp [h]
    · have h' : (k == k₀) = false := by simpa using hk
      simp only [List.lookup, h'] at h
      exact List.mem_cons_of_mem _ (ih h)

theorem not_mem_keys_of_lookup_eq_none {α : Type} {k : String} {l : List (String × α)}
    (h : l.lookup k = none) : k ∉ l.map Prod.fst := by
  induction l with
  | nil => simp
  | cons p ps ih =>
    obtain ⟨k₀, v₀⟩ := p
    by_cases hk : k = k₀
    · subst hk
      simp [List.lookup] at h
    · have h' : (k == k₀) = false := by simpa using hk
      simp only [List.lookup, h'] at h
      simp [hk]
      simpa using ih h

theorem foldl_setOwn_lookup_of_not_mem {α : Type} (k : String) (es : List (String × α)) :
    ∀ (r : List (String × α)), k ∉ es.map Prod.fst →
      (es.foldl (fun r e => setOwn e.1 e.2 r) r).lookup k = r.lookup k := by
  induction es with
  | nil => intro r _; rfl
  | cons e es ih =>
    intro r hk
    simp only [List.map_cons, List.mem_cons, not_or] at hk
    simp only [List.foldl_cons]
    rw [ih _ hk.2, lookup_setOwn_ne _ _ hk.1]

theorem foldl_setOwn_lookup_of_mem {α : Type} {k : String} {v : α} (es : List (String × α)) :
    ∀ (r : List (String × α)), (es.map Prod.fst).Nodup → (k, v) ∈ es →
      (es.foldl (fun r e => setOwn e.1 e.2 r) r).lookup k = some v := by
  induction es with
  | nil => intro r _ h; simp at h
  | cons e es ih =>
    intro r hnd hmem
    simp only [List.map_cons, List.nodup_cons] at hnd
    simp only [List.foldl_cons]
    rcases List.mem_cons.1 hmem with h | h
    · subst h
      rw [foldl_setOwn_lookup_of_not_mem _ _ _ hnd.1, lookup_setOwn_self]
    · exact ih _ hnd.2 h

theorem foldl_setOwn_keys_mono {α : Type} {k : String} (es : List (String × α)) :
    ∀ (r : List (String × α)), k ∈ r.map Prod.fst →
      k ∈ (es.foldl (fun r e => setOwn e.1 e.2 r) r).map Prod.fst := by
  induction es with
  | nil => intro r h; exact h
  | cons e es ih =>
    intro r h
    simp only [List.foldl_cons]
    apply ih
    rw [keys_setOwn]
    split
    · exact h
    · exact List.mem_append_left _ h

theorem foldl_setOwn_fixed {α : Type} (es : List (String × α)) (m : List (String × α))
    (h : ∀ e ∈ es, m.lookup e.1 = some e.2) :
    es.foldl (fun r e => setOwn e.1 e.2 r) m = m := by
  induction es with
  | nil => rfl
  | cons e es ih =>
    simp only [List.foldl_cons]
    rw [setOwn_eq_self (h e (List.mem_cons_self _ _))]
    exact ih fun e' he' => h e' (List.mem_cons_of_mem _ he')

theorem ownEntries_perm {α : Type} (ps : List (String × α)) : (ownEntries ps).Perm ps := by
  unfold ownEntries
  refine (List.Perm.append (List.perm_insertionSort _ _) (List.Perm.refl _)).trans ?_
  exact List.filter_append_perm _ ps

theorem mem_ownEntries {α : Type} {e : String × α} {ps : List (String × α)} :
    e ∈ ownEntries ps ↔ e ∈ ps := (ownEntries_perm ps).mem_iff

theorem ownEntries_keys_nodup {α : Type} {ps : List (String × α)}
    (h : (ps.map Prod.fst).Nodup) : ((ownEntries ps).map Prod.fst).Nodup :=
  (((ownEntries_perm ps).map Prod.fst).nodup_iff).2 h

theorem merge_idempotent_of_nodup (r : Registry) (o : ServicesObj)
    (h : (o.own.map Prod.fst).Nodup) :
    mergeServices (mergeServices r o) o = mergeServices r o := by
  unfold mergeServices ServicesObj.entries
  apply foldl_setOwn_fixed
  intro e he
  exact foldl_setOwn_lookup_of_mem _ _ (ownEntries_keys_nodup h) he

theorem forEachM_invariant {σ α : Type} (f : σ → α → Except JSError σ) (P : σ → Prop)
    (hf : ∀ s x s', P s → f s x = .ok s' → P s') (xs : List α) :
    ∀ s s', P s → forEachM f s xs = .ok s' → P s' := by
  induction xs with
  | nil =>
    intro s s' hs h
    simp only [forEachM, Except.ok.injEq] at h
    exact h ▸ hs
  | cons x xs ih =>
    intro s s' hs h
    simp only [forEachM] at h
    cases hx : f s x with
    | error e => simp [hx] at h
    | ok s₁ =>
      simp only [hx] at h
      exact ih s₁ s' (hf s x s₁ hs hx) h

theorem foldl_invariant {σ α : Type} (f : σ → α → σ) (P : σ → Prop)
    (hf : ∀ s x, P s → P (f s x)) (xs : List α) : ∀ s, P s → P (xs.foldl f s) := by
  induction xs with
  | nil => intro s hs; exact hs
  | cons x xs ih => intro s hs; exact ih _ (hf s x hs)

theorem assign_own_nodup (o : ServicesObj) (name : String) (d : ServiceDef)
    (h : (o.own.map Prod.fst).Nodup) : ((o.assign name d).own.map Prod.fst).Nodup := by
  have hset : ((setOwn name d o.own).map Prod.fst).Nodup := by
    rw [keys_setOwn]
    split
    · exact h
    · next hn => exact List.Nodup.append h (List.nodup_singleton _) (by simpa using hn)
  unfold ServicesObj.assign
  split
  · exact hset
  · split
    · exact h
    · exact hset

theorem store_own_nodup (st : ReduceState) (name : String) (d : ServiceDef)
    (h : (st.services.own.map Prod.fst).Nodup) :
    ((store st name d).services.own.map Prod.fst).Nodup :=
  assign_own_nodup _ _ _ h

theorem dockerfileStep_own_nodup (c : Collaborators) (st : ReduceState) (file : AbsPath)
    (h : (st.services.own.map Prod.fst).Nodup) :
    ((dockerfileStep c st file).services.own.map Prod.fst).Nodup := by
  unfold dockerfileStep
  split
  · exact h
  · split
    · exact h
    · exact store_own_nodup _ _ _ h

theorem composeStep_own_nodup (c : Collaborators) (st st' : ReduceState) (file : AbsPath)
    (h : (st.services.own.map Prod.fst).Nodup) (hs : composeStep c st file = .ok st') :
    (st'.services.own.map Prod.fst).Nodup := by
  unfold composeStep at hs
  split at hs
  · simp only [Except.ok.injEq] at hs; subst hs; exact h
  · split at hs
    · simp only [Except.ok.injEq] at hs; subst hs; exact h
    · split at hs
      · simp at hs
      · split at hs
        · split at hs
          · simp at hs
          · refine forEachM_invariant _ (fun s => (s.services.own.map Prod.fst).Nodup) ?_ _ _ _ h hs
            intro s x s' hP hx
            unfold composeServiceStep at hx
            split at hx
            · simp only [Except.ok.injEq] at hx; subst hx; exact store_own_nodup _ _ _ hP
            · simp at hx
        · simp only [Except.ok.injEq] at hs; subst hs; exact h

theorem parseServices_own_nodup (c : Collaborators) (files : Files) (st : ReduceState)
    (h : parseServices c files = .ok st) : (st.services.own.map Prod.fst).Nodup := by
  unfold parseServices at h
  refine forEachM_invariant _ (fun s => (s.services.own.map Prod.fst).Nodup)
    (fun s x s' hP hx => composeStep_own_nodup c s s' x hP hx) _ _ _ ?_ h
  exact foldl_invariant (dockerfileStep c) (fun s => (s.services.own.map Prod.fst).Nodup)
    (fun s x hP => dockerfileStep_own_nodup c s x hP) files.dockerfiles
    ⟨ServicesObj.empty, []⟩ List.nodup_nil

theorem tryBlock_frame (w : World) (fault : Option JSError) (s s' : Server) (phase : Phase)
    (next : Option Phase) (h : tryBlock w fault s phase = .ok (s', next)) :
    s'.isScanning = s.isScanning ∧ s'.inFlight = s.inFlight ∧ s'.settled = s.settled
      ∧ s'.locatorCalls = s.locatorCalls := by
  cases phase with
  | locating =>
    cases fault with
    | some e => simp [tryBlock] at h
    | none =>
      simp only [tryBlock, Except.ok.injEq, Prod.mk.injEq] at h
      obtain ⟨rfl, _⟩ := h
      exact ⟨rfl, rfl, rfl, rfl⟩
  | reducing files =>
    cases fault with
    | some e => simp [tryBlock] at h
    | none =>
      simp only [tryBlock] at h
      split at h
      · simp at h
      · simp only [Except.ok.injEq, Prod.mk.injEq] at h
        obtain ⟨rfl, _⟩ := h
        exact ⟨rfl, rfl, rfl, rfl⟩
  | capturing =>
    cases fault with
    | some e => simp [tryBlock] at h
    | none =>
      simp only [tryBlock, Except.ok.injEq, Prod.mk.injEq] at h
      obtain ⟨rfl, _⟩ := h
      exact ⟨rfl, rfl, rfl, rfl⟩

/-- The single-flight invariant: one suspended call while the flag is set,
none while it is clear. -/
theorem step_preserves_flight (s : Server) (ev : Event)
    (h : s.inFlight.length = if s.isScanning then 1 else 0) :
    (step s ev).inFlight.length = if (step s ev).isScanning then 1 else 0 := by
  cases ev with
  | request =>
    by_cases hs : s.isScanning = true
    · have : step s Event.request = s := by simp [step, scanEnvironmentCall, hs]
      rw [this]; exact h
    · have hlen : s.inFlight.length = 0 := by simpa [hs] using h
      simp [step, scanEnvironmentCall, hs, hlen]
  | resume w fault i =>
    cases hget : s.inFlight[i]? with
    | none =>
      have : step s (Event.resume w fault i) = s := by
        simp [step, scanEnvironmentResume, hget]
      rw [this]; exact h
    | some phase =>
      have hi : i < s.inFlight.length := by
        by_contra hcon
        rw [List.getElem?_eq_none (not_lt.1 hcon)] at hget
        cases hget
      have hscan : s.isScanning = true := by
        by_contra hs
        have hlen : s.inFlight.length = 0 := by simpa [hs] using h
        omega
      have hlen : s.inFlight.length = 1 := by simpa [hscan] using h
      have hi0 : i = 0 := by omega
      subst hi0
      cases hb : tryBlock w fault s phase with
      | error e =>
        simp [step, scanEnvironmentResume, hget, hb, finallyBlock, List.length_eraseIdx, hlen]
      | ok r =>
        obtain ⟨s', next⟩ := r
        obtain ⟨h1, h2, _, _⟩ := tryBlock_frame w fault s s' phase next hb
        cases next with
        | none =>
          simp [step, scanEnvironmentResume, hget, hb, finallyBlock, List.length_eraseIdx, h2, hlen]
        | some nx =>
          simp [step, scanEnvironmentResume, hget, hb, h1, h2, hscan, hlen]

theorem run_preserves_flight (events : List Event) :
    ∀ s : Server, (s.inFlight.length = if s.isScanning then 1 else 0) →
      (run s events).inFlight.length = if (run s events).isScanning then 1 else 0 := by
  induction events with
  | nil => intro s h; exact h
  | cons ev evs ih => intro s h; exact ih _ (step_preserves_flight s ev h)

/-- The state after one uninterleaved scan cycle started while idle. -/
theorem scanEnvironment_of_idle (w : World) (f₁ f₂ f₃ : Option JSError) (s : Server)
    (hidle : s.isScanning = false) (hnone : s.inFlight = []) :
    (scanEnvironment w f₁ f₂ f₃ s).isScanning = false
      ∧ (scanEnvironment w f₁ f₂ f₃ s).inFlight = []
      ∧ (scanEnvironment w f₁ f₂ f₃ s).settled = s.settled ++ [.ok ()]
      ∧ (scanEnvironment w f₁ f₂ f₃ s).locatorCalls = s.locatorCalls + 1
      ∧ (scanEnvironment w f₁ f₂ f₃ s).services =
          (match f₁, f₂, parseServices w.collab (findDockerFiles w.rootDir w.listing).files with
           | none, none, .ok st => mergeServices s.services st.services
           | _, _, _ => s.services) := by
  cases f₁ with
  | some e₁ =>
    simp [scanEnvironment, run, step, scanEnvironmentCall, scanEnvironmentResume, tryBlock,
      finallyBlock, hidle, hnone]
  | none =>
    cases f₂ with
    | some e₂ =>
      simp [scanEnvironment, run, step, scanEnvironmentCall, scanEnvironmentResume, tryBlock,
        finallyBlock, hidle, hnone]
    | none =>
      cases hp : parseServices w.collab (findDockerFiles w.rootDir w.listing).files with
      | error e =>
        simp [scanEnvironment, run, step, scanEnvironmentCall, scanEnvironmentResume, tryBlock,
          finallyBlock, hidle, hnone, hp]
      | ok st =>
        cases f₃ with
        | some e₃ =>
          simp [scanEnvironment, run, step, scanEnvironmentCall, scanEnvironmentResume, tryBlock,
            finallyBlock, hidle, hnone, hp]
        | none =>
          simp [scanEnvironment, run, step, scanEnvironmentCall, scanEnvironmentResume, tryBlock,
            finallyBlock, hidle, hnone, hp]

theorem compose_name_not_dockerfile (name : String) (h : isComposeName name = true) :
    isDockerfileName name = false := by
  simp only [isComposeName, Bool.or_eq_true, beq_iff_eq] at h
  rcases h with h | h <;> subst h <;> decide

mutual
theorem scanEntries_files (dir : AbsPath) : ∀ (entries : List DirEntry) (st : ScanState),
    (scanEntries dir entries st).files =
      { dockerfiles := st.files.dockerfiles
          ++ (locatedIn isDockerfileName entries).map (fun rel => dir ++ rel)
        composeFiles := st.files.composeFiles
          ++ (locatedIn isComposeName entries).map (fun rel => dir ++ rel) }
  | [], st => by simp [scanEntries, locatedIn]
  | entry :: rest, st => by
    rw [scanEntries, scanEntries_files dir rest, scanEntry_files dir entry st]
    simp [locatedIn, List.append_assoc]
theorem scanEntry_files (dir : AbsPath) : ∀ (entry : DirEntry) (st : ScanState),
    (scanEntry dir entry st).files =
      { dockerfiles := st.files.dockerfiles
          ++ (locatedAt isDockerfileName entry).map (fun rel => dir ++ rel)
        composeFiles := st.files.composeFiles
          ++ (locatedAt isComposeName entry).map (fun rel => dir ++ rel) }
  | .file name, st => by
    by_cases hd : isDockerfileName name = true
    · have hc : isComposeName name = false := by
        cases hcn : isComposeName name with
        | false => rfl
        | true => rw [compose_name_not_dockerfile name hcn] at hd; cases hd
      simp [scanEntry, locatedAt, hd, hc]
    · by_cases hc : isComposeName name = true
      · simp [scanEntry, locatedAt, hd, hc]
      · simp [scanEntry, locatedAt, hd, hc]
  | .other name, st => by simp [scanEntry, locatedAt]
  | .directory name none, st => by
    by_cases ht : isTraversed name = true
    · simp [scanEntry, scan, locatedAt, ht]
    · simp [scanEntry, locatedAt, ht]
  | .directory name (some sub), st => by
    by_cases ht : isTraversed name = true
    · simp only [scanEntry, ht, if_true, scan, locatedAt]
      rw [scanEntries_files (dir ++ [name]) sub st]
      simp [List.map_map, Function.comp_def]
    · simp [scanEntry, locatedAt, ht]
end

theorem mem_locatedIn_of_mem (recognised : String → Bool) {entry : DirEntry}
    {rel : List String} (hrel : rel ∈ locatedAt recognised entry) :
    ∀ {entries : List DirEntry}, entry ∈ entries → rel ∈ locatedIn recognised entries := by
  intro entries
  induction entries with
  | nil => intro h; cases h
  | cons e es ih =>
    intro h
    rw [locatedIn]
    rcases List.mem_cons.1 h with h | h
    · subst h; exact List.mem_append_left _ hrel
    · exact List.mem_append_right _ (ih h)

theorem mem_locatedIn_iff_exists (recognised : String → Bool) (rel : List String) :
    ∀ (entries : List DirEntry),
      rel ∈ locatedIn recognised entries ↔ ∃ entry ∈ entries, rel ∈ locatedAt recognised entry := by
  intro entries
  induction entries with
  | nil => simp [locatedIn]
  | cons e es ih => simp [locatedIn, ih]

theorem locatedIn_of_reaches (recognised : String → Bool) {entries : List DirEntry}
    {rel : List String} (h : Reaches recognised entries rel) :
    rel ∈ locatedIn recognised entries := by
  induction h with
  | found hmem hrec =>
    exact mem_locatedIn_of_mem recognised (by simp [locatedAt, hrec]) hmem
  | @descend es sub name rel' hmem hdot hnm _ ih =>
    refine mem_locatedIn_of_mem recognised ?_ hmem
    have ht : isTraversed name = true := by simp [isTraversed, hdot, hnm]
    simp only [locatedAt, ht, if_true, List.mem_map]
    exact ⟨_, ih, rfl⟩

mutual
theorem reaches_of_locatedIn (recognised : String → Bool) :
    ∀ (entries : List DirEntry) (rel : List String),
      rel ∈ locatedIn recognised entries → Reaches recognised entries rel
  | [], rel, h => by simp [locatedIn] at h
  | entry :: rest, rel, h => by
    rw [locatedIn, List.mem_append] at h
    rcases h with h | h
    · exact reaches_of_locatedAt recognised entry (entry :: rest) rel (List.mem_cons_self _ _) h
    · have := reaches_of_locatedIn recognised rest rel h
      cases this with
      | found hmem hrec => exact Reaches.found (List.mem_cons_of_mem _ hmem) hrec
      | descend hmem hdot hnm hsub =>
        exact Reaches.descend (List.mem_cons_of_mem _ hmem) hdot hnm hsub
theorem reaches_of_locatedAt (recognised : String → Bool) :
    ∀ (entry : DirEntry) (entries : List DirEntry) (rel : List String),
      entry ∈ entries → rel ∈ locatedAt recognised entry → Reaches recognised entries rel
  | .file name, entries, rel, hmem, h => by
    by_cases hrec : recognised name = true
    · simp only [locatedAt, hrec, if_true, List.mem_singleton] at h
      subst h
      exact Reaches.found hmem hrec
    · simp [locatedAt, hrec] at h
  | .other name, entries, rel, hmem, h => by simp [locatedAt] at h
  | .directory name none, entries, rel, hmem, h => by simp [locatedAt] at h
  | .directory name (some sub), entries, rel, hmem, h => by
    by_cases ht : isTraversed name = true
    · simp only [locatedAt, ht, if_true, List.mem_map] at h
      obtain ⟨rel', hrel', rfl⟩ := h
      have hsub := reaches_of_locatedIn recognised sub rel' hrel'
      simp only [isTraversed, Bool.and_eq_true, Bool.not_eq_true', bne_iff_ne, ne_eq] at ht
      exact Reaches.descend hmem ht.1 ht.2 hsub
    · simp [locatedAt, ht] at h
end

theorem mem_locatedIn_iff_reaches (recognised : String → Bool) (entries : List DirEntry)
    (rel : List String) :
    rel ∈ locatedIn recognised entries ↔ Reaches recognised entries rel :=
  ⟨reaches_of_locatedIn recognised entries rel, locatedIn_of_reaches recognised⟩

theorem reaches_last (recognised : String → Bool) {entries : List DirEntry}
    {rel : List String} (h : Reaches recognised entries rel) :
    ∃ name, rel.getLast? = some name ∧ recognised name = true := by
  induction h with
  | found _ hrec => exact ⟨_, rfl, hrec⟩
  | descend _ _ _ hsub ih =>
    obtain ⟨n, hn, hrec⟩ := ih
    refine ⟨n, ?_, hrec⟩
    cases hsub with
    | found _ _ => simpa using hn
    | descend _ _ _ _ => simpa [List.getLast?_cons_cons] using hn

theorem locatedAt_head (recognised : String → Bool) (entry : DirEntry) (rel : List String)
    (h : rel ∈ locatedAt recognised entry) : rel.head? = some entry.name := by
  cases entry with
  | file name =>
    by_cases hrec : recognised name = true
    · simp only [locatedAt, hrec, if_true, List.mem_singleton] at h
      subst h; rfl
    · simp [locatedAt, hrec] at h
  | other name => simp [locatedAt] at h
  | directory name listing =>
    cases listing with
    | none => simp [locatedAt] at h
    | some sub =>
      by_cases ht : isTraversed name = true
      · simp only [locatedAt, ht, if_true, List.mem_map] at h
        obtain ⟨rel', _, rfl⟩ := h
        rfl
      · simp [locatedAt, ht] at h

mutual
theorem locatedIn_nodup (recognised : String → Bool) :
    ∀ (entries : List DirEntry), distinctNames entries = true →
      (locatedIn recognised entries).Nodup
  | [], _ => by simp [locatedIn]
  | entry :: rest, h => by
    simp only [distinctNames, Bool.and_eq_true, Bool.not_eq_true'] at h
    obtain ⟨⟨hname, hbelow⟩, hrest⟩ := h
    rw [locatedIn]
    refine List.Nodup.append (locatedAt_nodup recognised entry hbelow)
      (locatedIn_nodup recognised rest hrest) ?_
    intro rel h₁ h₂
    obtain ⟨e', he', hrel'⟩ := (mem_locatedIn_iff_exists recognised rel rest).1 h₂
    have e₁ := locatedAt_head recognised entry rel h₁
    have e₂ := locatedAt_head recognised e' rel hrel'
    rw [e₁] at e₂
    have hn : entry.name = e'.name := Option.some.inj e₂
    have : (rest.map DirEntry.name).contains entry.name = true := by
      rw [List.contains_iff_exists_mem_beq]
      exact ⟨e'.name, List.mem_map_of_mem _ he', by simp [hn]⟩
    rw [this] at hname
    cases hname
theorem locatedAt_nodup (recognised : String → Bool) :
    ∀ (entry : DirEntry), distinctBelow entry = true → (locatedAt recognised entry).Nodup
  | .file name, _ => by
    by_cases hrec : recognised name = true <;> simp [locatedAt, hrec]
  | .other name, _ => by simp [locatedAt]
  | .directory name none, _ => by simp [locatedAt]
  | .directory name (some sub), h => by
    by_cases ht : isTraversed name = true
    · simp only [locatedAt, ht, if_true]
      simp only [distinctBelow] at h
      exact (locatedIn_nodup recognised sub h).map (fun a b hab => by simpa using hab)
    · simp [locatedAt, ht]
end

theorem locatedIn_append (recognised : String → Bool) (pre post : List DirEntry) :
    locatedIn recognised (pre ++ post) = locatedIn recognised pre ++ locatedIn recognised post := by
  induction pre with
  | nil => simp [locatedIn]
  | cons e es ih => simp [locatedIn, ih, List.append_assoc]

theorem findDockerFiles_files (rootDir : AbsPath) (entries : List DirEntry) :
    (findDockerFiles rootDir (some entries)).files =
      { dockerfiles := (locatedIn isDockerfileName entries).map (fun rel => rootDir ++ rel)
        composeFiles := (locatedIn isComposeName entries).map (fun rel => rootDir ++ rel) } := by
  simp [findDockerFiles, scan, scanEntries_files]

theorem findDockerFiles_unreadable (rootDir : AbsPath) :
    (findDockerFiles rootDir none).files = { dockerfiles := [], composeFiles := [] } := by
  simp [findDockerFiles, scan]

/-- The two candidate URLs of one port of one service, as capture tasks. -/
theorem urls_foldl (name port : String) (acc : List CaptureTask) :
    ["http://localhost:" ++ port, "http://" ++ name ++ ":" ++ port].foldl
        (fun promises url => promises ++ [(name, url)]) acc
      = acc ++ [(name, "http://localhost:" ++ port), (name, "http://" ++ name ++ ":" ++ port)] := by
  simp [List.foldl]

theorem ports_foldl (name : String) (ports : List String) :
    ∀ acc : List CaptureTask,
      ports.foldl (fun promises port =>
        ["http://localhost:" ++ port, "http://" ++ name ++ ":" ++ port].foldl
          (fun promises url => promises ++ [(name, url)]) promises) acc
      = acc ++ ports.flatMap (fun port =>
          [(name, "http://localhost:" ++ port), (name, "http://" ++ name ++ ":" ++ port)]) := by
  induction ports with
  | nil => intro acc; simp
  | cons p ps ih =>
    intro acc
    rw [List.foldl_cons, urls_foldl, ih]
    simp [List.flatMap_cons, List.append_assoc]

theorem registry_foldl (registry : Registry) :
    ∀ acc : List CaptureTask,
      registry.foldl (fun promises entry =>
        (entry.2.exposedPorts.getD []).foldl (fun promises port =>
          ["http://localhost:" ++ port, "http://" ++ entry.1 ++ ":" ++ port].foldl
            (fun promises url => promises ++ [(entry.1, url)]) promises) promises) acc
      = acc ++ registry.flatMap (fun entry =>
          (entry.2.exposedPorts.getD []).flatMap (fun port =>
            [(entry.1, "http://localhost:" ++ port),
             (entry.1, "http://" ++ entry.1 ++ ":" ++ port)])) := by
  induction registry with
  | nil => intro acc; simp
  | cons e es ih =>
    intro acc
    rw [List.foldl_cons, ports_foldl, ih]
    simp [List.flatMap_cons, List.append_assoc]

theorem screenshotServices_eq (registry : Registry) :
    screenshotServices registry = registry.flatMap (fun entry =>
      (entry.2.exposedPorts.getD []).flatMap (fun port =>
        [(entry.1, "http://localhost:" ++ port),
         (entry.1, "http://" ++ entry.1 ++ ":" ++ port)])) := by
  unfold screenshotServices
  rw [registry_foldl]
  simp

theorem port_tasks_length (name : String) (ports : List String) :
    (ports.flatMap (fun port =>
      [(name, "http://localhost:" ++ port), (name, "http://" ++ name ++ ":" ++ port)])).length
      = 2 * ports.length := by
  induction ports with
  | nil => rfl
  | cons p ps ih => simp [List.flatMap_cons, ih]; omega

theorem screenshotServices_length (registry : Registry) :
    (screenshotServices registry).length
      = 2 * (registry.map (fun entry => (entry.2.exposedPorts.getD []).length)).sum := by
  rw [screenshotServices_eq]
  induction registry with
  | nil => rfl
  | cons e es ih =>
    simp only [List.flatMap_cons, List.length_append, ih, port_tasks_length, List.map_cons,
      List.sum_cons]
    omega

/-! ## What the reducer does for ordinary names and well-typed input -/

theorem dockerfilePorts_eq_declaredPorts (parsed : List Instruction) :
    dockerfilePorts parsed = declaredPorts parsed := by
  induction parsed with
  | nil => rfl
  | cons cmd rest ih =>
    unfold dockerfilePorts at ih ⊢
    by_cases h : cmd.name = "EXPOSE"
    · simp [declaredPorts, h, List.filter_cons, List.flatMap_cons, ih]
    · simp [declaredPorts, h, List.filter_cons, ih]

theorem envStep_lookup (env : List (String × JSVal)) (cmd : Instruction) (key : String)
    (hkey : key ≠ "__proto__") :
    (envStep env cmd).lookup key
      = if declaredKey cmd = key then some (declaredValue cmd) else env.lookup key := by
  unfold envStep
  by_cases hp : cmd.args.head?.getD "undefined" = "__proto__"
  · have hne : declaredKey cmd ≠ key := by
      intro h; apply hkey; rw [← h]; exact hp
    simp [hp, hne]
  · simp only [hp, if_false]
    by_cases hk : declaredKey cmd = key
    · simp only [hk, if_true]
      have : cmd.args.head?.getD "undefined" = key := hk
      rw [this]
      exact lookup_setOwn_self _ _ _
    · simp only [hk, if_false]
      exact lookup_setOwn_ne _ _ (fun h => hk h.symm)

theorem foldl_envStep_lookup (key : String) (hkey : key ≠ "__proto__")
    (cmds : List Instruction) :
    ∀ env : List (String × JSVal),
      (cmds.foldl envStep env).lookup key
        = ((cmds.reverse.find? (fun cmd => declaredKey cmd == key)).map declaredValue).orElse
            (fun _ => env.lookup key) := by
  induction cmds using List.reverseRecOn with
  | nil => intro env; simp
  | append_singleton cmds cmd ih =>
    intro env
    rw [List.foldl_append, List.foldl_cons, List.foldl_nil, envStep_lookup _ _ _ hkey]
    rw [List.reverse_append, List.reverse_singleton, List.singleton_append, List.find?_cons]
    by_cases hk : declaredKey cmd = key
    · simp [hk]
    · have : (declaredKey cmd == key) = false := by simpa using hk
      simp only [hk, if_false, this]
      exact ih env

/-- Every key other than `__proto__` is bound in `env` to the value of its last
`ENV` declaration, and is absent when no instruction declares it; the key
`__proto__` is never an own property of `env`. -/
theorem dockerfileEnv_lookup (parsed : List Instruction) (key : String) :
    (key ≠ "__proto__" → (dockerfileEnv parsed).lookup key = lastDeclared key parsed)
    ∧ "__proto__" ∉ (dockerfileEnv parsed).map Prod.fst := by
  constructor
  · intro hkey
    unfold dockerfileEnv lastDeclared
    rw [foldl_envStep_lookup key hkey]
    simp
  · unfold dockerfileEnv
    refine foldl_invariant envStep (fun env => "__proto__" ∉ env.map Prod.fst) ?_ _ [] (by simp)
    intro env cmd h
    unfold envStep
    by_cases hp : cmd.args.head?.getD "undefined" = "__proto__"
    · simpa [hp] using h
    · simp only [hp, if_false]
      rw [keys_setOwn]
      split
      · exact h
      · simp only [List.mem_append, List.mem_singleton, not_or]
        exact ⟨h, fun e => hp e.symm⟩

/-- A build file that can be read and parsed is stored under the base name of
its parent directory as an entry of type `dockerfile` that records the path,
the declared ports and the folded environment. -/
theorem dockerfileStep_stores (c : Collaborators) (st : ReduceState) (file : AbsPath)
    (content : String) (parsed : List Instruction)
    (hread : c.readFile file = some content) (hparse : c.parseDockerfile content = some parsed) :
    dockerfileStep c st file
      = store st (AbsPath.basename (AbsPath.dirname file))
          { type := "dockerfile", file := file, exposedPorts := some (declaredPorts parsed),
            env := JSVal.obj (dockerfileEnv parsed), image := none, build := none } := by
  simp [dockerfileStep, hread, hparse, dockerfileEntry, dockerfilePorts_eq_declaredPorts]

/-- The first scenario of the spec: `app/Dockerfile` with `EXPOSE 8080` and
`ENV FOO=bar` yields the entry `app` with port `8080` and `FOO` bound to `bar`. -/
theorem scenario_build_file :
    parseServices (Fixture.collab .null) ⟨[["repo", "app", "Dockerfile"]], []⟩
      = .ok ⟨⟨[("app", Fixture.appEntry)], none⟩, []⟩ := rfl

theorem hostTokens_strings (ports : List String) :
    hostTokens (ports.map JSVal.str) = .ok (ports.map firstColonToken) := by
  induction ports with
  | nil => rfl
  | cons p ps ih => simp [hostTokens, ih]

/-- A manifest service that is an object whose `ports`, when present, is an
array of strings is stored under its manifest key as an entry of type `compose`
with the first colon-separated token of every port, the environment block (the
empty object when the block is absent or falsy), and `image` and `build` as
they are. -/
theorem composeServiceStep_stores (file : AbsPath) (st : ReduceState) (name : String)
    (props : List (String × JSVal)) :
    (props.lookup "ports" = none →
      composeServiceStep file st (name, JSVal.obj props)
        = .ok (store st name
            { type := "compose", file := file, exposedPorts := none,
              env := composeEnv ((props.lookup "environment").getD .undefined),
              image := some ((props.lookup "image").getD .undefined),
              build := some ((props.lookup "build").getD .undefined) }))
    ∧ (∀ ports : List String, props.lookup "ports" = some (JSVal.arr (ports.map JSVal.str)) →
      composeServiceStep file st (name, JSVal.obj props)
        = .ok (store st name
            { type := "compose", file := file, exposedPorts := some (ports.map firstColonToken),
              env := composeEnv ((props.lookup "environment").getD .undefined),
              image := some ((props.lookup "image").getD .undefined),
              build := some ((props.lookup "build").getD .undefined) })) := by
  constructor
  · intro h
    simp [composeServiceStep, composeEntry, getField, h, composePorts, bind, Except.bind, pure,
      Except.pure]
  · intro ports h
    simp [composeServiceStep, composeEntry, getField, h, composePorts, hostTokens_strings, bind,
      Except.bind, pure, Except.pure]

/-- The second scenario of the spec: the manifest
`services: web: {ports: ["8080:80"], environment: {X: "1"}}` yields the entry
`web` with port `8080` and `X` bound to `1`. -/
theorem scenario_manifest :
    parseServices (Fixture.collab Fixture.webManifest) ⟨[], [["repo", "docker-compose.yaml"]]⟩
      = .ok ⟨⟨[("web", Fixture.webEntry)], none⟩, []⟩ := rfl

/-- For an ordinary name, on a `services` object whose prototype was never
replaced: the write stores the definition under the name and leaves every other
name as it was, and the warning is written exactly when the name was already
an own property. -/
theorem store_ordinary (st : ReduceState) (name : String) (d : ServiceDef)
    (hproto : st.services.proto = none) (hname : ordinaryName name = true) :
    (store st name d).services.own.lookup name = some d
    ∧ (∀ other, other ≠ name →
        (store st name d).services.own.lookup other = st.services.own.lookup other)
    ∧ (store st name d).services.proto = none
    ∧ (store st name d).log
        = if name ∈ st.services.own.map Prod.fst then st.log ++ [LogMsg.duplicateName name]
          else st.log := by
  simp only [ordinaryName, Bool.and_eq_true, bne_iff_ne, ne_eq, Bool.not_eq_true'] at hname
  obtain ⟨hne, hkeys⟩ := hname
  have hassign : (st.services.assign name d).own = setOwn name d st.services.own
      ∧ (st.services.assign name d).proto = none := by
    by_cases h1 : st.services.own.any (fun p => p.1 == name) = true
    · simp only [ServicesObj.assign, h1, if_true]
      exact ⟨trivial, hproto⟩
    · constructor <;> simp [ServicesObj.assign, h1, hne, hproto]
  have hany : st.services.own.any (fun p => p.1 == name) = true
      ↔ name ∈ st.services.own.map Prod.fst := by
    simp only [List.any_eq_true, List.mem_map, beq_iff_eq]
  refine ⟨?_, ?_, hassign.2, ?_⟩
  · show (st.services.assign name d).own.lookup name = some d
    rw [hassign.1]; exact lookup_setOwn_self _ _ _
  · intro other ho
    show (st.services.assign name d).own.lookup other = _
    rw [hassign.1]; exact lookup_setOwn_ne _ _ ho
  · show (if st.services.truthyAt name then _ else _) = _
    have hb : (name == "__proto__") = false := by simpa using hne
    have htruthy : st.services.truthyAt name = st.services.own.any (fun p => p.1 == name) := by
      unfold ServicesObj.truthyAt
      rw [hproto, hkeys, hb]
      simp
    rw [htruthy]
    by_cases hmem : name ∈ st.services.own.map Prod.fst
    · simp only [hany.2 hmem, if_true, hmem]
    · have : st.services.own.any (fun p => p.1 == name) = false := by
        cases hb : st.services.own.any (fun p => p.1 == name) with
        | false => rfl
        | true => exact absurd (hany.1 hb) hmem
      simp [this, hmem]

/-- A build file that cannot be read, or that the parser rejects, only adds a
console message; a manifest that cannot be read, or that the parser rejects,
does the same and does not raise. -/
theorem bad_file_is_skipped (c : Collaborators) (st : ReduceState) (file : AbsPath) :
    (c.readFile file = none →
      dockerfileStep c st file = { st with log := st.log ++ [LogMsg.readDockerfileFailed file] }
      ∧ composeStep c st file
          = .ok { st with log := st.log ++ [LogMsg.readComposeFailed file] })
    ∧ (∀ content, c.readFile file = some content → c.parseDockerfile content = none →
      dockerfileStep c st file
        = { st with log := st.log ++ [LogMsg.parseDockerfileFailed file] })
    ∧ (∀ content, c.readFile file = some content → c.parseYaml content = none →
      composeStep c st file
        = .ok { st with log := st.log ++ [LogMsg.parseComposeFailed file] }) := by
  refine ⟨?_, ?_, ?_⟩
  · intro h; simp [dockerfileStep, composeStep, h]
  · intro content hr hp; simp [dockerfileStep, hr, hp]
  · intro content hr hp; simp [composeStep, hr, hp]

theorem forEachM_congr {σ α β : Type} (f : σ → α → Except JSError σ) (proj : σ → β)
    (hf : ∀ s s' x, proj s = proj s' → (f s x).map proj = (f s' x).map proj) (xs : List α) :
    ∀ s s', proj s = proj s' → (forEachM f s xs).map proj = (forEachM f s' xs).map proj := by
  induction xs with
  | nil => intro s s' h; simp only [forEachM, Except.map, h]
  | cons x xs ih =>
    intro s s' h
    simp only [forEachM]
    cases h₁ : f s x with
    | error e =>
      cases h₂ : f s' x with
      | error e' =>
        exact (congrArg (Except.map proj) h₁).symm.trans
          ((hf s s' x h).trans (congrArg (Except.map proj) h₂))
      | ok t' =>
        have hx := (congrArg (Except.map proj) h₁).symm.trans
          ((hf s s' x h).trans (congrArg (Except.map proj) h₂))
        simp [Except.map] at hx
    | ok t =>
      cases h₂ : f s' x with
      | error e' =>
        have hx := (congrArg (Except.map proj) h₁).symm.trans
          ((hf s s' x h).trans (congrArg (Except.map proj) h₂))
        simp [Except.map] at hx
      | ok t' =>
        have hx := (congrArg (Except.map proj) h₁).symm.trans
          ((hf s s' x h).trans (congrArg (Except.map proj) h₂))
        simp only [Except.map, Except.ok.injEq] at hx
        exact ih t t' hx

theorem forEachM_append {σ α : Type} (f : σ → α → Except JSError σ) (xs ys : List α) :
    ∀ s, forEachM f s (xs ++ ys)
      = match forEachM f s xs with
        | .ok s' => forEachM f s' ys
        | .error e => .error e := by
  induction xs with
  | nil => intro s; simp [forEachM]
  | cons x xs ih =>
    intro s
    simp only [List.cons_append, forEachM]
    cases f s x with
    | error e => rfl
    | ok s' => exact ih s'

theorem store_services_congr (st st' : ReduceState) (name : String) (d : ServiceDef)
    (h : st.services = st'.services) : (store st name d).services = (store st' name d).services := by
  simp [store, h]

theorem dockerfileStep_services_congr (c : Collaborators) (st st' : ReduceState) (file : AbsPath)
    (h : st.services = st'.services) :
    (dockerfileStep c st file).services = (dockerfileStep c st' file).services := by
  cases hr : c.readFile file with
  | none => simpa [dockerfileStep, hr] using h
  | some content =>
    cases hp : c.parseDockerfile content with
    | none => simpa [dockerfileStep, hr, hp] using h
    | some parsed =>
      simpa [dockerfileStep, hr, hp] using store_services_congr _ _ _ _ h

theorem composeServiceStep_services_congr (file : AbsPath) (st st' : ReduceState)
    (entry : String × JSVal) (h : st.services = st'.services) :
    (composeServiceStep file st entry).map (fun s => s.services)
      = (composeServiceStep file st' entry).map (fun s => s.services) := by
  cases hd : composeEntry file entry.2 with
  | error e => simp [composeServiceStep, hd, Except.map]
  | ok d => simp [composeServiceStep, hd, Except.map, store_services_congr _ _ _ _ h]

theorem composeStep_services_congr (c : Collaborators) (st st' : ReduceState) (file : AbsPath)
    (h : st.services = st'.services) :
    (composeStep c st file).map (fun s => s.services)
      = (composeStep c st' file).map (fun s => s.services) := by
  cases hr : c.readFile file with
  | none => simp [composeStep, hr, Except.map, h]
  | some content =>
    cases hp : c.parseYaml content with
    | none => simp [composeStep, hr, hp, Except.map, h]
    | some compose =>
      cases hg : getField compose "services" with
      | error e => simp [composeStep, hr, hp, hg, Except.map]
      | ok services =>
        by_cases ht : truthy services = true
        · cases he : objectEntries services with
          | error e => simp [composeStep, hr, hp, hg, ht, he, Except.map]
          | ok es =>
            simp only [composeStep, hr, hp, hg, ht, he, if_true]
            exact forEachM_congr _ _
              (fun s s' x hs => composeServiceStep_services_congr file s s' x hs) es st st' h
        · simp [composeStep, hr, hp, hg, ht, Except.map, h]

/-- A build file or a manifest that cannot be read, or that its parser
rejects, is skipped: the call returns or raises as it does without that file,
and a returned `services` object is the same. -/
theorem parseServices_skips_rejected_file (c : Collaborators) (before after others : List AbsPath)
    (bad : AbsPath) :
    ((c.readFile bad = none ∨ ∃ content, c.readFile bad = some content
        ∧ c.parseDockerfile content = none) →
      (parseServices c ⟨before ++ bad :: after, others⟩).map (fun s => s.services)
        = (parseServices c ⟨before ++ after, others⟩).map (fun s => s.services))
    ∧ ((c.readFile bad = none ∨ ∃ content, c.readFile bad = some content
        ∧ c.parseYaml content = none) →
      (parseServices c ⟨others, before ++ bad :: after⟩).map (fun s => s.services)
        = (parseServices c ⟨others, before ++ after⟩).map (fun s => s.services)) := by
  constructor
  · intro hbad
    unfold parseServices
    apply forEachM_congr _ _ (fun s s' x hs => composeStep_services_congr c s s' x hs)
    simp only [List.foldl_append, List.foldl_cons]
    have hskip : ∀ st, (dockerfileStep c st bad).services = st.services := by
      intro st
      rcases hbad with h | ⟨content, hr, hp⟩
      · simp [dockerfileStep, h]
      · simp [dockerfileStep, hr, hp]
    generalize List.foldl (dockerfileStep c) ⟨ServicesObj.empty, []⟩ before = st₀
    have hstart := hskip st₀
    generalize dockerfileStep c st₀ bad = st₁ at hstart
    clear hskip hbad
    induction after generalizing st₀ st₁ with
    | nil => exact hstart
    | cons f fs ih =>
      simp only [List.foldl_cons]
      exact ih _ _ (dockerfileStep_services_congr c st₁ st₀ f hstart)
  · intro hbad
    unfold parseServices
    simp only []
    generalize List.foldl (dockerfileStep c) ⟨ServicesObj.empty, []⟩ others = st₀
    rw [forEachM_append, forEachM_append]
    cases forEachM (composeStep c) st₀ before with
    | error e => rfl
    | ok st₁ =>
      simp only [forEachM]
      have hskip : ∃ st₂, composeStep c st₁ bad = .ok st₂ ∧ st₂.services = st₁.services := by
        rcases hbad with h | ⟨content, hr, hp⟩
        · exact ⟨{ st₁ with log := st₁.log ++ [LogMsg.readComposeFailed bad] },
            by simp [composeStep, h], rfl⟩
        · exact ⟨{ st₁ with log := st₁.log ++ [LogMsg.parseComposeFailed bad] },
            by simp [composeStep, hr, hp], rfl⟩
      obtain ⟨st₂, h₂, hs⟩ := hskip
      rw [h₂]
      exact forEachM_congr _ _ (fun s s' x hs => composeStep_services_congr c s s' x hs)
        after st₂ st₁ hs

/-! ## The reducer as a fold over the definitions it processes -/

theorem storeAll_append (st : ReduceState) (ds ds' : List (String × ServiceDef)) :
    storeAll st (ds ++ ds') = storeAll (storeAll st ds) ds' := by
  simp [storeAll, List.foldl_append]

theorem store_observed (st st' : ReduceState) (name : String) (d : ServiceDef)
    (h : st.services = st'.services
      ∧ st.log.filter isDuplicateWarning = st'.log.filter isDuplicateWarning) :
    (store st name d).services = (store st' name d).services
      ∧ (store st name d).log.filter isDuplicateWarning
          = (store st' name d).log.filter isDuplicateWarning := by
  obtain ⟨hs, hl⟩ := h
  refine ⟨by simp [store, hs], ?_⟩
  simp only [store, hs]
  split
  · simp [List.filter_append, hl]
  · exact hl

theorem storeAll_observed (defs : List (String × ServiceDef)) :
    ∀ (st st' : ReduceState),
      (st.services = st'.services
        ∧ st.log.filter isDuplicateWarning = st'.log.filter isDuplicateWarning) →
      (storeAll st defs).services = (storeAll st' defs).services
        ∧ (storeAll st defs).log.filter isDuplicateWarning
            = (storeAll st' defs).log.filter isDuplicateWarning := by
  induction defs with
  | nil => intro st st' h; exact h
  | cons p ps ih =>
    intro st st' h
    exact ih _ _ (store_observed st st' p.1 p.2 h)

theorem dockerfileStep_observed (c : Collaborators) (st : ReduceState) (file : AbsPath) :
    (dockerfileStep c st file).services
        = (storeAll st (dockerfileDefinitions c [file])).services
      ∧ (dockerfileStep c st file).log.filter isDuplicateWarning
          = (storeAll st (dockerfileDefinitions c [file])).log.filter isDuplicateWarning := by
  cases hr : c.readFile file with
  | none =>
    simp [dockerfileStep, dockerfileDefinitions, storeAll, hr, List.filter_append,
      isDuplicateWarning]
  | some content =>
    cases hp : c.parseDockerfile content with
    | none =>
      simp [dockerfileStep, dockerfileDefinitions, storeAll, hr, hp, List.filter_append,
        isDuplicateWarning]
    | some parsed =>
      simp [dockerfileStep, dockerfileDefinitions, storeAll, hr, hp]

theorem dockerfileDefinitions_cons (c : Collaborators) (file : AbsPath) (files : List AbsPath) :
    dockerfileDefinitions c (file :: files)
      = dockerfileDefinitions c [file] ++ dockerfileDefinitions c files := by
  unfold dockerfileDefinitions
  rw [← List.filterMap_append]
  rfl

theorem dockerfiles_observed (c : Collaborators) (files : List AbsPath) :
    ∀ st : ReduceState,
      (files.foldl (dockerfileStep c) st).services
          = (storeAll st (dockerfileDefinitions c files)).services
        ∧ (files.foldl (dockerfileStep c) st).log.filter isDuplicateWarning
            = (storeAll st (dockerfileDefinitions c files)).log.filter isDuplicateWarning := by
  induction files with
  | nil => intro st; exact ⟨rfl, rfl⟩
  | cons f fs ih =>
    intro st
    rw [List.foldl_cons, dockerfileDefinitions_cons, storeAll_append]
    obtain ⟨h₁, h₂⟩ := ih (dockerfileStep c st f)
    obtain ⟨k₁, k₂⟩ := storeAll_observed (dockerfileDefinitions c fs) _ _
      (dockerfileStep_observed c st f)
    exact ⟨h₁.trans k₁, h₂.trans k₂⟩

theorem entries_observed (file : AbsPath) (es : List (String × JSVal)) :
    ∀ (st st' : ReduceState), forEachM (composeServiceStep file) st es = .ok st' →
      ∃ defs, entryDefinitions file es = .ok defs ∧ st' = storeAll st defs := by
  induction es with
  | nil =>
    intro st st' h
    simp only [forEachM, Except.ok.injEq] at h
    exact ⟨[], rfl, h.symm⟩
  | cons e es ih =>
    intro st st' h
    simp only [forEachM, composeServiceStep] at h
    cases hd : composeEntry file e.2 with
    | error err => simp [hd] at h
    | ok d =>
      simp only [hd] at h
      obtain ⟨defs, hdefs, hst⟩ := ih _ _ h
      exact ⟨(e.1, d) :: defs, by simp [entryDefinitions, hd, hdefs], hst⟩

theorem composeStep_observed (c : Collaborators) (st st' : ReduceState) (file : AbsPath)
    (h : composeStep c st file = .ok st') :
    ∃ defs, composeDefinitions c file = .ok defs
      ∧ st'.services = (storeAll st defs).services
      ∧ st'.log.filter isDuplicateWarning
          = (storeAll st defs).log.filter isDuplicateWarning := by
  cases hr : c.readFile file with
  | none =>
    simp only [composeStep, hr, Except.ok.injEq] at h
    subst h
    exact ⟨[], by simp [composeDefinitions, hr], rfl,
      by simp [storeAll, List.filter_append, isDuplicateWarning]⟩
  | some content =>
    cases hp : c.parseYaml content with
    | none =>
      simp only [composeStep, hr, hp, Except.ok.injEq] at h
      subst h
      exact ⟨[], by simp [composeDefinitions, hr, hp], rfl,
        by simp [storeAll, List.filter_append, isDuplicateWarning]⟩
    | some compose =>
      cases hg : getField compose "services" with
      | error e => simp [composeStep, hr, hp, hg] at h
      | ok services =>
        by_cases ht : truthy services = true
        · cases he : objectEntries services with
          | error e => simp [composeStep, hr, hp, hg, ht, he] at h
          | ok es =>
            simp only [composeStep, hr, hp, hg, ht, he, if_true] at h
            obtain ⟨defs, hdefs, hst⟩ := entries_observed file es st st' h
            exact ⟨defs, by simp [composeDefinitions, hr, hp, hg, ht, he, hdefs],
              by rw [hst], by rw [hst]⟩
        · have hf : truthy services = false := by simpa using ht
          simp only [composeStep, hr, hp, hg, hf, Bool.false_eq_true, if_false,
            Except.ok.injEq] at h
          subst h
          exact ⟨[], by simp [composeDefinitions, hr, hp, hg, hf], rfl, rfl⟩

theorem manifests_observed (c : Collaborators) (files : List AbsPath) :
    ∀ (st st' : ReduceState), forEachM (composeStep c) st files = .ok st' →
      ∃ defs, manifestDefinitions c files = .ok defs
        ∧ st'.services = (storeAll st defs).services
        ∧ st'.log.filter isDuplicateWarning
            = (storeAll st defs).log.filter isDuplicateWarning := by
  induction files with
  | nil =>
    intro st st' h
    simp only [forEachM, Except.ok.injEq] at h
    subst h
    exact ⟨[], rfl, rfl, rfl⟩
  | cons f fs ih =>
    intro st st' h
    simp only [forEachM] at h
    cases hf : composeStep c st f with
    | error e => simp [hf] at h
    | ok st₁ =>
      simp only [hf] at h
      obtain ⟨ds, hds, h₁, h₂⟩ := composeStep_observed c st st₁ f hf
      obtain ⟨ds', hds', k₁, k₂⟩ := ih st₁ st' h
      obtain ⟨m₁, m₂⟩ := storeAll_observed ds' st₁ (storeAll st ds) ⟨h₁, h₂⟩
      refine ⟨ds ++ ds', by simp [manifestDefinitions, hds, hds'], ?_, ?_⟩
      · rw [storeAll_append]; exact k₁.trans m₁
      · rw [storeAll_append]; exact k₂.trans m₂

/-- A call of `parseServices` that returns has processed the definitions
`definitions c files` one after the other: the returned object, and the
duplicate-name warnings in the console output, are those of the duplicate check
and the write applied to each definition in turn. -/
theorem parseServices_observed (c : Collaborators) (files : Files) (st : ReduceState)
    (h : parseServices c files = .ok st) :
    ∃ defs, definitions c files = .ok defs
      ∧ st.services = (storeAll ⟨ServicesObj.empty, []⟩ defs).services
      ∧ st.log.filter isDuplicateWarning = (storeAll ⟨ServicesObj.empty, []⟩ defs).log := by
  unfold parseServices at h
  obtain ⟨ds, hds, h₁, h₂⟩ := manifests_observed c files.composeFiles _ st h
  obtain ⟨k₁, k₂⟩ := storeAll_observed ds _ _
    (dockerfiles_observed c files.dockerfiles ⟨ServicesObj.empty, []⟩)
  refine ⟨dockerfileDefinitions c files.dockerfiles ++ ds, by simp [definitions, hds], ?_, ?_⟩
  · rw [storeAll_append]; exact h₁.trans k₁
  · rw [storeAll_append]
    refine (h₂.trans k₂).trans ?_
    have hall : ∀ (defs : List (String × ServiceDef)) (s : ReduceState),
        (∀ m ∈ s.log, isDuplicateWarning m = true) →
        ∀ m ∈ (storeAll s defs).log, isDuplicateWarning m = true := by
      intro defs
      induction defs with
      | nil => intro s hs; exact hs
      | cons p ps ih =>
        intro s hs
        apply ih
        intro m hm
        simp only [store] at hm
        split at hm
        · rcases List.mem_append.1 hm with hm | hm
          · exact hs m hm
          · simp only [List.mem_singleton] at hm; subst hm; rfl
        · exact hs m hm
    exact List.filter_eq_self.2
      (hall _ _ (hall _ ⟨ServicesObj.empty, []⟩ (by simp)))

theorem store_ordinary_keys (st : ReduceState) (name : String) (d : ServiceDef)
    (hname : ordinaryName name = true) :
    (store st name d).services.own.map Prod.fst
      = if name ∈ st.services.own.map Prod.fst then st.services.own.map Prod.fst
        else st.services.own.map Prod.fst ++ [name] := by
  simp only [ordinaryName, Bool.and_eq_true, bne_iff_ne, ne_eq, Bool.not_eq_true'] at hname
  have hown : (store st name d).services.own = setOwn name d st.services.own := by
    by_cases h1 : st.services.own.any (fun p => p.1 == name) = true
    · simp [store, ServicesObj.assign, h1]
    · simp [store, ServicesObj.assign, h1, hname.1]
  rw [hown, keys_setOwn]

theorem lookup_append_pairs {α : Type} (k : String) (l l' : List (String × α)) :
    (l ++ l').lookup k = (l.lookup k).orElse (fun _ => l'.lookup k) := by
  induction l with
  | nil => simp [List.lookup]
  | cons p ps ih =>
    obtain ⟨k₀, v₀⟩ := p
    by_cases hk : k = k₀
    · subst hk; simp [List.lookup]
    · have h' : (k == k₀) = false := by simpa using hk
      simp only [List.cons_append, List.lookup, h']
      exact ih

/-- The duplicate check and the write applied to a list of definitions with
ordinary names, on a `services` object whose prototype was never replaced:
every name is bound to its last definition in the list (else to what it was
bound to before), the warnings written are one for every name that repeats an
own key or an earlier name, and every definition either creates an own
property or writes a warning. -/
theorem storeAll_ordinary (defs : List (String × ServiceDef)) :
    ∀ st : ReduceState, st.services.proto = none →
      (∀ p ∈ defs, ordinaryName p.1 = true) →
      (storeAll st defs).services.proto = none
      ∧ (∀ name, (storeAll st defs).services.own.lookup name
          = (defs.reverse.lookup name).orElse (fun _ => st.services.own.lookup name))
      ∧ (storeAll st defs).log
          = st.log ++ (collisionsFrom (st.services.own.map Prod.fst)
              (defs.map Prod.fst)).map LogMsg.duplicateName
      ∧ (storeAll st defs).services.own.length
            + (collisionsFrom (st.services.own.map Prod.fst) (defs.map Prod.fst)).length
          = st.services.own.length + defs.length := by
  induction defs with
  | nil =>
    intro st hproto _
    simp [storeAll, collisionsFrom, hproto]
  | cons p ps ih =>
    intro st hproto hord
    have hp : ordinaryName p.1 = true := hord p (List.mem_cons_self _ _)
    obtain ⟨s₁, s₂, s₃, s₄⟩ := store_ordinary st p.1 p.2 hproto hp
    have hkeys := store_ordinary_keys st p.1 p.2 hp
    obtain ⟨i₁, i₂, i₃, i₄⟩ := ih (store st p.1 p.2) s₃
      (fun q hq => hord q (List.mem_cons_of_mem _ hq))
    have hstep : storeAll st (p :: ps) = storeAll (store st p.1 p.2) ps := rfl
    rw [hstep]
    refine ⟨i₁, ?_, ?_, ?_⟩
    · intro name
      rw [i₂ name, List.reverse_cons, lookup_append_pairs]
      cases hl : ps.reverse.lookup name with
      | some v => simp
      | none =>
        by_cases hn : name = p.1
        · subst hn
          simp [s₁, List.lookup]
        · have h' : (name == p.1) = false := by simpa using hn
          simp [s₂ name hn, List.lookup, h']
    · rw [i₃, s₄, hkeys]
      by_cases hmem : p.1 ∈ st.services.own.map Prod.fst
      · simp [hmem, collisionsFrom, List.append_assoc]
      · simp [hmem, collisionsFrom]
    · rw [hkeys] at i₄
      have hlen : (store st p.1 p.2).services.own.length
          = if p.1 ∈ st.services.own.map Prod.fst then st.services.own.length
            else st.services.own.length + 1 := by
        have := congrArg List.length hkeys
        simp only [List.length_map] at this
        rw [this]
        split <;> simp
      by_cases hmem : p.1 ∈ st.services.own.map Prod.fst
      · simp only [hmem, if_true] at i₄ hlen
        simp only [List.map_cons, collisionsFrom, hmem, if_true, List.length_cons]
        omega
      · simp only [hmem, if_false] at i₄ hlen
        simp only [List.map_cons, collisionsFrom, hmem, if_false, List.length_cons]
        omega

theorem collisionsFrom_nil_of_nodup (names : List String) :
    ∀ seen : List String, names.Nodup → (∀ n ∈ names, n ∉ seen) →
      collisionsFrom seen names = [] := by
  induction names with
  | nil => intro seen _ _; rfl
  | cons n ns ih =>
    intro seen hnd hdis
    have hn : n ∉ seen := hdis n (List.mem_cons_self _ _)
    simp only [collisionsFrom, hn, if_false]
    apply ih _ (List.nodup_cons.1 hnd).2
    intro m hm hmem
    rcases List.mem_append.1 hmem with h | h
    · exact hdis m (List.mem_cons_of_mem _ hm) h
    · simp only [List.mem_singleton] at h
      subst h
      exact (List.nodup_cons.1 hnd).1 hm

/-- Collision resolution for ordinary names. When `parseServices` returns and
no processed definition is named `__proto__` or like a member of
`Object.prototype`: the returned object has at most one entry per name, every
name is bound to the last definition processed for it (the whole definition),
the number of duplicate-name warnings is the number of processed definitions
minus the number of entries, and no warning is written when all names are
distinct. -/
theorem parseServices_collisions_ordinary (c : Collaborators) (files : Files)
    (st : ReduceState) (h : parseServices c files = .ok st) :
    ∃ defs, definitions c files = .ok defs
      ∧ ((∀ p ∈ defs, ordinaryName p.1 = true) →
        (st.services.own.map Prod.fst).Nodup
        ∧ (∀ name, st.services.own.lookup name = defs.reverse.lookup name)
        ∧ (st.log.filter isDuplicateWarning).length + st.services.own.length = defs.length
        ∧ ((defs.map Prod.fst).Nodup → st.log.filter isDuplicateWarning = [])) := by
  obtain ⟨defs, hdefs, hs, hl⟩ := parseServices_observed c files st h
  refine ⟨defs, hdefs, ?_⟩
  intro hord
  obtain ⟨_, o₂, o₃, o₄⟩ := storeAll_ordinary defs ⟨ServicesObj.empty, []⟩ rfl hord
  refine ⟨parseServices_own_nodup c files st h, ?_, ?_, ?_⟩
  · intro name
    rw [hs, o₂ name]
    cases defs.reverse.lookup name <;> simp [ServicesObj.empty, List.lookup]
  · rw [hl, hs, o₃]
    simp only [ServicesObj.empty, List.map_nil, List.nil_append, List.length_map,
      List.length_nil, Nat.zero_add] at o₄ ⊢
    omega
  · intro hnd
    rw [hl, o₃, collisionsFrom_nil_of_nodup _ _ hnd (by simp [ServicesObj.empty])]
    rfl

/-! ## Capture tasks and the reachability check -/

theorem awaitAll_trace_initial (steps : List (Call × Option JSError)) :
    (awaitAll steps).2 <+: steps.map Prod.fst := by
  induction steps with
  | nil => simp [awaitAll]
  | cons step rest ih =>
    obtain ⟨call, outcome⟩ := step
    cases outcome with
    | some e => simp [awaitAll, List.prefix_cons_inj]
    | none => simpa [awaitAll, List.prefix_cons_inj] using ih

theorem withCatch_rethrow {α : Type} (body : Run α) :
    withCatch body (fun error => (.error error, [])) = body := by
  obtain ⟨r, t⟩ := body
  cases r <;> simp [withCatch]

theorem takeScreenshot_trace (ctx : Nat) (serviceName url iso : String) (o : StepOutcomes)
    (hctx : o.newContext = none) :
    (takeScreenshot ctx serviceName url iso o).2
      = Call.newContext ctx ::
          (awaitAll
            [(Call.newPage ctx, o.newPage),
             (Call.goto ctx url, o.goto),
             (Call.screenshot ctx (filename serviceName iso), o.screenshot),
             (Call.writeFile (metadataFilename serviceName), o.writeFile)]).2
          ++ [Call.close ctx] := by
  obtain ⟨c, p, g, s, w, cl⟩ := o
  simp only at hctx
  subst hctx
  simp [takeScreenshot, withCatch_rethrow, withFinally]
  cases cl <;> simp [awaitAll]

theorem takeScreenshot_result (ctx : Nat) (serviceName url iso : String) (o : StepOutcomes) :
    (takeScreenshot ctx serviceName url iso o).1 = .ok () ↔ o.captureSucceeds = true := by
  obtain ⟨c, p, g, s, w, cl⟩ := o
  cases c <;> cases p <;> cases g <;> cases s <;> cases w <;> cases cl <;>
    simp [takeScreenshot, awaitAll, withCatch_rethrow, withFinally,
      StepOutcomes.captureSucceeds]

theorem promiseAll_caught (rs : List (Except JSError Unit)) :
    promiseAll (rs.map caught) = .ok () := by
  induction rs with
  | nil => rfl
  | cons r rs ih =>
    cases r with
    | ok u => simpa [promiseAll, caught] using ih
    | error e => simpa [promiseAll, caught] using ih

theorem launch_length (now : Nat → String) (outcomes : Nat → StepOutcomes)
    (tasks : List CaptureTask) : ∀ i, (launch now outcomes i tasks).length = tasks.length := by
  induction tasks with
  | nil => intro i; rfl
  | cons t ts ih => intro i; simp [launch, ih]

theorem launch_getElem? (now : Nat → String) (outcomes : Nat → StepOutcomes)
    (tasks : List CaptureTask) :
    ∀ i k, (launch now outcomes i tasks)[k]?
      = tasks[k]?.map (fun task =>
          takeScreenshot (i + k) task.1 task.2 (now (i + k)) (outcomes (i + k))) := by
  induction tasks with
  | nil => intro i k; simp [launch]
  | cons t ts ih =>
    intro i k
    cases k with
    | zero => simp [launch]
    | succ k =>
      simp only [launch, List.getElem?_cons_succ, ih]
      have : i + 1 + k = i + (k + 1) := by omega
      rw [this]

theorem healthAttempt_result (i : Nat) (url : String) (o : StepOutcomes) :
    (healthAttempt i url o).1 = .ok () ↔ o.attemptSucceeds = true := by
  obtain ⟨c, p, g, s, w, cl⟩ := o
  cases c <;> cases p <;> cases g <;> cases cl <;>
    simp [healthAttempt, awaitAll, StepOutcomes.attemptSucceeds]

theorem healthAttempt_attempts (i : Nat) (url : String) (o : StepOutcomes) :
    attemptsMade (healthAttempt i url o).2 = [i] := by
  obtain ⟨c, p, g, s, w, cl⟩ := o
  cases c <;> cases p <;> cases g <;> cases cl <;>
    simp [healthAttempt, awaitAll, attemptsMade]

theorem attemptsMade_append (t t' : List Call) :
    attemptsMade (t ++ t') = attemptsMade t ++ attemptsMade t' := by
  simp [attemptsMade, List.filterMap_append]

/-- The loop of `isServiceHealthy` from attempt `i` with `remaining` iterations
left: it returns, the attempts made are `i, i + 1, …` in this order, and either
it returns `true` after the first successful attempt or it returns `false`
after `remaining` failed attempts. -/
theorem isServiceHealthyFrom_spec (url : String) (outcomes : Nat → StepOutcomes) :
    ∀ remaining i, ∃ made,
      attemptsMade (isServiceHealthyFrom url outcomes remaining i).2 = List.range' i made
      ∧ made ≤ remaining
      ∧ (∀ j, j + 1 < made → (outcomes (i + j)).attemptSucceeds = false)
      ∧ (((isServiceHealthyFrom url outcomes remaining i).1 = .ok true
            ∧ 0 < made ∧ (outcomes (i + (made - 1))).attemptSucceeds = true)
          ∨ ((isServiceHealthyFrom url outcomes remaining i).1 = .ok false
            ∧ made = remaining
            ∧ ∀ j, j < made → (outcomes (i + j)).attemptSucceeds = false)) := by
  intro remaining
  induction remaining with
  | zero =>
    intro i
    exact ⟨0, by simp [isServiceHealthyFrom, attemptsMade], le_refl _, by simp,
      Or.inr ⟨rfl, rfl, by simp⟩⟩
  | succ n ih =>
    intro i
    cases ha : (healthAttempt i url (outcomes i)).1 with
    | ok u =>
      have hs : (outcomes i).attemptSucceeds = true := (healthAttempt_result i url _).1 ha
      refine ⟨1, ?_, by omega, by simp, Or.inl ⟨?_, by omega, by simpa using hs⟩⟩
      · simp [isServiceHealthyFrom, ha, healthAttempt_attempts, List.range']
      · simp [isServiceHealthyFrom, ha]
    | error e =>
      have hf : (outcomes i).attemptSucceeds = false := by
        cases hb : (outcomes i).attemptSucceeds with
        | false => rfl
        | true =>
          have := (healthAttempt_result i url _).2 hb
          rw [ha] at this
          cases this
      obtain ⟨m, h₁, h₂, h₃, h₄⟩ := ih (i + 1)
      have hfail : ∀ j, j + 1 < m + 1 → (outcomes (i + j)).attemptSucceeds = false := by
        intro j hj
        cases j with
        | zero => simpa using hf
        | succ j =>
          have := h₃ j (by omega)
          have e : i + 1 + j = i + (j + 1) := by omega
          rwa [e] at this
      refine ⟨m + 1, ?_, by omega, hfail, ?_⟩
      · have ht : (isServiceHealthyFrom url outcomes (n + 1) i).2
            = (healthAttempt i url (outcomes i)).2 ++ Call.wait
                :: (isServiceHealthyFrom url outcomes n (i + 1)).2 := by
          simp [isServiceHealthyFrom, ha]
        have hw : attemptsMade (Call.wait :: (isServiceHealthyFrom url outcomes n (i + 1)).2)
            = attemptsMade (isServiceHealthyFrom url outcomes n (i + 1)).2 := by
          simp [attemptsMade]
        rw [ht, attemptsMade_append, healthAttempt_attempts, hw, h₁]
        simp [List.range']
      · have hr : (isServiceHealthyFrom url outcomes (n + 1) i).1
            = (isServiceHealthyFrom url outcomes n (i + 1)).1 := by
          simp [isServiceHealthyFrom, ha]
        rw [hr]
        rcases h₄ with ⟨r, hpos, hsucc⟩ | ⟨r, hm, hall⟩
        · refine Or.inl ⟨r, by omega, ?_⟩
          have e : i + (m + 1 - 1) = i + 1 + (m - 1) := by omega
          rwa [e]
        · refine Or.inr ⟨r, by omega, ?_⟩
          intro j hj
          cases j with
          | zero => simpa using hf
          | succ j =>
            have := hall j (by omega)
            have e : i + 1 + j = i + (j + 1) := by omega
            rwa [e] at this

theorem timestamp_chars (cs : List Char) :
    ':' ∉ cs.map (fun c => if c = ':' ∨ c = '.' then '-' else c)
      ∧ '.' ∉ cs.map (fun c => if c = ':' ∨ c = '.' then '-' else c) := by
  constructor <;>
  · intro h
    obtain ⟨c, _, hc⟩ := List.mem_map.1 h
    by_cases h' : c = ':' ∨ c = '.'
    · rw [if_pos h'] at hc
      revert hc
      decide
    · rw [if_neg h'] at hc
      exact h' (by simp [hc])

theorem digit_not_replaced (c : Char) (h : c.isDigit = true) :
    (if c = ':' ∨ c = '.' then '-' else c) = c := by
  have : ¬ (c = ':' ∨ c = '.') := by
    rintro (rfl | rfl) <;> revert h <;> decide
  rw [if_neg this]

theorem isTimePart_shape (l : List Char) (h : isTimePart l = true) :
    ∃ h₁ h₂ m₁ m₂ s₁ s₂ f₁ f₂ f₃ : Char,
      l = ['T', h₁, h₂, ':', m₁, m₂, ':', s₁, s₂, '.', f₁, f₂, f₃, 'Z']
      ∧ h₁.isDigit = true ∧ h₂.isDigit = true ∧ m₁.isDigit = true ∧ m₂.isDigit = true
      ∧ s₁.isDigit = true ∧ s₂.isDigit = true
      ∧ f₁.isDigit = true ∧ f₂.isDigit = true ∧ f₃.isDigit = true := by
  unfold isTimePart at h
  split at h
  · next h₁ h₂ m₁ m₂ s₁ s₂ f₁ f₂ f₃ =>
    simp only [Bool.and_eq_true] at h
    obtain ⟨⟨⟨⟨⟨⟨⟨⟨a, b⟩, c⟩, d⟩, e⟩, f⟩, g⟩, i⟩, j⟩ := h
    exact ⟨h₁, h₂, m₁, m₂, s₁, s₂, f₁, f₂, f₃, rfl, a, b, c, d, e, f, g, i, j⟩
  · cases h

theorem timePart_injective (a b : List Char) (ha : isTimePart a = true)
    (hb : isTimePart b = true)
    (h : a.map (fun c => if c = ':' ∨ c = '.' then '-' else c)
      = b.map (fun c => if c = ':' ∨ c = '.' then '-' else c)) : a = b := by
  obtain ⟨h₁, h₂, m₁, m₂, s₁, s₂, f₁, f₂, f₃, rfl, a₁, a₂, a₃, a₄, a₅, a₆, a₇, a₈, a₉⟩ :=
    isTimePart_shape a ha
  obtain ⟨k₁, k₂, n₁, n₂, t₁, t₂, g₁, g₂, g₃, rfl, b₁, b₂, b₃, b₄, b₅, b₆, b₇, b₈, b₉⟩ :=
    isTimePart_shape b hb
  simp only [List.map_cons, List.map_nil, List.cons.injEq, digit_not_replaced _ a₁,
    digit_not_replaced _ a₂, digit_not_replaced _ a₃, digit_not_replaced _ a₄,
    digit_not_replaced _ a₅, digit_not_replaced _ a₆, digit_not_replaced _ a₇,
    digit_not_replaced _ a₈, digit_not_replaced _ a₉, digit_not_replaced _ b₁,
    digit_not_replaced _ b₂, digit_not_replaced _ b₃, digit_not_replaced _ b₄,
    digit_not_replaced _ b₅, digit_not_replaced _ b₆, digit_not_replaced _ b₇,
    digit_not_replaced _ b₈, digit_not_replaced _ b₉] at h
  obtain ⟨_, e₁, e₂, _, e₃, e₄, _, e₅, e₆, _, e₇, e₈, e₉, _⟩ := h
  subst e₁ e₂ e₃ e₄ e₅ e₆ e₇ e₈ e₉
  rfl

theorem dateChar_not_replaced (c : Char) (h : (c.isDigit || c = '-' || c = '+') = true) :
    (if c = ':' ∨ c = '.' then '-' else c) = c ∧ c ≠ 'T' := by
  have h₁ : ¬ (c = ':' ∨ c = '.') := by
    rintro (rfl | rfl) <;> revert h <;> decide
  have h₂ : c ≠ 'T' := by
    rintro rfl; revert h; decide
  exact ⟨if_neg h₁, h₂⟩

theorem replaced_eq_T (d : Char) (h : (if d = ':' ∨ d = '.' then '-' else d) = 'T') :
    d = 'T' := by
  by_cases h' : d = ':' ∨ d = '.'
  · rw [if_pos h'] at h
    exact absurd h (by decide)
  · rwa [if_neg h'] at h

/-- On strings of the shape of `toISOString()` the replacement of `:` and `.`
by `-` loses nothing. -/
theorem timestamp_injective_chars :
    ∀ (a b : List Char), isISOChars a = true → isISOChars b = true →
      a.map (fun c => if c = ':' ∨ c = '.' then '-' else c)
        = b.map (fun c => if c = ':' ∨ c = '.' then '-' else c) →
      a = b := by
  intro a
  induction a with
  | nil => intro b ha; simp [isISOChars] at ha
  | cons c cs ih =>
    intro b ha hb h
    cases b with
    | nil => simp [isISOChars] at hb
    | cons d ds =>
      simp only [List.map_cons, List.cons.injEq] at h
      obtain ⟨hhead, htail⟩ := h
      by_cases hc : c = 'T'
      · subst hc
        have hd : d = 'T' := replaced_eq_T d (by rw [← hhead]; decide)
        subst hd
        simp only [isISOChars, if_true] at ha hb
        exact timePart_injective _ _ ha hb (by simp [htail])
      · simp only [isISOChars, hc, if_false, Bool.and_eq_true] at ha
        obtain ⟨hcd, hcs⟩ := ha
        obtain ⟨hfc, _⟩ := dateChar_not_replaced c (by simpa using hcd)
        by_cases hd : d = 'T'
        · subst hd
          rw [hfc] at hhead
          exact absurd (by rw [hhead]; decide) hc
        · simp only [isISOChars, hd, if_false, Bool.and_eq_true] at hb
          obtain ⟨hdd, hds⟩ := hb
          obtain ⟨hfd, _⟩ := dateChar_not_replaced d (by simpa using hdd)
          rw [hfc, hfd] at hhead
          subst hhead
          rw [ih ds hcs hds htail]

theorem filename_injective (serviceName t₁ t₂ : String) (h₁ : isISOString t₁ = true)
    (h₂ : isISOString t₂ = true) (h : filename serviceName t₁ = filename serviceName t₂) :
    t₁ = t₂ := by
  have hl := congrArg String.data h
  simp only [filename, String.data_append, List.append_assoc] at hl
  have hmid := List.append_cancel_right (List.append_cancel_left (List.append_cancel_left hl))
  exact String.ext (timestamp_injective_chars _ _ h₁ h₂ hmid)

theorem healthAttempt_close (i : Nat) (url : String) (o : StepOutcomes) (ctx : Nat) :
    Call.close ctx ∈ (healthAttempt i url o).2
      ↔ ctx = i ∧ o.newContext = none ∧ o.newPage = none ∧ o.goto = none := by
  obtain ⟨c, p, g, s, w, cl⟩ := o
  cases c <;> cases p <;> cases g <;> cases cl <;>
    simp [healthAttempt, awaitAll]

/-! ## Collisions across the two kinds of source -/

theorem collisionsFrom_count (name : String) (names : List String) :
    ∀ seen : List String,
      (collisionsFrom seen names).count name
        = if name ∈ seen then names.count name else names.count name - 1 := by
  induction names with
  | nil => intro seen; simp [collisionsFrom]
  | cons n ns ih =>
    intro seen
    by_cases hn : n ∈ seen
    · simp only [collisionsFrom, hn, if_true, List.count_cons, ih seen]
      by_cases hname : name ∈ seen
      · simp [hname]
      · have hne : ¬ n = name := fun h => hname (h ▸ hn)
        have hne' : (n == name) = false := by simpa using hne
        simp [hname, hne']
    · simp only [collisionsFrom, hn, if_false, ih (seen ++ [n]), List.count_cons]
      by_cases hname : name ∈ seen
      · have hne : ¬ n = name := fun h => hn (h ▸ hname)
        have hne' : (n == name) = false := by simpa using hne
        simp [hname, hne']
      · by_cases heq : n = name
        · subst heq
          simp [hname]
        · have hne' : (n == name) = false := by simpa using heq
          have hne'' : ¬ name = n := fun h => heq h.symm
          simp [hname, hne', hne'']

theorem lookup_isSome_of_mem_keys {α : Type} {k : String} {l : List (String × α)}
    (h : k ∈ l.map Prod.fst) : ∃ v, l.lookup k = some v := by
  cases hl : l.lookup k with
  | none => exact absurd h (not_mem_keys_of_lookup_eq_none hl)
  | some v => exact ⟨v, rfl⟩

theorem value_unique_of_count_one {α : Type} (k : String) :
    ∀ (l : List (String × α)) (v v' : α), (l.map Prod.fst).count k = 1 →
      (k, v) ∈ l → (k, v') ∈ l → v = v' := by
  intro l
  induction l with
  | nil => intro v v' _ h; cases h
  | cons p ps ih =>
    intro v v' hc hv hv'
    obtain ⟨k₀, v₀⟩ := p
    by_cases hk : k₀ = k
    · subst hk
      have hz : (ps.map Prod.fst).count k₀ = 0 := by
        simpa [List.count_cons] using hc
      have hnot : k₀ ∉ ps.map Prod.fst := List.count_eq_zero.1 hz
      have hout : ∀ u, (k₀, u) ∈ (k₀, v₀) :: ps → u = v₀ := by
        intro u hu
        rcases List.mem_cons.1 hu with h | h
        · exact (Prod.mk.inj h).2
        · exact absurd (List.mem_map_of_mem Prod.fst h) hnot
      rw [hout v hv, hout v' hv']
    · have hk' : (k₀ == k) = false := by simpa using hk
      have hc' : (ps.map Prod.fst).count k = 1 := by
        simpa [List.count_cons, hk'] using hc
      have hin : ∀ u, (k, u) ∈ (k₀, v₀) :: ps → (k, u) ∈ ps := by
        intro u hu
        rcases List.mem_cons.1 hu with h | h
        · exact absurd (Prod.mk.inj h).1.symm hk
        · exact h
      exact ih v v' hc' (hin v hv) (hin v' hv')

/-- Cross-kind collision for ordinary names. When `parseServices` returns, no
processed definition is named `__proto__` or like a member of
`Object.prototype`, and `name` is defined by exactly one build file and by
exactly one manifest entry `d`: the returned object has exactly one entry for
`name`, its value is `d`, and exactly one duplicate-name warning is written
for `name`; a name that is defined at most once gets no warning. -/
theorem parseServices_cross_kind_ordinary (c : Collaborators) (files : Files)
    (st : ReduceState) (h : parseServices c files = .ok st)
    (mds : List (String × ServiceDef))
    (hm : manifestDefinitions c files.composeFiles = .ok mds)
    (hord : ∀ p ∈ dockerfileDefinitions c files.dockerfiles ++ mds, ordinaryName p.1 = true)
    (name : String) (d : ServiceDef)
    (hb : ((dockerfileDefinitions c files.dockerfiles).map Prod.fst).count name = 1)
    (hmc : (mds.map Prod.fst).count name = 1) (hd : (name, d) ∈ mds) :
    (name, d) ∈ st.services.entries
    ∧ (st.services.entries.map Prod.fst).count name = 1
    ∧ (∀ d', (name, d') ∈ st.services.entries → d' = d)
    ∧ st.log.count (LogMsg.duplicateName name) = 1
    ∧ (∀ other, ((dockerfileDefinitions c files.dockerfiles ++ mds).map Prod.fst).count other ≤ 1 →
        LogMsg.duplicateName other ∉ st.log) := by
  obtain ⟨defs, hdefs, hs, hl⟩ := parseServices_observed c files st h
  have hdefs' : defs = dockerfileDefinitions c files.dockerfiles ++ mds := by
    simp only [definitions, hm] at hdefs
    cases hdefs
    rfl
  subst hdefs'
  obtain ⟨_, o₂, o₃, _⟩ := storeAll_ordinary _ ⟨ServicesObj.empty, []⟩ rfl hord
  have hnd := parseServices_own_nodup c files st h
  have hlookup : st.services.own.lookup name = some d := by
    rw [hs, o₂ name, List.reverse_append, lookup_append_pairs]
    have hmem : name ∈ mds.reverse.map Prod.fst :=
      List.mem_map_of_mem Prod.fst (List.mem_reverse.2 hd)
    obtain ⟨v, hv⟩ := lookup_isSome_of_mem_keys hmem
    have hvd : v = d :=
      value_unique_of_count_one name mds v d hmc
        (List.mem_reverse.1 (mem_of_lookup_eq_some hv)) hd
    simp [hv, hvd]
  have hin : (name, d) ∈ st.services.own := mem_of_lookup_eq_some hlookup
  have hcount : (st.services.own.map Prod.fst).count name = 1 :=
    List.count_eq_one_of_mem hnd (List.mem_map_of_mem Prod.fst hin)
  have hwarn : ∀ n, st.log.count (LogMsg.duplicateName n)
      = ((dockerfileDefinitions c files.dockerfiles ++ mds).map Prod.fst).count n - 1 := by
    intro n
    have hf : st.log.count (LogMsg.duplicateName n)
        = (st.log.filter isDuplicateWarning).count (LogMsg.duplicateName n) := by
      rw [List.count_filter]
      rfl
    rw [hf, hl, o₃]
    simp only [ServicesObj.empty, List.map_nil, List.nil_append]
    rw [List.count_map_of_injective _ _ (fun a b hab => LogMsg.duplicateName.inj hab)]
    rw [collisionsFrom_count]
    simp
  refine ⟨mem_ownEntries.2 hin, ?_, ?_, ?_, ?_⟩
  · rw [ServicesObj.entries, ((ownEntries_perm st.services.own).map Prod.fst).count_eq]
    exact hcount
  · intro d' hd'
    have := mem_ownEntries.1 hd'
    exact value_unique_of_count_one name st.services.own d' d hcount this hin
  · rw [hwarn name, List.map_append, List.count_append, hb, hmc]
  · intro other hle hmem
    have hpos : 0 < st.log.count (LogMsg.duplicateName other) := List.count_pos_iff.2 hmem
    rw [hwarn other] at hpos
    omega

/-! ## The build-file parser -/

open DockerfileParser

theorem lineStep_skip (c : Config) (raw : String)
    (h : (startsWith (trim raw) "#" || decide (trim raw = "")) = true) :
    lineStep c raw = .ok c := by
  simp only [lineStep, h, if_true]

theorem workdirBranch_frame (c c' : Config) (line : String)
    (h : workdirBranch c line = .ok c') : c'.ports = c.ports ∧ c'.env = c.env := by
  unfold workdirBranch at h
  split at h
  · split at h
    · cases h
    · simp only [Except.ok.injEq] at h
      subst h
      exact ⟨rfl, rfl⟩
  · simp only [Except.ok.injEq] at h
    subst h
    exact ⟨rfl, rfl⟩

theorem commandBranches_frame (c : Config) (line : String) :
    (cmdBranch (entrypointBranch c line) line).ports = c.ports
    ∧ (cmdBranch (entrypointBranch c line) line).env = c.env := by
  unfold cmdBranch entrypointBranch
  constructor <;> split <;> split <;> rfl

theorem lineStep_ports_env (c c' : Config) (raw : String)
    (hskip : (startsWith (trim raw) "#" || decide (trim raw = "")) = false)
    (h : lineStep c raw = .ok c') :
    c'.ports = (exposeBranch c (trim raw)).ports
    ∧ c'.env = (envBranch (exposeBranch c (trim raw)) (trim raw)).env := by
  unfold lineStep at h
  simp only [hskip, Bool.false_eq_true, if_false] at h
  cases hw : workdirBranch (envBranch (exposeBranch c (trim raw)) (trim raw)) (trim raw) with
  | error e => simp [hw] at h
  | ok c₃ =>
    simp only [hw, Except.ok.injEq] at h
    subst h
    obtain ⟨w₁, w₂⟩ := workdirBranch_frame _ _ _ hw
    obtain ⟨k₁, k₂⟩ := commandBranches_frame c₃ (trim raw)
    refine ⟨k₁.trans (w₁.trans ?_), k₂.trans w₂⟩
    unfold envBranch
    split
    · simp only []
      split <;> rfl
    · rfl

/-- What one effective line does to the set of ports. -/
theorem exposeBranch_ports (c : Config) (line : String) :
    (exposeBranch c line).ports
      = (if startsWith line "EXPOSE" = true then exposedPorts line else []).foldl setAdd c.ports := by
  unfold exposeBranch
  split <;> rfl

theorem exposeBranch_env (c : Config) (line : String) : (exposeBranch c line).env = c.env := by
  unfold exposeBranch
  split <;> rfl

theorem envBranch_env (c : Config) (line : String) :
    (envBranch c line).env
      = match declaredBy line with
        | some p => envAssign c.env p.1 p.2
        | none => c.env := by
  unfold envBranch declaredBy
  simp only []
  generalize (split line ' ').drop 1 = parts
  by_cases h₁ : startsWith line "ENV" = true
  · by_cases h₂ : parts.length ≥ 2
    · simp only [h₁, h₂, if_true, and_self]
    · simp only [h₁, h₂, if_true, if_false, and_false]
  · simp only [h₁, if_false, false_and, Bool.false_eq_true]

theorem foldl_foldl_flatMap {σ α β : Type} (f : σ → β → σ) (g : α → List β) (l : List α) :
    ∀ init : σ, l.foldl (fun s x => (g x).foldl f s) init = (l.flatMap g).foldl f init := by
  induction l with
  | nil => intro init; rfl
  | cons x xs ih =>
    intro init
    simp only [List.foldl_cons, List.flatMap_cons, List.foldl_append]
    exact ih _

theorem foldl_filterMap_some {σ α β : Type} (f : σ → β → σ) (d : α → Option β) (l : List α) :
    ∀ init : σ,
      l.foldl (fun s x => match d x with | some p => f s p | none => s) init
        = (l.filterMap d).foldl f init := by
  induction l with
  | nil => intro init; rfl
  | cons x xs ih =>
    intro init
    simp only [List.foldl_cons, List.filterMap_cons]
    cases d x with
    | none => exact ih _
    | some p => simp only [List.foldl_cons]; exact ih _

theorem forEachM_lineStep (lines : List String) :
    ∀ c c' : Config, forEachM lineStep c lines = .ok c' →
      c'.ports = (((lines.map trim).filter
            (fun line => !(startsWith line "#" || decide (line = "")))).flatMap
          (fun line => if startsWith line "EXPOSE" = true then exposedPorts line else [])).foldl
          setAdd c.ports
      ∧ c'.env = (((lines.map trim).filter
            (fun line => !(startsWith line "#" || decide (line = "")))).filterMap declaredBy).foldl
          (fun env p => envAssign env p.1 p.2) c.env := by
  induction lines with
  | nil =>
    intro c c' h
    simp only [forEachM, Except.ok.injEq] at h
    subst h
    exact ⟨rfl, rfl⟩
  | cons raw rest ih =>
    intro c c' h
    simp only [forEachM] at h
    cases hs : lineStep c raw with
    | error e => simp [hs] at h
    | ok c₁ =>
      simp only [hs] at h
      obtain ⟨i₁, i₂⟩ := ih c₁ c' h
      cases hskip : (startsWith (trim raw) "#" || decide (trim raw = "")) with
      | true =>
        rw [lineStep_skip c raw hskip] at hs
        cases hs
        simp only [List.map_cons, List.filter_cons, hskip, Bool.not_true, Bool.false_eq_true,
          if_false]
        exact ⟨i₁, i₂⟩
      | false =>
        obtain ⟨s₁, s₂⟩ := lineStep_ports_env c c₁ raw hskip hs
        simp only [List.map_cons, List.filter_cons, hskip, Bool.not_false, if_true,
          List.flatMap_cons, List.foldl_append, List.filterMap_cons]
        rw [i₁, i₂, s₁, s₂, exposeBranch_ports, envBranch_env, exposeBranch_env]
        refine ⟨rfl, ?_⟩
        cases declaredBy (trim raw) <;> rfl

theorem parseDockerfile_folds (content : String) (cfg : Config)
    (h : parseDockerfile content = .ok cfg) :
    cfg.ports = (((effectiveLines content).filter (fun line => startsWith line "EXPOSE")).flatMap
        exposedPorts).foldl setAdd []
    ∧ cfg.env = (envDeclarations content).foldl (fun env p => envAssign env p.1 p.2) [] := by
  obtain ⟨h₁, h₂⟩ := forEachM_lineStep _ _ _ h
  refine ⟨?_, h₂⟩
  rw [h₁]
  congr 1
  unfold effectiveLines
  generalize ((split content '\n').map trim).filter
    (fun line => !(startsWith line "#" || decide (line = ""))) = ls
  induction ls with
  | nil => rfl
  | cons l ls ih =>
    simp only [List.flatMap_cons, List.filter_cons, ih]
    cases startsWith l "EXPOSE" <;> simp

theorem setAdd_nodup (members : List String) (port : String) (h : members.Nodup) :
    (setAdd members port).Nodup := by
  unfold setAdd
  split
  · exact h
  · next hn => exact List.Nodup.append h (List.nodup_singleton _) (by simpa using hn)

theorem mem_setAdd (members : List String) (port p : String) :
    p ∈ setAdd members port ↔ p ∈ members ∨ p = port := by
  unfold setAdd
  split
  · next hin =>
    constructor
    · exact Or.inl
    · rintro (h | h)
      · exact h
      · exact h ▸ hin
  · simp

theorem foldl_setAdd (tokens : List String) :
    ∀ members : List String, members.Nodup →
      (tokens.foldl setAdd members).Nodup
      ∧ ∀ p, p ∈ tokens.foldl setAdd members ↔ p ∈ members ∨ p ∈ tokens := by
  induction tokens with
  | nil => intro members h; exact ⟨h, by simp⟩
  | cons t ts ih =>
    intro members h
    obtain ⟨i₁, i₂⟩ := ih (setAdd members t) (setAdd_nodup members t h)
    refine ⟨i₁, fun p => ?_⟩
    rw [List.foldl_cons, i₂ p, mem_setAdd, List.mem_cons, or_assoc]

theorem mem_exposedPorts (line port : String) :
    port ∈ exposedPorts line
      ↔ isNaN port = false ∧ ∃ arg ∈ (split line ' ').drop 1, stripProtocol arg = port := by
  unfold exposedPorts stripProtocol
  simp only [List.mem_filter, List.mem_map, Bool.not_eq_true']
  exact and_comm

theorem keys_envAssign (env : List (String × String)) (key value : String)
    (h : (env.map Prod.fst).Nodup) : ((envAssign env key value).map Prod.fst).Nodup := by
  unfold envAssign
  split
  · exact h
  · rw [keys_setOwn]
    split
    · exact h
    · next hn => exact List.Nodup.append h (List.nodup_singleton _) (by simpa using hn)

theorem lookup_envAssign (env : List (String × String)) (key value k : String)
    (hk : k ≠ "__proto__") :
    (envAssign env key value).lookup k = if k = key then some value else env.lookup k := by
  unfold envAssign
  by_cases hkey : key = "__proto__"
  · have hne : ¬ k = key := fun h => hk (h.trans hkey)
    simp only [hkey, if_true]
    rw [if_neg (hkey ▸ hne)]
  · simp only [hkey, if_false]
    by_cases heq : k = key
    · subst heq
      simp only [if_true]
      exact lookup_setOwn_self _ _ _
    · simp only [heq, if_false]
      exact lookup_setOwn_ne _ _ heq

theorem foldl_envAssign (decls : List (String × String)) :
    ∀ env : List (String × String), (env.map Prod.fst).Nodup →
      ((decls.foldl (fun env p => envAssign env p.1 p.2) env).map Prod.fst).Nodup
      ∧ ∀ k, k ≠ "__proto__" →
          (decls.foldl (fun env p => envAssign env p.1 p.2) env).lookup k
            = (decls.reverse.lookup k).orElse (fun _ => env.lookup k) := by
  induction decls with
  | nil =>
    intro env h
    exact ⟨h, fun k _ => by simp [List.lookup]⟩
  | cons d ds ih =>
    intro env h
    obtain ⟨i₁, i₂⟩ := ih (envAssign env d.1 d.2) (keys_envAssign env d.1 d.2 h)
    refine ⟨i₁, fun k hk => ?_⟩
    rw [List.foldl_cons, i₂ k hk, List.reverse_cons, lookup_append_pairs,
      lookup_envAssign env d.1 d.2 k hk]
    cases ds.reverse.lookup k with
    | some v => rfl
    | none =>
      obtain ⟨dk, dv⟩ := d
      by_cases heq : k = dk
      · subst heq
        simp [List.lookup]
      · have hb : (k == dk) = false := by simpa using heq
        simp [List.lookup, heq, hb]

theorem dropWhile_of_all_false {α : Type} (p : α → Bool) (l : List α)
    (h : ∀ a ∈ l, p a = false) : l.dropWhile p = l := by
  cases l with
  | nil => rfl
  | cons a as => simp [List.dropWhile, h a (List.mem_cons_self _ _)]

theorem trimChars_of_no_whiteSpace (cs : List Char) (h : ∀ c ∈ cs, isWhiteSpace c = false) :
    trimChars cs = cs := by
  unfold trimChars
  rw [dropWhile_of_all_false _ cs h,
    dropWhile_of_all_false _ cs.reverse (fun c hc => h c (List.mem_reverse.1 hc)),
    List.reverse_reverse]

theorem digit_not_whiteSpace (c : Char) (h : c.isDigit = true) : isWhiteSpace c = false := by
  have hboth : 48 ≤ c.toNat ∧ c.toNat ≤ 57 := by
    have := h
    simp only [Char.isDigit, Bool.and_eq_true, decide_eq_true_eq] at this
    exact ⟨this.1, this.2⟩
  obtain ⟨h48, h57⟩ := hboth
  unfold isWhiteSpace
  generalize c.toNat = n at h48 h57
  simp only [List.contains, List.elem, Bool.or_eq_false_iff, Bool.and_eq_false_iff,
    decide_eq_false_iff_not, beq_eq_false_iff_ne, ne_eq]
  have e : ∀ m : Nat, m < 48 ∨ 57 < m → (n == m) = false := by
    intro m hm
    have : n ≠ m := by omega
    simpa using this
  simp [e]
  omega

theorem isUnsignedDecimal_of_digits (cs : List Char) (hne : cs ≠ [])
    (h : ∀ c ∈ cs, c.isDigit = true) : isUnsignedDecimal cs = true := by
  have hd : cs.dropWhile Char.isDigit = [] := List.dropWhile_eq_nil_iff.2 h
  have ht : cs.takeWhile Char.isDigit = cs := List.takeWhile_eq_self_iff.2 h
  unfold isUnsignedDecimal
  rw [hd, ht]
  cases cs with
  | nil => exact absurd rfl hne
  | cons c rest => simp [isExponentPartOpt]

theorem isNumericLiteral_of_digits (cs : List Char) (hne : cs ≠ [])
    (h : ∀ c ∈ cs, c.isDigit = true) : isNumericLiteral cs = true := by
  have hsecond : ∀ (a b : Char) (rest : List Char), cs = a :: b :: rest → b.isDigit = true := by
    intro a b rest hcs
    exact h b (by simp [hcs])
  have hfirst : ∀ (a : Char) (rest : List Char), cs = a :: rest → a.isDigit = true := by
    intro a rest hcs
    exact h a (by simp [hcs])
  unfold isNumericLiteral
  split
  · exact absurd (hsecond _ _ _ rfl) (by decide)
  · exact absurd (hsecond _ _ _ rfl) (by decide)
  · exact absurd (hsecond _ _ _ rfl) (by decide)
  · exact absurd (hsecond _ _ _ rfl) (by decide)
  · exact absurd (hsecond _ _ _ rfl) (by decide)
  · exact absurd (hsecond _ _ _ rfl) (by decide)
  · exact absurd (hfirst _ _ rfl) (by decide)
  · exact absurd (hfirst _ _ rfl) (by decide)
  · exact isUnsignedDecimal_of_digits cs hne h

/-- A non-empty string of decimal digits is a number for `isNaN`. -/
theorem isNaN_of_digits (port : String) (hne : port.toList ≠ [])
    (h : port.toList.all Char.isDigit = true) : isNaN port = false := by
  have hall : ∀ c ∈ port.toList, c.isDigit = true := List.all_eq_true.1 h
  unfold isNaN
  rw [trimChars_of_no_whiteSpace _ (fun c hc => digit_not_whiteSpace c (hall c hc)),
    isNumericLiteral_of_digits _ hne hall]
  simp

/-- When `parseDockerfile` returns: it does unless a line that is not skipped
starts with `WORKDIR` and has no second part. -/
theorem parseDockerfile_returns (content : String)
    (h : ∀ line ∈ effectiveLines content, startsWith line "WORKDIR" = true →
      ∃ part, (split line ' ')[1]? = some part) :
    ∃ cfg, parseDockerfile content = .ok cfg := by
  unfold parseDockerfile
  unfold effectiveLines at h
  generalize split content '\n' = lines at h
  generalize ({ ports := [], env := [], workdir := none, entrypoint := none, cmd := none }
    : Config) = c
  induction lines generalizing c with
  | nil => exact ⟨c, rfl⟩
  | cons raw rest ih =>
    have hrest : ∀ line ∈ (rest.map trim).filter
        (fun line => !(startsWith line "#" || decide (line = ""))),
        startsWith line "WORKDIR" = true → ∃ part, (split line ' ')[1]? = some part := by
      intro line hl
      apply h
      simp only [List.map_cons, List.filter_cons]
      split
      · exact List.mem_cons_of_mem _ hl
      · exact hl
    cases hskip : (startsWith (trim raw) "#" || decide (trim raw = "")) with
    | true =>
      simp only [forEachM, lineStep_skip c raw hskip]
      exact ih hrest c
    | false =>
      have hw : ∃ c₃, workdirBranch (envBranch (exposeBranch c (trim raw)) (trim raw)) (trim raw)
          = .ok c₃ := by
        unfold workdirBranch
        by_cases hstart : startsWith (trim raw) "WORKDIR" = true
        · obtain ⟨part, hpart⟩ := h (trim raw)
            (by simp only [List.map_cons, List.filter_cons, hskip, Bool.not_false, if_true]
                exact List.mem_cons_self _ _) hstart
          simp only [hstart, if_true, hpart]
          exact ⟨_, rfl⟩
        · simp only [hstart, if_false]
          exact ⟨_, rfl⟩
      obtain ⟨c₃, hc₃⟩ := hw
      have hstep : lineStep c raw = .ok (cmdBranch (entrypointBranch c₃ (trim raw)) (trim raw)) := by
        unfold lineStep
        simp only [hskip, Bool.false_eq_true, if_false, hc₃]
      simp only [forEachM, hstep]
      exact ih hrest _

theorem intercalate_cons_cons {α : Type} (sep x y : List α) (rest : List (List α)) :
    sep.intercalate (x :: y :: rest) = x ++ sep ++ sep.intercalate (y :: rest) := by
  simp [List.intercalate, List.intersperse]

theorem mem_intercalate {α : Type} (sep : List α) (a : α) :
    ∀ ls : List (List α), a ∈ sep.intercalate ls → a ∈ sep ∨ ∃ l ∈ ls, a ∈ l := by
  intro ls
  induction ls with
  | nil => intro h; simp [List.intercalate] at h
  | cons x rest ih =>
    cases rest with
    | nil =>
      intro h
      have hx : a ∈ x := by simpa [List.intercalate] using h
      exact Or.inr ⟨x, List.mem_cons_self _ _, hx⟩
    | cons y rest =>
      intro h
      rw [intercalate_cons_cons, List.mem_append, List.mem_append] at h
      rcases h with (h | h) | h
      · exact Or.inr ⟨x, List.mem_cons_self _ _, h⟩
      · exact Or.inl h
      · rcases ih h with h' | ⟨l, hl, hal⟩
        · exact Or.inl h'
        · exact Or.inr ⟨l, List.mem_cons_of_mem _ hl, hal⟩

theorem intercalate_comma_space (x : List Char) (rest : List (List Char)) :
    [',', ' '].intercalate (x :: rest)
      = [','].intercalate (x :: rest.map (fun item => ' ' :: item)) := by
  induction rest generalizing x with
  | nil => simp [List.intercalate]
  | cons y rest ih =>
    rw [List.map_cons, intercalate_cons_cons, intercalate_cons_cons, ih y]
    cases rest with
    | nil => simp [List.intercalate]
    | cons z rest =>
      rw [List.map_cons, intercalate_cons_cons, intercalate_cons_cons]
      simp

theorem plainWord_chars (word : String) (h : plainWord word = true) :
    ∀ c ∈ word.toList, isWhiteSpace c = false ∧ isQuote c = false ∧ c ≠ ',' ∧ c ≠ '['
      ∧ c ≠ ']' := by
  intro c hc
  have := List.all_eq_true.1 h c hc
  simpa [and_assoc] using this

theorem removeQuotes_trim_plain (word : String) (h : plainWord word = true) :
    removeQuotes (trim word) = word := by
  have hc := plainWord_chars word h
  unfold removeQuotes trim
  simp only [String.toList] at hc ⊢
  rw [trimChars_of_no_whiteSpace _ (fun c hc' => (hc c hc').1),
    List.filter_eq_self.2 (fun c hc' => by simp [(hc c hc').2.1])]

theorem removeQuotes_trim_quoted (word : String) (h : plainWord word = true) :
    removeQuotes (trim (String.mk (Char.ofNat 34 :: word.data ++ [Char.ofNat 34]))) = word
    ∧ removeQuotes (trim (String.mk (' ' :: (Char.ofNat 34 :: word.data ++ [Char.ofNat 34]))))
        = word := by
  have hc := plainWord_chars word h
  simp only [String.toList] at hc ⊢
  have hq : isWhiteSpace (Char.ofNat 34) = false := by decide
  have hws : ∀ c ∈ Char.ofNat 34 :: word.data ++ [Char.ofNat 34], isWhiteSpace c = false := by
    intro c hmem
    simp only [List.cons_append, List.mem_cons, List.mem_append, List.mem_singleton,
      List.not_mem_nil, or_false] at hmem
    rcases hmem with h | h | h
    · exact h ▸ hq
    · exact (hc c h).1
    · exact h ▸ hq
  have hfilter : (Char.ofNat 34 :: word.data ++ [Char.ofNat 34]).filter (fun c => !isQuote c)
      = word.data := by
    have hkeep : word.data.filter (fun c => !isQuote c) = word.data :=
      List.filter_eq_self.2 (fun c hc' => by simp [(hc c hc').2.1])
    have hqq : isQuote (Char.ofNat 34) = true := by decide
    simp [List.filter_cons, List.filter_append, hqq, hkeep]
  have htrim₁ : trimChars (Char.ofNat 34 :: word.data ++ [Char.ofNat 34])
      = Char.ofNat 34 :: word.data ++ [Char.ofNat 34] :=
    trimChars_of_no_whiteSpace _ hws
  have htrim₂ : trimChars (' ' :: (Char.ofNat 34 :: word.data ++ [Char.ofNat 34]))
      = Char.ofNat 34 :: word.data ++ [Char.ofNat 34] := by
    have hsp : isWhiteSpace ' ' = true := by decide
    have hdrop : (' ' :: (Char.ofNat 34 :: word.data ++ [Char.ofNat 34])).dropWhile isWhiteSpace
        = Char.ofNat 34 :: word.data ++ [Char.ofNat 34] := by
      rw [List.dropWhile_cons, if_pos hsp]
      exact dropWhile_of_all_false _ _ hws
    unfold trimChars
    rw [hdrop]
    exact htrim₁
  unfold removeQuotes trim
  simp only [String.toList]
  rw [htrim₁, htrim₂, hfilter]
  exact ⟨rfl, rfl⟩

theorem substring_middle (before middle after : List Char) :
    substring (String.mk (before ++ middle ++ after)) (before.length : Nat)
        ((before.length + middle.length : Nat) : Int)
      = String.mk middle := by
  unfold substring
  simp only [String.toList, Int.toNat_ofNat, List.length_append]
  have h₁ : min before.length (before.length + middle.length + after.length) = before.length := by
    omega
  have h₂ : min (before.length + middle.length) (before.length + middle.length + after.length)
      = before.length + middle.length := by omega
  have h₃ : min before.length (before.length + middle.length) = before.length := by omega
  have h₄ : max before.length (before.length + middle.length) - before.length
      = middle.length := by omega
  rw [h₁, h₂, h₃, h₄, List.append_assoc, List.drop_left, List.take_left]

/-- The shell form of a command with plain words is parsed to its words. -/
theorem parseCommand_shellForm (keyword : String) (words : List String)
    (hk : ∀ c ∈ keyword.data, c ≠ ' ' ∧ c ≠ '[')
    (hw : ∀ w ∈ words, plainWord w = true) :
    parseCommand (shellForm keyword words) = words := by
  have hdata : (shellForm keyword words).data
      = [' '].intercalate (keyword.data :: words.map String.data) := rfl
  have hnot : ∀ (c : Char), (∃ w ∈ words, c ∈ w.data) →
      isWhiteSpace c = false ∧ c ≠ '[' := by
    rintro c ⟨w, hwm, hc⟩
    have := plainWord_chars w (hw w hwm) c hc
    exact ⟨this.1, this.2.2.2.1⟩
  have hinc : includes (shellForm keyword words) '[' = false := by
    unfold includes
    rw [Bool.eq_false_iff]
    intro hcontains
    have hmem : '[' ∈ (shellForm keyword words).data := by simpa using hcontains
    rw [hdata] at hmem
    rcases mem_intercalate _ _ _ hmem with h | ⟨l, hl, hcl⟩
    · simp at h
    · rcases List.mem_cons.1 hl with h | h
      · exact (hk '[' (h ▸ hcl)).2 rfl
      · obtain ⟨w, hwm, rfl⟩ := List.mem_map.1 h
        exact (hnot '[' ⟨w, hwm, hcl⟩).2 rfl
  have hsplit : split (shellForm keyword words) ' '
      = (keyword.data :: words.map String.data).map String.mk := by
    unfold split
    simp only [String.toList]
    rw [hdata, List.splitOn_intercalate _ ' ' ?_ (List.cons_ne_nil _ _)]
    intro l hl hcl
    rcases List.mem_cons.1 hl with h | h
    · exact (hk ' ' (h ▸ hcl)).1 rfl
    · obtain ⟨w, hwm, rfl⟩ := List.mem_map.1 h
      have := (hnot ' ' ⟨w, hwm, hcl⟩).1
      exact absurd this (by decide)
  unfold parseCommand
  rw [hinc, hsplit]
  simp only [Bool.false_eq_true, if_false, List.map_cons, List.drop_succ_cons, List.drop_zero,
    List.map_map]
  calc words.map ((fun item => removeQuotes (trim item)) ∘ String.mk ∘ String.data)
      = words.map id := List.map_congr_left (fun w hwm => removeQuotes_trim_plain w (hw w hwm))
    _ = words := List.map_id _

/-- The array form of a command with plain words is parsed to its words. -/
theorem parseCommand_arrayForm (keyword : String) (words : List String) (hne : words ≠ [])
    (hk : ∀ c ∈ keyword.data, c ≠ ' ' ∧ c ≠ '[')
    (hw : ∀ w ∈ words, plainWord w = true) :
    parseCommand (arrayForm keyword words) = words := by
  obtain ⟨first, rest, rfl⟩ : ∃ first rest, words = first :: rest := by
    cases words with
    | nil => exact absurd rfl hne
    | cons a as => exact ⟨a, as, rfl⟩
  generalize hinner : [',', ' '].intercalate
    ((first :: rest).map (fun word => Char.ofNat 34 :: word.toList ++ [Char.ofNat 34])) = inner
  have hdata : (arrayForm keyword (first :: rest)).data
      = (keyword.data ++ [' ', '[']) ++ inner ++ [']'] := by
    rw [← hinner]
    rfl
  have hform : arrayForm keyword (first :: rest)
      = String.mk ((keyword.data ++ [' ', '[']) ++ inner ++ [']']) := by
    rw [← hdata]
  have hinc : includes (arrayForm keyword (first :: rest)) '[' = true := by
    unfold includes
    simp only [String.toList]
    rw [hdata]
    simp
  have hfirstIdx : indexOf (arrayForm keyword (first :: rest)) '[' + 1
      = (((keyword.data ++ [' ', '[']).length : Nat) : Int) := by
    unfold indexOf
    have hc : (arrayForm keyword (first :: rest)).toList.contains '[' = true := hinc
    rw [if_pos hc]
    simp only [String.toList]
    rw [hdata, List.append_assoc, List.append_assoc,
      List.indexOf_append_of_not_mem (fun h => (hk '[' h).2 rfl)]
    have : List.indexOf '[' ([' ', '['] ++ (inner ++ [']'])) = 1 := by
      simp [List.indexOf_cons]
    rw [this]
    simp only [List.length_append, List.length_cons, List.length_nil, String.length]
    omega
  have hlastIdx : lastIndexOf (arrayForm keyword (first :: rest)) ']'
      = (((keyword.data ++ [' ', '[']).length + inner.length : Nat) : Int) := by
    unfold lastIndexOf
    simp only [String.toList]
    rw [hdata]
    have hc : ((keyword.data ++ [' ', '[']) ++ inner ++ [']']).contains ']' = true := by simp
    rw [if_pos hc]
    have hr : ((keyword.data ++ [' ', '[']) ++ inner ++ [']']).reverse.indexOf ']' = 0 := by
      rw [List.reverse_append]
      simp [List.indexOf_cons]
    rw [hr]
    simp only [List.length_append, List.length_singleton]
    congr 1
  have hsub : substring (arrayForm keyword (first :: rest))
      (indexOf (arrayForm keyword (first :: rest)) '[' + 1)
      (lastIndexOf (arrayForm keyword (first :: rest)) ']') = String.mk inner := by
    rw [hfirstIdx, hlastIdx, hform]
    exact substring_middle _ _ _
  have hitems : split (String.mk inner) ','
      = (String.mk (Char.ofNat 34 :: first.data ++ [Char.ofNat 34]))
        :: rest.map (fun word =>
            String.mk (' ' :: (Char.ofNat 34 :: word.data ++ [Char.ofNat 34]))) := by
    unfold split
    simp only [String.toList]
    rw [← hinner, List.map_cons, intercalate_comma_space,
      List.splitOn_intercalate _ ',' ?_ (List.cons_ne_nil _ _)]
    · simp [List.map_map, Function.comp_def, String.toList]
    · intro l hl hcl
      have hcomma : ∀ w ∈ first :: rest,
          ',' ∉ Char.ofNat 34 :: w.data ++ [Char.ofNat 34] := by
        intro w hwm hmem
        simp only [List.cons_append, List.mem_cons, List.mem_append, List.mem_singleton,
          List.not_mem_nil, or_false] at hmem
        rcases hmem with h | h | h
        · exact absurd h (by decide)
        · exact (plainWord_chars w (hw w hwm) ',' h).2.2.1 rfl
        · exact absurd h (by decide)
      rcases List.mem_cons.1 hl with h | h
      · exact hcomma first (List.mem_cons_self _ _) (h ▸ hcl)
      · simp only [List.map_map, List.mem_map, Function.comp_apply] at h
        obtain ⟨w, hwm, rfl⟩ := h
        rcases List.mem_cons.1 hcl with h' | h'
        · exact absurd h' (by decide)
        · exact hcomma w (List.mem_cons_of_mem _ hwm) h'
  unfold parseCommand
  rw [hinc, if_pos rfl, hsub, hitems, List.map_cons, List.map_map]
  congr 1
  · exact (removeQuotes_trim_quoted first (hw first (List.mem_cons_self _ _))).1
  · calc rest.map ((fun item => removeQuotes (trim item)) ∘ fun word =>
          String.mk (' ' :: (Char.ofNat 34 :: word.data ++ [Char.ofNat 34])))
        = rest.map id := List.map_congr_left (fun w hwm =>
            (removeQuotes_trim_quoted w (hw w (List.mem_cons_of_mem _ hwm))).2)
      _ = rest := List.map_id _

/-! ## The claims -/

/-- C1, the code at the failing input. The tree holds one build file,
`/repo/constructor/Dockerfile`, so only one definition is processed and no two
names collide; `parseServices` nevertheless writes the duplicate-name warning,
because the read `services['constructor']` finds the member inherited from
`Object.prototype`. With two build files in directories named `__proto__` the
returned object has no entry for that name at all, and two warnings are written. -/
theorem parseServices_warns_without_collision :
    (∃ defs, definitions (Fixture.collab .null) ⟨[["repo", "constructor", "Dockerfile"]], []⟩
        = .ok defs
      ∧ defs.map Prod.fst = ["constructor"])
    ∧ (∃ st, parseServices (Fixture.collab .null) ⟨[["repo", "constructor", "Dockerfile"]], []⟩
        = .ok st
      ∧ st.services.entries.map Prod.fst = ["constructor"]
      ∧ st.log = [LogMsg.duplicateName "constructor"])
    ∧ (∃ st, parseServices (Fixture.collab .null)
          ⟨[["repo", "a", "__proto__", "Dockerfile"], ["repo", "b", "__proto__", "Dockerfile"]], []⟩
        = .ok st
      ∧ st.services.entries.map Prod.fst = []
      ∧ st.log = [LogMsg.duplicateName "__proto__", LogMsg.duplicateName "__proto__"]) :=
  ⟨⟨_, rfl, by decide⟩, ⟨_, rfl, by decide, by decide⟩, ⟨_, rfl, by decide, by decide⟩⟩

/-- C2, the code at the failing input. For the build file
`/repo/__proto__/Dockerfile` the write `services['__proto__'] = {…}` installs
the object literal as the prototype of `services`; the returned object has no
own entry, and a scan cycle registers nothing. Likewise the instruction
`ENV __proto__ x` leaves no key in `env`. -/
theorem parseServices_drops_proto_named_build_file :
    (∃ st, parseServices (Fixture.collab .null) ⟨[["repo", "__proto__", "Dockerfile"]], []⟩
        = .ok st
      ∧ st.services.entries.map Prod.fst = [])
    ∧ (scanEnvironment
          ⟨["repo"], some [.directory "__proto__" (some [.file "Dockerfile"])],
           Fixture.collab .null⟩
          none none none Server.initial).services.map Prod.fst = []
    ∧ (dockerfileEnv [⟨"ENV", ["__proto__", "x"]⟩]).map Prod.fst = [] :=
  ⟨⟨_, rfl, by decide⟩, by decide, by decide⟩

/-- C3, the code at the failing input. For the manifest
`services: web: {ports: [3000]}` the callback `p => p.split(':')[0]` is applied
to a number, which has no `split`: the object literal for `web` is never
built, `parseServices` raises a `TypeError`, and a scan cycle over a tree with
this manifest registers no entry. -/
theorem parseServices_raises_on_numeric_port :
    composeEntry ["repo", "docker-compose.yaml"] (.obj [("ports", .arr [.num 3000])])
      = .error .typeError
    ∧ parseServices (Fixture.collab Fixture.numericPortManifest)
        ⟨[], [["repo", "docker-compose.yaml"]]⟩ = .error .typeError
    ∧ (scanEnvironment
          ⟨["repo"], some [.file "docker-compose.yaml"],
           Fixture.collab Fixture.numericPortManifest⟩
          none none none Server.initial).services = [] :=
  ⟨rfl, rfl, rfl⟩

/-- C4, the code at the failing input. The tree holds a good build file
`app/Dockerfile` and one bad manifest. With the manifest
`services: web: {ports: [3000]}`, and with an empty manifest document (which
parses to `null`), `parseServices` raises; the scan cycle then merges nothing,
although the same tree without the manifest registers `app`. -/
theorem parseServices_fails_on_one_bad_manifest :
    parseServices (Fixture.collab Fixture.numericPortManifest)
        ⟨[["repo", "app", "Dockerfile"]], [["repo", "docker-compose.yaml"]]⟩ = .error .typeError
    ∧ parseServices (Fixture.collab .null)
        ⟨[["repo", "app", "Dockerfile"]], [["repo", "docker-compose.yaml"]]⟩ = .error .typeError
    ∧ (scanEnvironment
          ⟨["repo"], some Fixture.treeWithManifest, Fixture.collab Fixture.numericPortManifest⟩
          none none none Server.initial).services = []
    ∧ (scanEnvironment
          ⟨["repo"], some Fixture.treeWithoutManifest, Fixture.collab Fixture.numericPortManifest⟩
          none none none Server.initial).services = [("app", Fixture.appEntry)] :=
  ⟨rfl, rfl, rfl, rfl⟩

/-- C5. Capture fan-out of `screenshotServices`: the tasks launched for a
registry are, entry by entry and port by port, the task for
`http://localhost:<port>` followed by the task for `http://<name>:<port>`; their
number is twice the total number of exposed ports; and an entry whose
`exposedPorts` is missing or empty contributes no task. -/
theorem screenshotServices_fan_out (registry : Registry) :
    screenshotServices registry
        = registry.flatMap (fun entry =>
            (entry.2.exposedPorts.getD []).flatMap (fun port =>
              [(entry.1, "http://localhost:" ++ port),
               (entry.1, "http://" ++ entry.1 ++ ":" ++ port)]))
    ∧ (screenshotServices registry).length
        = 2 * (registry.map (fun entry => (entry.2.exposedPorts.getD []).length)).sum
    ∧ (∀ (before after : Registry) (name : String) (d : ServiceDef),
        registry = before ++ (name, d) :: after →
        (d.exposedPorts = none ∨ d.exposedPorts = some []) →
        screenshotServices registry = screenshotServices (before ++ after)) := by
  refine ⟨screenshotServices_eq registry, screenshotServices_length registry, ?_⟩
  intro before after name d hreg hports
  have hnil : d.exposedPorts.getD [] = [] := by
    rcases hports with h | h <;> simp [h]
  subst hreg
  simp [screenshotServices_eq, List.flatMap_append, List.flatMap_cons, hnil]

/-- C5, at a registry with a service without ports before the service `app`. -/
theorem screenshotServices_fan_out_witness :
    screenshotServices
        [("idle", { Fixture.appEntry with exposedPorts := none }), ("app", Fixture.appEntry)]
      = screenshotServices [("app", Fixture.appEntry)] :=
  (screenshotServices_fan_out _).2.2 [] [("app", Fixture.appEntry)] "idle"
    { Fixture.appEntry with exposedPorts := none } rfl (Or.inl rfl)

/-- C6. Single-flight: a call of `scanEnvironment` that arrives while
`isScanning` is set leaves the server as it was (the locator is not invoked, the
registry and the flag keep their values, no further call is suspended); and in
every state reachable from the initial one at most one call of
`scanEnvironment` is in flight: one while the flag is set, none while it is clear. -/
theorem single_flight :
    (∀ s : Server, s.isScanning = true → step s Event.request = s)
    ∧ (∀ events : List Event,
        (run Server.initial events).inFlight.length ≤ 1
        ∧ (run Server.initial events).inFlight.length
            = if (run Server.initial events).isScanning then 1 else 0) := by
  refine ⟨?_, ?_⟩
  · intro s hs
    simp [step, scanEnvironmentCall, hs]
  · intro events
    have h := run_preserves_flight events Server.initial (by simp [Server.initial])
    refine ⟨?_, h⟩
    rw [h]
    split <;> simp

/-- C6, at the state in which the first cycle has just started. -/
theorem single_flight_witness :
    (step Server.initial Event.request).isScanning = true
      ∧ step (step Server.initial Event.request) Event.request
          = step Server.initial Event.request :=
  ⟨rfl, single_flight.1 (step Server.initial Event.request) rfl⟩

/-- C7. Guard release: a scan cycle started while the server is idle enters
Scanning, and whatever happens at its three suspension points (a rejection of
the locator, a rejection or an exception of the reducer, a rejection of the
capture round, or none), the call of `scanEnvironment` settles normally with
`isScanning = false` and no call left in flight, so that the next request is
accepted and invokes the locator again. -/
theorem guard_release (w : World) (f₁ f₂ f₃ : Option JSError) (s : Server)
    (hidle : s.isScanning = false) (hnone : s.inFlight = []) :
    (step s Event.request).isScanning = true
    ∧ (scanEnvironment w f₁ f₂ f₃ s).isScanning = false
    ∧ (scanEnvironment w f₁ f₂ f₃ s).inFlight = []
    ∧ (scanEnvironment w f₁ f₂ f₃ s).settled = s.settled ++ [.ok ()]
    ∧ (step (scanEnvironment w f₁ f₂ f₃ s) Event.request).isScanning = true
    ∧ (step (scanEnvironment w f₁ f₂ f₃ s) Event.request).locatorCalls = s.locatorCalls + 2 := by
  obtain ⟨h1, h2, h3, h4, _⟩ := scanEnvironment_of_idle w f₁ f₂ f₃ s hidle hnone
  refine ⟨by simp [step, scanEnvironmentCall, hidle], h1, h2, h3, ?_, ?_⟩
  · simp [step, scanEnvironmentCall, h1]
  · simp [step, scanEnvironmentCall, h1, h4]

/-- C7, at a cycle whose reducer raises, so that the cycle ends before a
capture round is launched. -/
theorem guard_release_witness :
    (scanEnvironment
        ⟨["repo"], some Fixture.treeWithManifest, Fixture.collab Fixture.numericPortManifest⟩
        none none (some .typeError) Server.initial).isScanning = false :=
  (guard_release _ none none (some .typeError) Server.initial rfl rfl).2.1

/-- C8. Registry merge frame: after the merge loop of a scan cycle the registry
maps every name of the reducer's output to the definition it has there, maps
every other name to what it was mapped to before (a name that was not
registered stays unregistered), and every name registered before is registered
after. -/
theorem mergeServices_frame (c : Collaborators) (files : Files) (st : ReduceState)
    (registry : Registry) (h : parseServices c files = .ok st) :
    (∀ name d, st.services.own.lookup name = some d →
      (mergeServices registry st.services).lookup name = some d)
    ∧ (∀ name, st.services.own.lookup name = none →
      (mergeServices registry st.services).lookup name = registry.lookup name)
    ∧ (∀ name, name ∈ registry.map Prod.fst →
      name ∈ (mergeServices registry st.services).map Prod.fst) := by
  have hnd := parseServices_own_nodup c files st h
  refine ⟨?_, ?_, ?_⟩
  · intro name d hl
    exact foldl_setOwn_lookup_of_mem _ _ (ownEntries_keys_nodup hnd)
      (mem_ownEntries.2 (mem_of_lookup_eq_some hl))
  · intro name hl
    apply foldl_setOwn_lookup_of_not_mem
    intro hmem
    exact not_mem_keys_of_lookup_eq_none hl
      ((((ownEntries_perm st.services.own).map Prod.fst).mem_iff).1 hmem)
  · intro name hmem
    exact foldl_setOwn_keys_mono _ _ hmem

/-- C8, at a registry that holds `web` and an older `app` when the reducer
returns a new `app`. -/
theorem mergeServices_frame_witness :
    (mergeServices [("web", Fixture.webEntry), ("app", Fixture.webEntry)]
        ⟨[("app", Fixture.appEntry)], none⟩).lookup "app" = some Fixture.appEntry
    ∧ (mergeServices [("web", Fixture.webEntry), ("app", Fixture.webEntry)]
        ⟨[("app", Fixture.appEntry)], none⟩).lookup "web"
      = List.lookup "web" [("web", Fixture.webEntry), ("app", Fixture.webEntry)] :=
  have h := mergeServices_frame (Fixture.collab .null) ⟨[["repo", "app", "Dockerfile"]], []⟩
    ⟨⟨[("app", Fixture.appEntry)], none⟩, []⟩
    [("web", Fixture.webEntry), ("app", Fixture.webEntry)] rfl
  ⟨h.1 "app" Fixture.appEntry rfl, h.2.1 "web" rfl⟩

/-- C9. Scan idempotence: starting from an idle server, running the scan cycle
twice against the same tree, the same collaborators and the same outcomes of
the awaited steps leaves the registry exactly as running it once does. -/
theorem scanEnvironment_idempotent (w : World) (f₁ f₂ f₃ : Option JSError) (s : Server)
    (hidle : s.isScanning = false) (hnone : s.inFlight = []) :
    (scanEnvironment w f₁ f₂ f₃ (scanEnvironment w f₁ f₂ f₃ s)).services
      = (scanEnvironment w f₁ f₂ f₃ s).services := by
  obtain ⟨h1, h2, _, _, h5⟩ := scanEnvironment_of_idle w f₁ f₂ f₃ s hidle hnone
  obtain ⟨_, _, _, _, h5'⟩ :=
    scanEnvironment_of_idle w f₁ f₂ f₃ (scanEnvironment w f₁ f₂ f₃ s) h1 h2
  rw [h5']
  cases f₁ with
  | some e => simp
  | none =>
    cases f₂ with
    | some e => simp
    | none =>
      cases hp : parseServices w.collab (findDockerFiles w.rootDir w.listing).files with
      | error e => simp
      | ok st =>
        simp only [h5, hp]
        exact merge_idempotent_of_nodup _ _ (parseServices_own_nodup _ _ _ hp)

/-- C9, at the tree with `app/Dockerfile` and the manifest of `web`. -/
theorem scanEnvironment_idempotent_witness :
    (scanEnvironment
        ⟨["repo"], some Fixture.treeWithManifest, Fixture.collab Fixture.webManifest⟩
        none none none
        (scanEnvironment
          ⟨["repo"], some Fixture.treeWithManifest, Fixture.collab Fixture.webManifest⟩
          none none none Server.initial)).services
      = (scanEnvironment
          ⟨["repo"], some Fixture.treeWithManifest, Fixture.collab Fixture.webManifest⟩
          none none none Server.initial).services :=
  scanEnvironment_idempotent _ none none none Server.initial rfl rfl

/-- C10. Locator result of `findDockerFiles`. When the root can be read,
`dockerfiles` holds exactly the paths of the regular files named `Dockerfile`
or ending in `.dockerfile`, and `composeFiles` exactly those of the regular
files named `docker-compose.yml` or `docker-compose.yaml`, that are reached
from the root through readable directories whose names do not begin with `.`
and are not `node_modules`; when the root cannot be read both are empty. No
path is in both lists; when sibling names are distinct, as in a file system, no
path occurs twice; and an unreadable directory only removes its own subtree:
the result is that of the tree without that directory. -/
theorem findDockerFiles_result (rootDir : AbsPath) (entries : List DirEntry) :
    (∀ p, p ∈ (findDockerFiles rootDir (some entries)).files.dockerfiles ↔
      ∃ rel, p = rootDir ++ rel ∧ Reaches isDockerfileName entries rel)
    ∧ (∀ p, p ∈ (findDockerFiles rootDir (some entries)).files.composeFiles ↔
      ∃ rel, p = rootDir ++ rel ∧ Reaches isComposeName entries rel)
    ∧ (findDockerFiles rootDir none).files = ⟨[], []⟩
    ∧ (∀ p, p ∈ (findDockerFiles rootDir (some entries)).files.dockerfiles →
      p ∉ (findDockerFiles rootDir (some entries)).files.composeFiles)
    ∧ (distinctNames entries = true →
      (findDockerFiles rootDir (some entries)).files.dockerfiles.Nodup
        ∧ (findDockerFiles rootDir (some entries)).files.composeFiles.Nodup)
    ∧ (∀ (before after : List DirEntry) (name : String),
      entries = before ++ DirEntry.directory name none :: after →
      (findDockerFiles rootDir (some entries)).files
        = (findDockerFiles rootDir (some (before ++ after))).files) := by
  have hmem : ∀ (recognised : String → Bool) (p : AbsPath),
      p ∈ (locatedIn recognised entries).map (fun rel => rootDir ++ rel) ↔
        ∃ rel, p = rootDir ++ rel ∧ Reaches recognised entries rel := by
    intro recognised p
    simp only [List.mem_map, mem_locatedIn_iff_reaches]
    constructor
    · rintro ⟨rel, h, rfl⟩; exact ⟨rel, rfl, h⟩
    · rintro ⟨rel, rfl, h⟩; exact ⟨rel, h, rfl⟩
  have hinj : Function.Injective (fun rel : List String => rootDir ++ rel) :=
    fun a b hab => List.append_cancel_left hab
  rw [findDockerFiles_files]
  refine ⟨hmem _, hmem _, findDockerFiles_unreadable rootDir, ?_, ?_, ?_⟩
  · intro p hd hc
    obtain ⟨rel, rfl, hr⟩ := (hmem _ p).1 hd
    obtain ⟨rel', he, hr'⟩ := (hmem _ _).1 hc
    have : rel = rel' := List.append_cancel_left he
    subst this
    obtain ⟨n, hn, hdock⟩ := reaches_last _ hr
    obtain ⟨n', hn', hcomp⟩ := reaches_last _ hr'
    rw [hn] at hn'
    have : n = n' := Option.some.inj hn'
    subst this
    rw [compose_name_not_dockerfile n hcomp] at hdock
    cases hdock
  · intro hwf
    exact ⟨(locatedIn_nodup _ entries hwf).map hinj, (locatedIn_nodup _ entries hwf).map hinj⟩
  · intro before after name he
    subst he
    rw [findDockerFiles_files]
    simp [locatedIn_append, locatedIn, locatedAt]

/-- C10, at a tree with an unreadable directory between two readable ones. -/
theorem findDockerFiles_result_witness :
    (findDockerFiles ["repo"] (some Fixture.mixedTree)).files.dockerfiles.Nodup
    ∧ (findDockerFiles ["repo"] (some Fixture.mixedTree)).files
        = ⟨[["repo", "api", "Dockerfile"], ["repo", "web", "prod.dockerfile"]],
           [["repo", "web", "docker-compose.yml"]]⟩ :=
  ⟨((findDockerFiles_result ["repo"] Fixture.mixedTree).2.2.2.2.1 (by decide)).1, by decide⟩

/-- C11. Resource release in `takeScreenshot`: when the context was acquired,
then for every outcome of page creation, navigation, image capture, metadata
write and of the release itself, the trace of the task has exactly one call of
`close`, for the task's own context, and it is the last call before the task
settles; when no context was acquired nothing is closed. -/
theorem takeScreenshot_releases_once (ctx : Nat) (serviceName url iso : String)
    (o : StepOutcomes) :
    (o.newContext = none →
      (takeScreenshot ctx serviceName url iso o).2.count (Call.close ctx) = 1
      ∧ (∀ other, Call.close other ∈ (takeScreenshot ctx serviceName url iso o).2 → other = ctx)
      ∧ (takeScreenshot ctx serviceName url iso o).2.getLast? = some (Call.close ctx))
    ∧ (∀ e, o.newContext = some e →
      (takeScreenshot ctx serviceName url iso o).1 = .error e
      ∧ ∀ other, Call.close other ∉ (takeScreenshot ctx serviceName url iso o).2) := by
  constructor
  · intro hctx
    have hbody : ∀ other, Call.close other ∉ (awaitAll
        [(Call.newPage ctx, o.newPage),
         (Call.goto ctx url, o.goto),
         (Call.screenshot ctx (filename serviceName iso), o.screenshot),
         (Call.writeFile (metadataFilename serviceName), o.writeFile)]).2 := by
      intro other hmem
      have := (awaitAll_trace_initial _).subset hmem
      simp at this
    rw [takeScreenshot_trace ctx serviceName url iso o hctx]
    refine ⟨?_, ?_, ?_⟩
    · rw [List.cons_append, List.count_cons, List.count_append]
      simp [List.count_eq_zero.2 (hbody ctx)]
    · intro other hmem
      rw [List.cons_append, List.mem_cons, List.mem_append, List.mem_singleton] at hmem
      rcases hmem with h | h | h
      · cases h
      · exact absurd h (hbody other)
      · exact Call.close.inj h
    · rw [List.getLast?_append]
      rfl
  · intro e he
    simp [takeScreenshot, he]

/-- C11, at a task whose navigation fails. -/
theorem takeScreenshot_releases_once_witness :
    (takeScreenshot 0 "web" "http://localhost:8080" "2024-05-01T12:34:56.789Z"
        Fixture.gotoFails).2.count (Call.close 0) = 1 :=
  ((takeScreenshot_releases_once 0 "web" "http://localhost:8080" "2024-05-01T12:34:56.789Z"
      Fixture.gotoFails).1 rfl).1

/-- C12, counterexample. In the round over the registry with the one entry
`app` (port `8080`, two tasks), the navigation and the image capture of task
`0` succeed and both calls are made, but its metadata write is rejected: the
task fails. The same holds when only the release of its context is rejected.
The other task succeeds and the round settles normally. -/
theorem screenshotRound_task_fails_after_capture :
    Fixture.writeFails.goto = none ∧ Fixture.writeFails.screenshot = none
    ∧ Fixture.closeFails.goto = none ∧ Fixture.closeFails.screenshot = none
    ∧ (screenshotRound [("app", Fixture.appEntry)] Fixture.noon
        (Fixture.firstTask Fixture.writeFails)).results = [.error .typeError, .ok ()]
    ∧ (screenshotRound [("app", Fixture.appEntry)] Fixture.noon
        (Fixture.firstTask Fixture.closeFails)).results = [.error .typeError, .ok ()]
    ∧ (takeScreenshot 0 "app" "http://localhost:8080" (Fixture.noon 0) Fixture.writeFails).2
        = [Call.newContext 0, Call.newPage 0, Call.goto 0 "http://localhost:8080",
           Call.screenshot 0 (filename "app" (Fixture.noon 0)),
           Call.writeFile (metadataFilename "app"), Call.close 0]
    ∧ (screenshotRound [("app", Fixture.appEntry)] Fixture.noon
        (Fixture.firstTask Fixture.writeFails)).settled = .ok () :=
  ⟨rfl, rfl, rfl, rfl, rfl, rfl, rfl, rfl⟩

/-- C12, amended. Task isolation in `screenshotServices`: for every registry
and every outcome of every call of every task, the round settles normally;
every task of the registry is launched, task `k` being the call of
`takeScreenshot` with the name and the URL of the `k`-th task, which begins
by asking for its context; and task `k` succeeds exactly when all of its own
calls succeed (its context, page, navigation, image capture, metadata write
and release), whatever the outcomes and the times of the other tasks are. -/
theorem screenshotRound_isolation (registry : Registry) (now : Nat → String)
    (outcomes : Nat → StepOutcomes) :
    (screenshotRound registry now outcomes).settled = .ok ()
    ∧ (screenshotRound registry now outcomes).launched = screenshotServices registry
    ∧ (screenshotRound registry now outcomes).results.length
        = (screenshotServices registry).length
    ∧ (∀ k task, (screenshotServices registry)[k]? = some task →
        (launch now outcomes 0 (screenshotServices registry))[k]?
            = some (takeScreenshot k task.1 task.2 (now k) (outcomes k))
        ∧ (takeScreenshot k task.1 task.2 (now k) (outcomes k)).2.head?
            = some (Call.newContext k)
        ∧ (screenshotRound registry now outcomes).results[k]?
            = some (takeScreenshot k task.1 task.2 (now k) (outcomes k)).1)
    ∧ (∀ k, k < (screenshotServices registry).length →
        ((screenshotRound registry now outcomes).results[k]? = some (.ok ())
          ↔ (outcomes k).captureSucceeds = true))
    ∧ (∀ (now' : Nat → String) (outcomes' : Nat → StepOutcomes) (k : Nat),
        outcomes' k = outcomes k →
        (screenshotRound registry now' outcomes').results[k]?
          = (screenshotRound registry now outcomes).results[k]?) := by
  have hres : ∀ (nw : Nat → String) (oc : Nat → StepOutcomes) (k : Nat),
      (screenshotRound registry nw oc).results[k]?
        = (screenshotServices registry)[k]?.map (fun task =>
            (takeScreenshot k task.1 task.2 (nw k) (oc k)).1) := by
    intro nw oc k
    simp [screenshotRound, List.getElem?_map, launch_getElem?, Option.map_map,
      Function.comp_def]
  have hdep : ∀ (nw nw' : Nat → String) (o o' : StepOutcomes) (k : Nat) (task : CaptureTask),
      o' = o → (takeScreenshot k task.1 task.2 (nw' k) o').1
        = (takeScreenshot k task.1 task.2 (nw k) o).1 := by
    intro nw nw' o o' k task ho
    subst ho
    cases hr : (takeScreenshot k task.1 task.2 (nw k) o').1 with
    | ok u =>
      have := (takeScreenshot_result k task.1 task.2 (nw' k) o').2
        ((takeScreenshot_result k task.1 task.2 (nw k) o').1 hr)
      exact this
    | error e =>
      cases hr' : (takeScreenshot k task.1 task.2 (nw' k) o').1 with
      | ok u =>
        have := (takeScreenshot_result k task.1 task.2 (nw k) o').2
          ((takeScreenshot_result k task.1 task.2 (nw' k) o').1 hr')
        rw [hr] at this
        cases this
      | error e' =>
        obtain ⟨c, p, g, s, w, cl⟩ := o'
        revert hr hr'
        cases c <;> cases p <;> cases g <;> cases s <;> cases w <;> cases cl <;>
          simp [takeScreenshot, awaitAll, withCatch_rethrow, withFinally]
  refine ⟨?_, rfl, ?_, ?_, ?_, ?_⟩
  · simp only [screenshotRound]
    rw [show (launch now outcomes 0 (screenshotServices registry)).map (fun r => caught r.1)
        = ((launch now outcomes 0 (screenshotServices registry)).map (fun r => r.1)).map caught
        by simp [List.map_map, Function.comp_def]]
    exact promiseAll_caught _
  · simp [screenshotRound, launch_length]
  · intro k task htask
    refine ⟨?_, ?_, ?_⟩
    · rw [launch_getElem?, htask]
      simp
    · cases hc : (outcomes k).newContext with
      | some e => simp [takeScreenshot, hc]
      | none => rw [takeScreenshot_trace _ _ _ _ _ hc]; rfl
    · rw [hres, htask]
      rfl
  · intro k hk
    rw [hres, List.getElem?_eq_getElem hk]
    simp only [Option.map_some', Option.some.injEq]
    exact takeScreenshot_result _ _ _ _ _
  · intro now' outcomes' k ho
    rw [hres, hres]
    cases (screenshotServices registry)[k]? with
    | none => rfl
    | some task =>
      simp only [Option.map_some', Option.some.injEq]
      exact hdep now now' (outcomes k) (outcomes' k) k task ho

/-- C12 amended, at the round over `app` in which the navigation of task `0`
fails: task `1` succeeds. -/
theorem screenshotRound_isolation_witness :
    (Fixture.firstTask Fixture.gotoFails 1).captureSucceeds = true
    ∧ (screenshotRound [("app", Fixture.appEntry)] Fixture.noon
        (Fixture.firstTask Fixture.gotoFails)).results[1]? = some (.ok ()) :=
  ⟨rfl, ((screenshotRound_isolation [("app", Fixture.appEntry)] Fixture.noon
      (Fixture.firstTask Fixture.gotoFails)).2.2.2.2.1 1 (by decide)).2 rfl⟩

/-- C13. Bounded retry in `isServiceHealthy` with `maxRetries = N`: the check
always returns and never raises; the attempts made are the attempts
`0, 1, …, made - 1` in this order with `made ≤ N`; every attempt before the
last one made has failed; the check returns `true` exactly when the last
attempt made succeeds, and `false` exactly when all `N` attempts were made and
failed; so the result is `true` if and only if one of the first `N` attempts
succeeds. -/
theorem isServiceHealthy_bounded_retry (maxRetries : Nat) (url : String)
    (outcomes : Nat → StepOutcomes) :
    (∃ made, made ≤ maxRetries
      ∧ attemptsMade (isServiceHealthy maxRetries url outcomes).2 = List.range made
      ∧ (∀ j, j + 1 < made → (outcomes j).attemptSucceeds = false)
      ∧ (((isServiceHealthy maxRetries url outcomes).1 = .ok true
            ∧ 0 < made ∧ (outcomes (made - 1)).attemptSucceeds = true)
          ∨ ((isServiceHealthy maxRetries url outcomes).1 = .ok false
            ∧ made = maxRetries
            ∧ ∀ j, j < maxRetries → (outcomes j).attemptSucceeds = false)))
    ∧ ((isServiceHealthy maxRetries url outcomes).1 = .ok true
        ↔ ∃ j, j < maxRetries ∧ (outcomes j).attemptSucceeds = true)
    ∧ ((isServiceHealthy maxRetries url outcomes).1 = .ok false
        ↔ ∀ j, j < maxRetries → (outcomes j).attemptSucceeds = false) := by
  obtain ⟨made, hmade, hle, hbefore, hres⟩ := isServiceHealthyFrom_spec url outcomes maxRetries 0
  simp only [Nat.zero_add] at hbefore hres
  have hne : (Except.ok true : Except JSError Bool) ≠ .ok false := by
    intro h
    cases h
  refine ⟨⟨made, hle, ?_, hbefore, ?_⟩, ?_, ?_⟩
  · rw [isServiceHealthy, hmade, List.range_eq_range']
  · rcases hres with ⟨h, hpos, hlast⟩ | ⟨h, hall, hfail⟩
    · exact Or.inl ⟨h, hpos, hlast⟩
    · exact Or.inr ⟨h, hall, fun j hj => hfail j (hall ▸ hj)⟩
  · rw [isServiceHealthy]
    rcases hres with ⟨h, hpos, hlast⟩ | ⟨h, hall, hfail⟩
    · exact ⟨fun _ => ⟨made - 1, by omega, hlast⟩, fun _ => h⟩
    · constructor
      · intro ht
        rw [h] at ht
        exact absurd ht.symm hne
      · rintro ⟨j, hj, hs⟩
        rw [hfail j (hall ▸ hj)] at hs
        cases hs
  · rw [isServiceHealthy]
    rcases hres with ⟨h, hpos, hlast⟩ | ⟨h, hall, hfail⟩
    · constructor
      · intro hf
        rw [h] at hf
        exact absurd hf hne
      · intro hfail
        rw [hfail (made - 1) (by omega)] at hlast
        cases hlast
    · exact ⟨fun _ j hj => hfail j (hall ▸ hj), fun _ => h⟩

/-- C18. Artifact naming: the image of a capture of service `s` at time `t`
is named `s-t'.png`, where `t'` is `t` with every `:` and every `.` replaced
by `-` (so `t'` contains neither), and the metadata file is named
`s-metadata.json`; these are the names that a task passes to the image
capture and to the metadata write; and two distinct times of the ISO form
`…Thh:mm:ss.fffZ` give distinct image names for the same service. -/
theorem artifact_naming (serviceName : String) :
    (∀ iso, filename serviceName iso = serviceName ++ "-" ++ timestamp iso ++ ".png"
      ∧ (timestamp iso).toList
          = iso.toList.map (fun c => if c = ':' ∨ c = '.' then '-' else c)
      ∧ ':' ∉ (timestamp iso).toList ∧ '.' ∉ (timestamp iso).toList)
    ∧ metadataFilename serviceName = serviceName ++ "-metadata.json"
    ∧ (∀ ctx url iso, (takeScreenshot ctx serviceName url iso Fixture.allSucceed).2
        = [Call.newContext ctx, Call.newPage ctx, Call.goto ctx url,
           Call.screenshot ctx (filename serviceName iso),
           Call.writeFile (metadataFilename serviceName), Call.close ctx])
    ∧ (∀ t₁ t₂, isISOString t₁ = true → isISOString t₂ = true → t₁ ≠ t₂ →
        filename serviceName t₁ ≠ filename serviceName t₂) := by
  refine ⟨fun iso => ⟨rfl, rfl, ?_, ?_⟩, rfl, fun ctx url iso => rfl, ?_⟩
  · exact (timestamp_chars iso.toList).1
  · exact (timestamp_chars iso.toList).2
  · intro t₁ t₂ h₁ h₂ hne h
    exact hne (filename_injective serviceName t₁ t₂ h₁ h₂ h)

/-- C18, at two captures of `web` one millisecond apart. -/
theorem artifact_naming_witness :
    filename "web" "2024-05-01T12:34:56.789Z" ≠ filename "web" "2024-05-01T12:34:56.790Z" :=
  (artifact_naming "web").2.2.2 "2024-05-01T12:34:56.789Z" "2024-05-01T12:34:56.790Z"
    (by decide) (by decide) (by decide)

/-- C19. With `maxRetries = 5` and a URL whose navigation fails at every
attempt, `isServiceHealthy` returns `false` after having opened the five
contexts `0, …, 4` and closed none of them; a context is closed only by an
attempt whose navigation succeeded. -/
theorem isServiceHealthy_leaks_failed_contexts :
    (isServiceHealthy 5 "http://localhost:8080" (fun _ => Fixture.gotoFails)).1 = .ok false
    ∧ attemptsMade (isServiceHealthy 5 "http://localhost:8080"
        (fun _ => Fixture.gotoFails)).2 = [0, 1, 2, 3, 4]
    ∧ (∀ i, Call.close i ∉ (isServiceHealthy 5 "http://localhost:8080"
        (fun _ => Fixture.gotoFails)).2)
    ∧ (isServiceHealthy 1 "http://localhost:8080" (fun _ => Fixture.gotoFails)).2
        = [Call.newContext 0, Call.newPage 0, Call.goto 0 "http://localhost:8080", Call.wait]
    ∧ (∀ i url o ctx, Call.close ctx ∈ (healthAttempt i url o).2 →
        ctx = i ∧ o.newContext = none ∧ o.newPage = none ∧ o.goto = none) := by
  refine ⟨rfl, rfl, ?_, rfl, fun i url o ctx h => (healthAttempt_close i url o ctx).1 h⟩
  intro i
  simp [isServiceHealthy, isServiceHealthyFrom, healthAttempt, awaitAll, Fixture.gotoFails,
    Fixture.allSucceed]

/-- C14, counterexample. In the cycle over `app/Dockerfile` and the manifest of
`web`, once the reducer's output has been merged and the capture round has
been launched the server is still Scanning, and a scan request that arrives
then is dropped: it changes nothing and does not invoke the locator. -/
theorem capture_round_holds_guard :
    (run Server.initial [Event.request, Event.resume Fixture.world none 0,
        Event.resume Fixture.world none 0]).services.map Prod.fst = ["app", "web"]
    ∧ (run Server.initial [Event.request, Event.resume Fixture.world none 0,
        Event.resume Fixture.world none 0]).captureRounds.length = 1
    ∧ (run Server.initial [Event.request, Event.resume Fixture.world none 0,
        Event.resume Fixture.world none 0]).inFlight = [Phase.capturing]
    ∧ (run Server.initial [Event.request, Event.resume Fixture.world none 0,
        Event.resume Fixture.world none 0]).isScanning = true
    ∧ (run Server.initial [Event.request, Event.resume Fixture.world none 0,
        Event.resume Fixture.world none 0, Event.request]).locatorCalls = 1
    ∧ (run Server.initial [Event.request, Event.resume Fixture.world none 0,
        Event.resume Fixture.world none 0, Event.request]).inFlight = [Phase.capturing] := by
  refine ⟨by decide, by decide, by decide, by decide, by decide, by decide⟩

/-- C14, amended. The capture round runs inside the single-flight guard: in a
cycle started while the server is idle and whose reducer returns, the
reducer's output is merged, the capture round is launched on the merged
registry, and the state stays Scanning while the round is running, so that a
scan request that arrives then is dropped; the state returns to Idle only when
the capture round settles, normally or by rejection, and the request after
that is accepted. -/
theorem capture_round_inside_guard (w : World) (s : Server) (st : ReduceState)
    (hidle : s.isScanning = false) (hnone : s.inFlight = [])
    (hparse : parseServices w.collab (findDockerFiles w.rootDir w.listing).files = .ok st) :
    (run s [Event.request, Event.resume w none 0, Event.resume w none 0]).services
        = mergeServices s.services st.services
    ∧ (run s [Event.request, Event.resume w none 0, Event.resume w none 0]).captureRounds
        = s.captureRounds ++ [screenshotServices (mergeServices s.services st.services)]
    ∧ (run s [Event.request, Event.resume w none 0, Event.resume w none 0]).inFlight
        = [Phase.capturing]
    ∧ (run s [Event.request, Event.resume w none 0, Event.resume w none 0]).isScanning = true
    ∧ step (run s [Event.request, Event.resume w none 0, Event.resume w none 0]) Event.request
        = run s [Event.request, Event.resume w none 0, Event.resume w none 0]
    ∧ (∀ (w' : World) (f₃ : Option JSError),
        (run s [Event.request, Event.resume w none 0, Event.resume w none 0,
            Event.resume w' f₃ 0]).isScanning = false
        ∧ (run s [Event.request, Event.resume w none 0, Event.resume w none 0,
            Event.resume w' f₃ 0]).inFlight = []
        ∧ (run s [Event.request, Event.resume w none 0, Event.resume w none 0,
            Event.resume w' f₃ 0, Event.request]).locatorCalls = s.locatorCalls + 2) := by
  have hrun : run s [Event.request, Event.resume w none 0, Event.resume w none 0]
      = { s with
          isScanning := true
          locatorCalls := s.locatorCalls + 1
          inFlight := [Phase.capturing]
          services := mergeServices s.services st.services
          captureRounds := s.captureRounds
            ++ [screenshotServices (mergeServices s.services st.services)]
          log := s.log ++ [LogMsg.scanning] ++ (findDockerFiles w.rootDir w.listing).log
            ++ st.log } := by
    simp [run, step, scanEnvironmentCall, scanEnvironmentResume, tryBlock, hidle, hnone, hparse]
  have hsplit : ∀ (tail : List Event),
      run s ([Event.request, Event.resume w none 0, Event.resume w none 0] ++ tail)
        = run (run s [Event.request, Event.resume w none 0, Event.resume w none 0]) tail := by
    intro tail
    simp [run, List.foldl_append]
  refine ⟨by rw [hrun], by rw [hrun], by rw [hrun], by rw [hrun], ?_, ?_⟩
  · rw [hrun]
    simp [step, scanEnvironmentCall]
  · intro w' f₃
    have h1 := hsplit [Event.resume w' f₃ 0]
    have h2 := hsplit [Event.resume w' f₃ 0, Event.request]
    simp only [List.cons_append, List.nil_append] at h1 h2
    rw [h1, h2, hrun]
    cases f₃ <;>
      simp [run, step, scanEnvironmentCall, scanEnvironmentResume, tryBlock, finallyBlock]

/-- C14 amended, at the cycle over `app/Dockerfile` and the manifest of `web`. -/
theorem capture_round_inside_guard_witness :
    (run Server.initial [Event.request, Event.resume Fixture.world none 0,
        Event.resume Fixture.world none 0]).isScanning = true :=
  (capture_round_inside_guard Fixture.world Server.initial
    ⟨(ServicesObj.empty.assign "app" Fixture.appEntry).assign "web" Fixture.webEntry,
     []⟩ rfl rfl rfl).2.2.2.1

/-- C17, the code at the failing input. The tree holds the build file
`/repo/constructor/Dockerfile` and a manifest whose only service is named
`constructor`: one build-file-derived and one manifest-derived definition of
the same name. The result has the single entry of the manifest, but two
duplicate-name warnings are written, the first of them for the build file,
before any other definition was processed: the read `services['constructor']`
on the empty object finds the member inherited from `Object.prototype`. -/
theorem parseServices_cross_kind_inherited_name :
    (∃ defs, definitions (Fixture.collab Fixture.constructorManifest)
          ⟨[["repo", "constructor", "Dockerfile"]], [["repo", "docker-compose.yaml"]]⟩
        = .ok defs
      ∧ defs.map (fun p => (p.1, p.2.type))
          = [("constructor", "dockerfile"), ("constructor", "compose")])
    ∧ (∃ st, parseServices (Fixture.collab Fixture.constructorManifest)
          ⟨[["repo", "constructor", "Dockerfile"]], [["repo", "docker-compose.yaml"]]⟩
        = .ok st
      ∧ st.services.entries.map (fun p => (p.1, p.2.type)) = [("constructor", "compose")]
      ∧ st.log = [LogMsg.duplicateName "constructor", LogMsg.duplicateName "constructor"])
    ∧ (store ⟨ServicesObj.empty, []⟩ "constructor" Fixture.appEntry).log
        = [LogMsg.duplicateName "constructor"] :=
  ⟨⟨_, rfl, by decide⟩, ⟨_, rfl, by decide, by decide⟩, by decide⟩

/-- C15, counterexample. For the line `EXPOSE 8080/tcp 1e3 -1  0x50 .5` the
returned list of ports holds, besides `8080`, the tokens `1e3`, `-1`, `0x50`
and `.5`, none of which is made only of digits, and the empty token that
stands between the two consecutive spaces. -/
theorem parseDockerfile_keeps_numeric_tokens :
    ∃ cfg, parseDockerfile "EXPOSE 8080/tcp 1e3 -1  0x50 .5" = .ok cfg
      ∧ cfg.ports = ["8080", "1e3", "-1", "", "0x50", ".5"] :=
  ⟨_, rfl, by decide⟩

/-- C15, amended. Whenever `parseDockerfile` returns, the returned list of
ports has no repetition, and its elements are exactly the arguments of the
`EXPOSE` lines, with what follows the first `/` stripped (`8080/tcp` gives
`8080`), that JavaScript's `isNaN` accepts as a number; in particular every
stripped argument that is a non-empty string of decimal digits is an element,
and every argument for which `isNaN` holds after stripping is dropped. -/
theorem parseDockerfile_ports (content : String) (cfg : Config)
    (h : parseDockerfile content = .ok cfg) :
    cfg.ports.Nodup
    ∧ (∀ port, port ∈ cfg.ports
        ↔ isNaN port = false ∧ ∃ arg ∈ exposeArguments content, stripProtocol arg = port)
    ∧ (∀ arg ∈ exposeArguments content, (stripProtocol arg).toList ≠ [] →
        (stripProtocol arg).toList.all Char.isDigit = true → stripProtocol arg ∈ cfg.ports)
    ∧ stripProtocol "8080/tcp" = "8080" := by
  obtain ⟨hp, _⟩ := parseDockerfile_folds content cfg h
  obtain ⟨hnd, hmem⟩ := foldl_setAdd
    (((effectiveLines content).filter (fun line => startsWith line "EXPOSE")).flatMap
      exposedPorts) [] List.nodup_nil
  have hiff : ∀ port, port ∈ cfg.ports
      ↔ isNaN port = false ∧ ∃ arg ∈ exposeArguments content, stripProtocol arg = port := by
    intro port
    rw [hp, hmem port]
    simp only [List.not_mem_nil, false_or, List.mem_flatMap, List.mem_filter, exposeArguments,
      mem_exposedPorts]
    constructor
    · rintro ⟨line, hline, hnan, arg, harg, hstrip⟩
      exact ⟨hnan, arg, ⟨line, hline, harg⟩, hstrip⟩
    · rintro ⟨hnan, arg, ⟨line, hline, harg⟩, hstrip⟩
      exact ⟨line, hline, hnan, arg, harg, hstrip⟩
  refine ⟨hp ▸ hnd, hiff, ?_, by decide⟩
  intro arg harg hne hdigits
  exact (hiff _).2 ⟨isNaN_of_digits _ hne hdigits, arg, harg, rfl⟩

/-- C15 amended, at a file with two `EXPOSE` lines. -/
theorem parseDockerfile_ports_witness :
    ∃ cfg, parseDockerfile "EXPOSE 8080/tcp 1e3 abc\nEXPOSE 53/udp 8080" = .ok cfg
      ∧ cfg.ports = ["8080", "1e3", "53"] ∧ cfg.ports.Nodup :=
  ⟨_, rfl, by decide,
    (parseDockerfile_ports "EXPOSE 8080/tcp 1e3 abc\nEXPOSE 53/udp 8080" _ rfl).1⟩

/-- C16, counterexample. For the text with the lines `EXPOSE 8080` and
`ENV FOO=bar` the result has the ports `["8080"]` and an empty `env`: the
line `ENV FOO=bar` has one part after the keyword, and the branch requires
two. -/
theorem parseDockerfile_ignores_key_equals_value :
    ∃ cfg, parseDockerfile "EXPOSE 8080\nENV FOO=bar" = .ok cfg
      ∧ cfg.ports = ["8080"] ∧ cfg.env = [] :=
  ⟨_, rfl, by decide, by decide⟩

/-- C16, amended. Whenever `parseDockerfile` returns, the keys of the returned
`env` are unique, and every key other than `__proto__` is mapped to the value
of the last line of the form `ENV key value…` that declares it (the parts
after the key joined by spaces, quotes removed), and is absent when no such
line declares it; a line `ENV FOO=bar` declares nothing, so the text with the
lines `EXPOSE 8080` and `ENV FOO=bar` has no declaration, and the text with
the lines `EXPOSE 8080` and `ENV FOO bar` declares `FOO` as `bar`. -/
theorem parseDockerfile_env (content : String) (cfg : Config)
    (h : parseDockerfile content = .ok cfg) :
    (cfg.env.map Prod.fst).Nodup
    ∧ (∀ key, key ≠ "__proto__" →
        cfg.env.lookup key = (envDeclarations content).reverse.lookup key)
    ∧ envDeclarations "EXPOSE 8080\nENV FOO=bar" = []
    ∧ envDeclarations "EXPOSE 8080\nENV FOO bar" = [("FOO", "bar")]
    ∧ (∃ parsed, parseDockerfile "EXPOSE 8080\nENV FOO bar" = .ok parsed
        ∧ parsed.ports = ["8080"] ∧ parsed.env = [("FOO", "bar")]) := by
  obtain ⟨_, he⟩ := parseDockerfile_folds content cfg h
  obtain ⟨hnd, hlook⟩ := foldl_envAssign (envDeclarations content) [] List.nodup_nil
  refine ⟨he ▸ hnd, ?_, by decide, by decide, ⟨_, rfl, by decide, by decide⟩⟩
  intro key hkey
  rw [he, hlook key hkey]
  cases (envDeclarations content).reverse.lookup key <;> simp [List.lookup]

/-- C16 amended, at a file that declares `FOO` twice. -/
theorem parseDockerfile_env_witness :
    ∃ cfg, parseDockerfile "ENV FOO bar\nEXPOSE 8080\nENV FOO \"baz qux\"" = .ok cfg
      ∧ cfg.env = [("FOO", "baz qux")]
      ∧ cfg.env.lookup "FOO"
          = (envDeclarations "ENV FOO bar\nEXPOSE 8080\nENV FOO \"baz qux\"").reverse.lookup
              "FOO" :=
  ⟨_, rfl, by decide,
    (parseDockerfile_env "ENV FOO bar\nEXPOSE 8080\nENV FOO \"baz qux\"" _ rfl).2.1 "FOO"
      (by decide)⟩

/-- C20, the code at the failing input. The shell-form line `CMD echo [hello]`
has the words `echo` and `[hello]` after the keyword, but `parseCommand`
takes it for the array form, because it contains `[`, and returns the one
item `hello`; the same command without the brackets is parsed as the shell
form, and the array form of a command agrees with its shell form. -/
theorem parseCommand_takes_bracket_for_array_form :
    shellForm "CMD" ["echo", "[hello]"] = "CMD echo [hello]"
    ∧ parseCommand "CMD echo [hello]" = ["hello"]
    ∧ (split "CMD echo [hello]" ' ').drop 1 = ["echo", "[hello]"]
    ∧ shellForm "CMD" ["echo", "hello"] = "CMD echo hello"
    ∧ parseCommand "CMD echo hello" = ["echo", "hello"]
    ∧ arrayForm "CMD" ["echo", "hello"] = "CMD [\"echo\", \"hello\"]"
    ∧ parseCommand "CMD [\"echo\", \"hello\"]" = ["echo", "hello"] :=
  ⟨by decide, by decide, by decide, by decide, by decide, by decide, by decide⟩
